import Mathlib

/-!
Verification development for the kvdb key-value store (Bitcask-style
log-structured store).

The Go source is shallowly embedded: files are lists of bytes (`Nat` values
below 256), machine integers are `Nat` (with explicit truncation where
overflow matters), fallible operations return `Except Err`, and the
in-memory key directory is a finite map from key bytes to locations.
The definitions follow the packages `internal/record`, `internal/datafile`,
`internal/keydir`, `internal/filemanager`, `internal/hintfile` and the
`kvdb` store facade.
-/

namespace KVDB

/-- Error values mirroring the Go error taxonomy of the store. -/
inductive Err where
  | keyNotFound
  | crcMismatch
  | keyTooLarge
  | valueTooLarge
  | eofErr
  | unexpectedEof
  | notDataFile
  | versionIncompatible
  | fileNotFound
  | fuelOut
  deriving DecidableEq, Repr

instance {ε α : Type} [DecidableEq ε] [DecidableEq α] : DecidableEq (Except ε α) := fun
  | .ok a, .ok b =>
      if h : a = b then .isTrue (by rw [h]) else .isFalse (by intro hc; cases hc; exact h rfl)
  | .ok _, .error _ => .isFalse (by intro hc; cases hc)
  | .error _, .ok _ => .isFalse (by intro hc; cases hc)
  | .error e, .error e' =>
      if h : e = e' then .isTrue (by rw [h]) else .isFalse (by intro hc; cases hc; exact h rfl)

/-- Modelled from the spec: the `internal/constants` package is not present in
the source tree (only its callers are); the spec fixes the hard caps as
max key size 1024 bytes and max value size 1,048,576 bytes. -/
def MaxKeySize : Nat := 1024

/-- Modelled from the spec: see `MaxKeySize`. -/
def MaxValueSize : Nat := 1048576

/-! ## Little-endian integer codec (`encoding/binary` LittleEndian) -/

/-- `uintLE w n` is the `w`-byte little-endian encoding of `n % 256^w`,
mirroring `binary.LittleEndian.PutUintXX`. -/
def uintLE : Nat → Nat → List Nat
  | 0, _ => []
  | w + 1, n => n % 256 :: uintLE w (n / 256)

/-- Decode a little-endian byte sequence, mirroring `binary.LittleEndian.UintXX`. -/
def decodeLE (l : List Nat) : Nat :=
  l.foldr (fun b acc => b + 256 * acc) 0

/-! ## CRC32 (IEEE), the reflected algorithm computed by `hash/crc32.NewIEEE` -/

/-- The reversed IEEE polynomial used by Go's `crc32.IEEETable`. -/
def crcPoly : Nat := 0xEDB88320

/-- One bit-step of the reflected CRC32 algorithm. -/
def crcStep1 (c : Nat) : Nat :=
  if c % 2 = 1 then (c / 2) ^^^ crcPoly else c / 2

/-- Eight bit-steps: processing of one input byte after it was xor-ed in. -/
def crcStep8 (c : Nat) : Nat :=
  crcStep1 (crcStep1 (crcStep1 (crcStep1 (crcStep1 (crcStep1 (crcStep1 (crcStep1 c)))))))

/-- Fold in a single byte, as `crc32.Update` does per input byte. -/
def crcUpdateByte (c b : Nat) : Nat := crcStep8 (c ^^^ b)

/-- Fold a byte string into the running CRC state. -/
def crcUpdate (c : Nat) (l : List Nat) : Nat := l.foldl crcUpdateByte c

/-- `crc32 l` is `crc32.ChecksumIEEE l`: initial state `0xFFFFFFFF`,
final complement. -/
def crc32 (l : List Nat) : Nat := crcUpdate 0xFFFFFFFF l ^^^ 0xFFFFFFFF

/-! ## Record codec (`internal/record`)

A record is `20-byte header ‖ key ‖ value ‖ 4-byte CRC32`; integers are
little-endian (`record/writer.go`, `writeRecord`). -/

/-- `recordHeaderSize` from `internal/record`. -/
def recordHeaderSize : Nat := 20

/-- `recordTypePut = 0x50`. -/
def recordTypePut : Nat := 0x50

/-- `RecordTypeDelete = 0x44`. -/
def recordTypeDelete : Nat := 0x44

/-- `record.Header`: timestamp (Unix microseconds), key/value sizes,
record type and value type. -/
structure Header where
  timestamp : Nat
  keySize : Nat
  valueSize : Nat
  recordType : Nat
  valueType : Nat
  deriving DecidableEq, Repr

/-- `record.Record` (header, key bytes, value bytes, total size). -/
structure Record where
  header : Header
  key : List Nat
  value : List Nat
  size : Nat
  deriving DecidableEq, Repr

/-- `record.newRecord`: builds a record with the supplied timestamp (the Go
code calls `time.Now()`; the caller of the model passes the clock value). -/
def newRecord (ts : Nat) (key value : List Nat) (recordType : Nat) : Record :=
  { header :=
      { timestamp := ts
        keySize := key.length
        valueSize := value.length
        recordType := recordType
        valueType := 0x0 }
    key := key
    value := value
    size := recordHeaderSize + key.length + value.length + 4 }

/-- The 20 header bytes produced by `Writer.writeRecord`: timestamp (8,
little-endian), key size (4), value size (4), record type, value type and
two reserved zero bytes. -/
def encodeHeader (h : Header) : List Nat :=
  uintLE 8 h.timestamp ++ uintLE 4 h.keySize ++ uintLE 4 h.valueSize ++
    [h.recordType % 256, h.valueType % 256, 0, 0]

/-- The full byte string `Writer.writeRecord` appends for a record:
header ‖ key ‖ value ‖ CRC32(header ‖ key ‖ value). -/
def encodeRecord (r : Record) : List Nat :=
  let body := encodeHeader r.header ++ r.key ++ r.value
  body ++ uintLE 4 (crc32 body)

/-! ### Byte-level file reads

`Reader` (`record/reader.go`) uses `file.ReadAt`, which returns `io.EOF`
whenever fewer bytes than requested are available.  The sequential scanner
(`record/scanner.go`) uses `io.ReadFull` on a buffered reader, which returns
`io.EOF` only when no byte at all is available and `io.ErrUnexpectedEOF` on a
partial read. -/

/-- `file.ReadAt`: the requested slice, or `io.EOF` when the file is too short. -/
def readAtBytes (f : List Nat) (off n : Nat) : Except Err (List Nat) :=
  if off + n ≤ f.length then .ok ((f.drop off).take n) else .error .eofErr

/-- `io.ReadFull` on the scanner's buffered reader positioned at `off`. -/
def readFullBytes (f : List Nat) (off n : Nat) : Except Err (List Nat) :=
  if off + n ≤ f.length then .ok ((f.drop off).take n)
  else if f.length ≤ off then .error .eofErr
  else .error .unexpectedEof

/-- `datafile.FileHeaderSize` (19 bytes). -/
def FileHeaderSize : Nat := 19

/-- Decode the 20 header bytes (`Reader.readHeader` / `Scanner.readHeader`),
without the size checks. -/
def decodeHeaderBytes (b : List Nat) : Header :=
  { timestamp := decodeLE (b.take 8)
    keySize := decodeLE ((b.drop 8).take 4)
    valueSize := decodeLE ((b.drop 12).take 4)
    recordType := b.getD 16 0
    valueType := b.getD 17 0 }

/-- `Reader.readHeader`: read 20 bytes at `off`, decode, and reject key/value
sizes beyond the caps (`ErrKeyTooLarge` / `ErrValueTooLarge`). -/
def readHeaderAt (f : List Nat) (off : Nat) : Except Err Header := do
  let bytes ← readAtBytes f off recordHeaderSize
  let h := decodeHeaderBytes bytes
  if h.keySize > MaxKeySize then .error .keyTooLarge
  else if h.valueSize > MaxValueSize then .error .valueTooLarge
  else pure h

/-- `Reader.ReadValueAt`: read the header at `offset + FileHeaderSize`, skip
the key, read only the value.  No CRC is computed. -/
def readValueAt (f : List Nat) (offset : Nat) : Except Err Record := do
  let currentOffset := offset + FileHeaderSize
  let h ← readHeaderAt f currentOffset
  let value ← readAtBytes f (currentOffset + recordHeaderSize + h.keySize) h.valueSize
  pure { header := h, key := [], value := value
         size := recordHeaderSize + h.keySize + h.valueSize + 4 }

/-- `Reader.ReadRecordAtStrict`: read header, key, value and trailing CRC at
`offset + FileHeaderSize`; recompute CRC32 over header ‖ key ‖ value and fail
with `ErrCrcChecksumMismatch` on disagreement. -/
def readRecordAtStrict (f : List Nat) (offset : Nat) : Except Err Record := do
  let co := offset + FileHeaderSize
  let headerBytes ← readAtBytes f co recordHeaderSize
  let h := decodeHeaderBytes headerBytes
  if h.keySize > MaxKeySize then .error .keyTooLarge
  else if h.valueSize > MaxValueSize then .error .valueTooLarge
  else do
    let key ← readAtBytes f (co + recordHeaderSize) h.keySize
    let value ← readAtBytes f (co + recordHeaderSize + h.keySize) h.valueSize
    let crcBytes ← readAtBytes f (co + recordHeaderSize + h.keySize + h.valueSize) 4
    let crc := crc32 (headerBytes ++ key ++ value)
    if decodeLE crcBytes ≠ crc then .error .crcMismatch
    else pure { header := h, key := key, value := value
                size := recordHeaderSize + h.keySize + h.valueSize + 4 }

/-- `Writer.writeRecord` followed by the bookkeeping of `WriteKeyValue` /
`WriteTombstone`: appends the encoded record to the file and returns the
offset (from the start of the file) at which the record header begins.
The Go writer can fail only on file-system I/O, so the model always
succeeds. -/
def writeRecord (f : List Nat) (r : Record) : Except Err (Nat × List Nat) :=
  .ok (f.length, f ++ encodeRecord r)

/-- `Writer.WriteKeyValue` (with the wall-clock timestamp passed explicitly):
builds a PUT record via `newRecord` and appends it.  Note the Go writer
performs no size check on the key or the value. -/
def writeKeyValue (f : List Nat) (key value : List Nat) (ts : Nat) :
    Except Err (Nat × List Nat) :=
  writeRecord f (newRecord ts key value recordTypePut)

/-- `Writer.WriteTombstone`: a DELETE record with empty value. -/
def writeTombstone (f : List Nat) (key : List Nat) (ts : Nat) :
    Except Err (Nat × List Nat) :=
  writeRecord f (newRecord ts key [] recordTypeDelete)

/-! ## Data-file header (`internal/datafile`) -/

/-- `datafile.fileHeaderMagicBytes`. -/
def fileHeaderMagic : List Nat := [0x00, 0x6B, 0x76, 0x64, 0x62, 0x44, 0x41, 0x54]

/-- The 19 bytes `datafile.WriteFileHeader` emits: magic, version 2.0.0,
creation timestamp (8 bytes little-endian). -/
def mkFileHeaderBytes (cts : Nat) : List Nat :=
  fileHeaderMagic ++ [2, 0, 0] ++ uintLE 8 cts

/-- `datafile.ReadFileHeader`: check magic and version compatibility
(major = 2, minor ≤ 0). -/
def readFileHeader (f : List Nat) : Except Err (Nat × Nat × Nat × Nat) := do
  let buf ← readFullBytes f 0 FileHeaderSize
  if buf.take 8 ≠ fileHeaderMagic then .error .notDataFile
  else if buf.getD 8 0 ≠ 2 then .error .versionIncompatible
  else if buf.getD 9 0 > 0 then .error .versionIncompatible
  else pure (buf.getD 8 0, buf.getD 9 0, buf.getD 10 0, decodeLE (buf.drop 11))

/-! ## Rotating writer (`internal/filemanager/rotate_writer.go`)

Files are identified by their position (1-based) in the list of files the
writer has created, standing in for the paths produced by the
`getNextFilePath` callback. -/

/-- `filemanager.RotateWriter` state: the created files in creation order
(the writer appends to the last one), whether an encoder is open
(`writer != nil`) and the rotate-pending flag. -/
structure RotateWriter where
  maxDatafileSize : Nat
  files : List (List Nat)
  hasWriter : Bool
  shouldRotate : Bool
  deriving DecidableEq, Repr

/-- `RotateWriter.getNewWriter`: fetch the next path, write the 19-byte data
file header, open an encoder positioned at the end (offset 19). -/
def rotateGetNewWriter (rw : RotateWriter) (cts : Nat) : RotateWriter :=
  { rw with files := rw.files ++ [mkFileHeaderBytes cts], hasWriter := true }

/-- The record a `RotateWriter.Write` call builds (PUT, or tombstone with
empty value). -/
def rotateRecord (key value : List Nat) (isTombstone : Bool) (ts : Nat) : Record :=
  if isTombstone then newRecord ts key [] recordTypeDelete
  else newRecord ts key value recordTypePut

/-- `RotateWriter.Write` / `WriteWithTs`: rotate if pending or no writer yet,
clear the flag, append the record (the returned offset is the record writer's
`currentPos` before the append, i.e. the record header's position), then set
the rotate-pending flag when that offset exceeds `maxDatafileSize`.
Returns (file path index, offset, new state). -/
def rotateWrite (rw : RotateWriter) (key value : List Nat) (isTombstone : Bool)
    (ts cts : Nat) : Nat × Nat × RotateWriter :=
  let rw := if rw.shouldRotate || !rw.hasWriter then rotateGetNewWriter rw cts else rw
  let cur := (rw.files.getLast?).getD []
  let offset := cur.length
  let cur' := cur ++ encodeRecord (rotateRecord key value isTombstone ts)
  { fst := rw.files.length
    snd.fst := offset
    snd.snd :=
      { rw with files := rw.files.dropLast ++ [cur']
                shouldRotate := decide (offset > rw.maxDatafileSize) } }

/-- All entries of a byte string are in byte range. -/
def bytesOK (l : List Nat) : Prop := ∀ b ∈ l, b < 256

/-- Structural well-formedness of a record as built by `newRecord` from a
key and value within the size caps: the header size fields match the byte
strings, the caps are respected, all bytes are in range, and the timestamp
and type fields are representable. -/
def recordOK (r : Record) : Prop :=
  r.header.keySize = r.key.length ∧ r.header.valueSize = r.value.length ∧
  r.key.length ≤ MaxKeySize ∧ r.value.length ≤ MaxValueSize ∧
  bytesOK r.key ∧ bytesOK r.value ∧
  r.header.timestamp < 2 ^ 64 ∧ r.header.recordType < 256 ∧ r.header.valueType < 256 ∧
  r.size = recordHeaderSize + r.key.length + r.value.length + 4

instance (l : List Nat) : Decidable (bytesOK l) := by
  unfold bytesOK; infer_instance

instance (r : Record) : Decidable (recordOK r) := by
  unfold recordOK; infer_instance

/-! ## Keydir (`internal/keydir`) -/

/-- `keydir.KeydirRecord`: file id, value size, position of the record header
(measured from the first record, i.e. file offset minus `FileHeaderSize`) and
the entry's timestamp. -/
structure KeydirRecord where
  fileId : Nat
  valueSize : Nat
  valuePos : Nat
  timestamp : Nat
  deriving DecidableEq, Repr

/-- The in-memory map `map[string]KeydirRecord`, modelled as a function from
key bytes to an optional entry. -/
def Keydir := List Nat → Option KeydirRecord

/-- `keydir.NewKeydir`: the empty map. -/
def newKeydir : Keydir := fun _ => none

/-- `Keydir.AddKeydirRecord`: insert or overwrite, but return the map
unchanged when the supplied timestamp is strictly before the existing
entry's timestamp (`timestamp.Before(existing.Timestamp)`). -/
def addKeydirRecord (kd : Keydir) (key : List Nat) (fileId valueSize valuePos ts : Nat) :
    Keydir :=
  match kd key with
  | some existing =>
      if ts < existing.timestamp then kd
      else fun k => if k = key then
              some ⟨fileId, valueSize, valuePos, ts⟩ else kd k
  | none => fun k => if k = key then
              some ⟨fileId, valueSize, valuePos, ts⟩ else kd k

/-- `Keydir.GetKeydirRecord`. -/
def getKeydirRecord (kd : Keydir) (key : List Nat) : Option KeydirRecord := kd key

/-- `Keydir.DeleteRecord`. -/
def deleteRecord (kd : Keydir) (key : List Nat) : Keydir :=
  fun k => if k = key then none else kd k

/-- Arguments of one `AddKeydirRecord` call, for reasoning about call
sequences. -/
structure AddCall where
  key : List Nat
  fileId : Nat
  valueSize : Nat
  valuePos : Nat
  timestamp : Nat
  deriving DecidableEq, Repr

/-- Apply a sequence of `AddKeydirRecord` calls in order. -/
def applyAddCalls (kd : Keydir) (calls : List AddCall) : Keydir :=
  calls.foldl (fun kd c => addKeydirRecord kd c.key c.fileId c.valueSize c.valuePos c.timestamp) kd

/-! ## Hint records (`internal/hintfile`) -/

/-- `hintfile.HintRecord`: timestamp, key size, value size, value position
and key bytes. -/
structure HintRecord where
  timestamp : Nat
  keySize : Nat
  valueSize : Nat
  valuePos : Nat
  key : List Nat
  deriving DecidableEq, Repr

/-- `hintfile.Writer.WriteHintRecord`: reject records beyond the size caps,
otherwise append (the writer only buffers; the record contents are appended
unchanged). -/
def writeHintRecord (recs : List HintRecord) (h : HintRecord) :
    Except Err (List HintRecord) :=
  if h.keySize > MaxKeySize then .error .keyTooLarge
  else if h.valueSize > MaxValueSize then .error .valueTooLarge
  else .ok (recs ++ [h])

/-! ## File manager and store (`internal/filemanager/file_manager.go`,
store facade in the `kvdb` package)

A data file on disk is the 19-byte header followed by whole encoded records:
every write path appends `encodeRecord` output, so the directory is
represented by each file's id, creation timestamp and record list, and the
byte content is derived by `fileBytes`.  All read paths (Get, the startup
keydir build, the merge scanner) operate on these bytes. -/

/-- One data file of the `data/` directory. -/
structure DataFile where
  id : Nat
  cts : Nat
  recs : List Record
  deriving DecidableEq, Repr

/-- The byte content of a data file: 19-byte header, then the encoded
records in append order. -/
def fileBytes (df : DataFile) : List Nat :=
  mkFileHeaderBytes df.cts ++ (df.recs.map encodeRecord).flatten

/-- `FileManager` state (third iteration in the source): data directory,
active and next file ids, the rotate writer's `writer != nil` and
rotate-pending flags, and the configured `max_datafile_size`.  The reader
cache is an optimization with no observable behaviour in a sequential
execution and is not modelled. -/
structure FM where
  dataFiles : List DataFile
  activeDataFile : Nat
  nextDataFileNumber : Nat
  hasWriter : Bool
  shouldRotate : Bool
  maxDatafileSize : Nat
  deriving DecidableEq, Repr

/-- Find the data file with the given id (`record.NewReader` on the file's
path succeeds exactly when the file exists). -/
def findFile (dfs : List DataFile) (id : Nat) : Option DataFile :=
  dfs.find? (fun df => df.id = id)

/-- `FileManager.Write`: delegate to `RotateWriter.Write` whose
`getNextFilePath` callback creates `data/<nextDataFileNumber>.dat` (19-byte
header), advances `nextDataFileNumber` and updates `activeDataFile`; then
append the record to the active file, returning `(activeDataFile, offset)`
with `offset` the record header's position from the start of the file, and
set the rotate-pending flag when that offset exceeds `maxDatafileSize`. -/
def fmWrite (fm : FM) (key value : List Nat) (isTombstone : Bool) (ts cts : Nat) :
    Nat × Nat × FM :=
  let fm :=
    if fm.shouldRotate || !fm.hasWriter then
      { fm with
          dataFiles := fm.dataFiles ++ [⟨fm.nextDataFileNumber, cts, []⟩]
          activeDataFile := fm.nextDataFileNumber
          nextDataFileNumber := fm.nextDataFileNumber + 1
          hasWriter := true }
    else fm
  let cur := (findFile fm.dataFiles fm.activeDataFile).getD ⟨0, 0, []⟩
  let offset := (fileBytes cur).length
  let r0 := rotateRecord key value isTombstone ts
  ( fm.activeDataFile, offset,
    { fm with
        dataFiles := fm.dataFiles.map (fun df =>
          if df.id = fm.activeDataFile then { df with recs := df.recs ++ [r0] } else df)
        shouldRotate := decide (offset > fm.maxDatafileSize) } )

/-- `FileManager.ReadValueAt`: open (or reuse) the reader for `fileId` and
read the value at `offset`. -/
def fmReadValueAt (fm : FM) (fileId offset : Nat) : Except Err Record :=
  match findFile fm.dataFiles fileId with
  | none => .error .fileNotFound
  | some df => readValueAt (fileBytes df) offset

/-- `kvdb.DataStore`: file manager, keydir, hint directory, and a logical
clock standing in for `time.Now()` (strictly increasing across the calls of
a single-threaded execution). -/
structure Store where
  fm : FM
  keydir : Keydir
  hints : List (Nat × List HintRecord)
  clock : Nat

/-- `kvdb.Create` (followed by `NewFileManager` on the empty `data/`
directory): no data files, `activeDataFile` 0, next id 1, empty keydir. -/
def createStore (maxDatafileSize : Nat) : Store :=
  { fm := { dataFiles := [], activeDataFile := 0, nextDataFileNumber := 1,
            hasWriter := false, shouldRotate := false,
            maxDatafileSize := maxDatafileSize }
    keydir := newKeydir
    hints := []
    clock := 0 }

/-- `DataStore.Put`: write a PUT record through the file manager (the record
carries its own `time.Now()`), then add the keydir entry at
`offset - FileHeaderSize` with a second, later `time.Now()`. -/
def putOp (S : Store) (key value : List Nat) : Store :=
  let w := fmWrite S.fm key value false S.clock S.clock
  { fm := w.2.2
    keydir := addKeydirRecord S.keydir key w.1 value.length
      (w.2.1 - FileHeaderSize) (S.clock + 1)
    hints := S.hints
    clock := S.clock + 2 }

/-- `DataStore.Delete`: write a tombstone, then remove the keydir entry. -/
def deleteOp (S : Store) (key : List Nat) : Store :=
  let w := fmWrite S.fm key [] true S.clock S.clock
  { fm := w.2.2
    keydir := deleteRecord S.keydir key
    hints := S.hints
    clock := S.clock + 2 }

/-- `DataStore.Get`: keydir lookup (`ErrKeyNotFound` when absent), then
`FileManager.ReadValueAt(fileId, valuePos)`, returning the value bytes. -/
def getOp (S : Store) (key : List Nat) : Except Err (List Nat) :=
  match getKeydirRecord S.keydir key with
  | none => .error .keyNotFound
  | some rec => (fmReadValueAt S.fm rec.fileId rec.valuePos).map (·.value)

/-- A single-threaded store operation. -/
inductive StoreOp where
  | put (key value : List Nat)
  | del (key : List Nat)
  deriving DecidableEq, Repr

/-- Operation inputs within the hard size caps. -/
def opOK : StoreOp → Prop
  | .put k v => k.length ≤ MaxKeySize ∧ v.length ≤ MaxValueSize ∧ bytesOK k ∧ bytesOK v
  | .del k => k.length ≤ MaxKeySize ∧ bytesOK k

instance (op : StoreOp) : Decidable (opOK op) := by
  cases op <;> (unfold opOK; infer_instance)

/-- Apply one operation. -/
def applyOp (S : Store) : StoreOp → Store
  | .put k v => putOp S k v
  | .del k => deleteOp S k

/-- Run a sequence of operations. -/
def runOps (S : Store) (ops : List StoreOp) : Store := ops.foldl applyOp S

/-- A store state reachable from `Create` by successful `Put` and `Delete`
calls within the size caps in a single-threaded execution (the execution is
bounded so that the logical clock stays representable in the record's 64-bit
timestamp field). -/
def Reachable (S : Store) : Prop :=
  ∃ (maxSize : Nat) (ops : List StoreOp), (∀ op ∈ ops, opOK op) ∧
    ops.length < 2 ^ 62 ∧ S = runOps (createStore maxSize) ops

/-! ### Startup keydir build (`FileManager.ReadKeydir`) -/

/-- `FileManager.addRecordsToKeydir`: strict-read records of one data file
from offset 0, inserting PUT records and removing DELETE records; stop
cleanly at `io.EOF`, return any other error together with the keydir built
so far (the Go keydir is mutated in place).  Fuel bounds the recursion;
`f.length + 1` steps always suffice since records are non-empty. -/
def addRecordsLoop (f : List Nat) (fileId : Nat) (kd : Keydir) (off fuel : Nat) :
    Keydir × Option Err :=
  match fuel with
  | 0 => (kd, some .fuelOut)
  | fuel + 1 =>
    match readRecordAtStrict f off with
    | .error .eofErr => (kd, none)
    | .error e => (kd, some e)
    | .ok rec =>
      let kd := if rec.header.recordType = recordTypeDelete then deleteRecord kd rec.key
        else addKeydirRecord kd rec.key fileId rec.header.valueSize off
          rec.header.timestamp
      addRecordsLoop f fileId kd (off + rec.size) fuel

/-- `FileManager.addRecordsToKeydir` on a whole file. -/
def addRecordsToKeydir (f : List Nat) (fileId : Nat) (kd : Keydir) :
    Keydir × Option Err :=
  addRecordsLoop f fileId kd 0 (f.length + 1)

/-- `FileManager.ReadKeydir`: for each data file in ascending id order, check
the file header (skipping the file on `not-a-data-file` /
`version-incompatible`), then replay its records; a record-level error from
`addRecordsToKeydir` is logged and the build continues with the next file.
Only directory-listing failures (impossible in the model) are returned as
errors. -/
def buildKeydir (files : List (Nat × List Nat)) : Except Err Keydir :=
  .ok ((files.mergeSort (fun a b => a.1 ≤ b.1)).foldl (fun kd p =>
    match readFileHeader p.2 with
    | .error _ => kd
    | .ok _ => (addRecordsToKeydir p.2 p.1 kd).1) newKeydir)

/-- The on-disk content after `DataStore.Close` (sync and close change no
bytes): one byte string per data file id. -/
def diskFiles (S : Store) : List (Nat × List Nat) :=
  S.fm.dataFiles.map (fun df => (df.id, fileBytes df))

/-- The store as rebuilt by `kvdb.Open` (metafile intact): the on-disk byte
files and the keydir built from them. -/
structure ByteStore where
  files : List (Nat × List Nat)
  keydir : Keydir

/-- Look up a data file's bytes by id. -/
def lookupBytes (files : List (Nat × List Nat)) (id : Nat) : Option (List Nat) :=
  (files.find? (fun p => p.1 = id)).map (·.2)

/-- `kvdb.Open`: validate the metafile (assumed intact), construct the file
manager and build the keydir via `FileManager.ReadKeydir`, propagating its
error. -/
def openStore (files : List (Nat × List Nat)) : Except Err ByteStore := do
  let kd ← buildKeydir files
  .ok ⟨files, kd⟩

/-- `DataStore.Get` on a reopened store. -/
def byteGet (bs : ByteStore) (key : List Nat) : Except Err (List Nat) :=
  match bs.keydir key with
  | none => .error .keyNotFound
  | some rec =>
    match lookupBytes bs.files rec.fileId with
    | none => .error .fileNotFound
    | some f => (readValueAt f rec.valuePos).map (·.value)

/-! ### Replay view of the keydir -/

/-- Offsets (relative to the first record) of the records of a file. -/
def recOffsetsFrom (off : Nat) : List Record → List (Record × Nat)
  | [] => []
  | r :: rs => (r, off) :: recOffsetsFrom (off + r.size) rs

/-- Replay one file's records (with their offsets) into a keydir, as
`addRecordsToKeydir` does. -/
def replayFile (kd : Keydir) (fileId : Nat) : List (Record × Nat) → Keydir
  | [] => kd
  | (r, off) :: rest =>
      replayFile
        (if r.header.recordType = recordTypeDelete then deleteRecord kd r.key
         else addKeydirRecord kd r.key fileId r.header.valueSize off
           r.header.timestamp) fileId rest

/-- Replay all data files in directory order. -/
def replayStore (dfs : List DataFile) : Keydir :=
  dfs.foldl (fun kd df => replayFile kd df.id (recOffsetsFrom 0 df.recs)) newKeydir

/-- Agreement of two keydir lookups on everything `Get` reads (file id,
value size, value position; the timestamps of the in-memory keydir come from
a later `time.Now()` than the record's own and may differ). -/
def kdMatch : Option KeydirRecord → Option KeydirRecord → Prop
  | none, none => True
  | some e, some e' => e.fileId = e'.fileId ∧ e.valueSize = e'.valueSize ∧
      e.valuePos = e'.valuePos
  | _, _ => False

/-- Total byte size of a record list (as recorded in `Record.size`). -/
def sizeSum (recs : List Record) : Nat := (recs.map Record.size).sum

/-- Well-formedness invariant of the store states reachable by `Put` and
`Delete` from `Create` in a single-threaded execution. -/
structure Inv (S : Store) : Prop where
  ids_sorted : List.Pairwise (· < ·) (S.fm.dataFiles.map DataFile.id)
  ids_bound : ∀ df ∈ S.fm.dataFiles, 1 ≤ df.id ∧ df.id ≤ S.fm.activeDataFile
  active_last : (S.fm.dataFiles = [] ∧ S.fm.activeDataFile = 0 ∧ S.fm.hasWriter = false) ∨
    ((S.fm.dataFiles.getLast?).map DataFile.id = some S.fm.activeDataFile ∧
      S.fm.hasWriter = true)
  next_eq : S.fm.nextDataFileNumber = S.fm.activeDataFile + 1
  recs_ok : ∀ df ∈ S.fm.dataFiles, ∀ r ∈ df.recs, recordOK r ∧
    r.header.timestamp < S.clock
  kd_match : ∀ k, kdMatch (S.keydir k) (replayStore S.fm.dataFiles k)
  kd_ts_lt : ∀ k e, S.keydir k = some e → e.timestamp < S.clock
  replay_ts_lt : ∀ k e, replayStore S.fm.dataFiles k = some e → e.timestamp < S.clock
  hints_empty : S.hints = []

/-! ### Merge (`DataStore.Merge`, `record.Scanner`, the merge writer)

`DataStore.Merge` (src/unnamed/part_001 lines 175-330) scans each immutable
data file with the sequential `Scanner`, copies the records the keydir
currently cites to a rotating merge writer (preserving the record's
timestamp), writes one hint record per copied record, renames the temporary
merge files to freshly reserved ids, reseats the keydir and deletes the old
files.  The `MergeWriter` of the third `FileManager` iteration is a stub, so
the writer itself follows the spec. -/

/-- `io.ReadFull` as the scanner calls it on the key and value slices: a
zero-length read returns immediately with no error. -/
def scanReadFull (f : List Nat) (off n : Nat) : Except Err (List Nat) :=
  if n = 0 then .ok [] else readFullBytes f off n

/-- `Scanner.Scan` at relative offset `off` (the scanner discarded the
19-byte file header on open and tracks offsets from the first record): read
and size-check the 20-byte header, read key, value and stored CRC, recompute
CRC32 over header ‖ key ‖ value and fail with `ErrCrcChecksumMismatch` on
disagreement. -/
def scanRecord (f : List Nat) (off : Nat) : Except Err Record := do
  let headerBytes ← readFullBytes f (FileHeaderSize + off) recordHeaderSize
  let h := decodeHeaderBytes headerBytes
  if h.keySize > MaxKeySize then .error .keyTooLarge
  else if h.valueSize > MaxValueSize then .error .valueTooLarge
  else do
    let key ← scanReadFull f (FileHeaderSize + off + recordHeaderSize) h.keySize
    let value ← scanReadFull f (FileHeaderSize + off + recordHeaderSize + h.keySize)
      h.valueSize
    let crcBytes ← readFullBytes f
      (FileHeaderSize + off + recordHeaderSize + h.keySize + h.valueSize) 4
    if decodeLE crcBytes ≠ crc32 (headerBytes ++ key ++ value) then
      .error .crcMismatch
    else pure { header := h, key := key, value := value,
                size := recordHeaderSize + h.keySize + h.valueSize + 4 }

/-- Modelled from the spec: the merge writer (§4.6 `new_merge_writer`), a
temporary-file rotating writer `data/merge-1`, `data/merge-2`, … with the
store's rotation threshold; the third `FileManager` iteration's `MergeWriter`
is an empty stub in the source. -/
structure MergeWriter where
  files : List (List Record)
  hasWriter : Bool
  shouldRotate : Bool
  maxDatafileSize : Nat

/-- Modelled from the spec: `MergeWriter.WriteWithTs` — rotate if pending or
no file open yet, append a PUT record carrying the supplied timestamp, return
(1-based merge-file index standing for the file path, the record header's
file-absolute offset as returned by the record writer, new state) and set the
rotate-pending flag when that offset exceeds the threshold (the
`RotateWriter.WriteWithTs` discipline). -/
def mergeWriterWrite (w : MergeWriter) (key value : List Nat) (ts : Nat) :
    Nat × Nat × MergeWriter :=
  let w := if w.shouldRotate || !w.hasWriter then
      { w with files := w.files ++ [[]], hasWriter := true } else w
  let cur := (w.files.getLast?).getD []
  let offset := FileHeaderSize + sizeSum cur
  ( w.files.length, offset,
    { w with files := w.files.dropLast ++ [cur ++ [newRecord ts key value recordTypePut]],
             shouldRotate := decide (offset > w.maxDatafileSize) } )

/-- `valueLoc` of `DataStore.Merge`: merge-file path (as its 1-based index),
file-absolute offset of the copied record, the record's timestamp and the id
of the immutable file it came from. -/
structure ValueLoc where
  pathIdx : Nat
  offset : Nat
  ts : Nat
  sourceFileId : Nat
  deriving DecidableEq, Repr

/-- The Go map assignment `valueLocations[string(rec.Key)] = loc`. -/
def upsertLoc : List (List Nat × ValueLoc) → List Nat → ValueLoc →
    List (List Nat × ValueLoc)
  | [], k, v => [(k, v)]
  | p :: t, k, v => if p.1 = k then (k, v) :: t else p :: upsertLoc t k v

/-- Lookup in `valueLocations`. -/
def lookupLoc (locs : List (List Nat × ValueLoc)) (k : List Nat) :
    Option ValueLoc :=
  (locs.find? (fun p => p.1 = k)).map (·.2)

/-- The merge loop's hint bookkeeping: when the merge writer's file path
changed, close the current hint writer and open
`hint/<basename(merge file)>`; then `WriteHintRecord` (which enforces the
size caps) appends to the current hint file. -/
def addHintRecord (hints : List (Nat × List HintRecord)) (idx : Nat)
    (h : HintRecord) : Except Err (List (Nat × List HintRecord)) :=
  match hints.getLast? with
  | some (i, hs) =>
      if i = idx then (writeHintRecord hs h).map (fun hs' => hints.dropLast ++ [(i, hs')])
      else (writeHintRecord [] h).map (fun hs' => hints ++ [(idx, hs')])
  | none => (writeHintRecord [] h).map (fun hs' => hints ++ [(idx, hs')])

/-- The state accumulated by the merge scan: the merge writer, the hint files
written so far (keyed by merge-file index) and `valueLocations`. -/
structure MergeAcc where
  mw : MergeWriter
  hints : List (Nat × List HintRecord)
  locs : List (List Nat × ValueLoc)

/-- The body of the merge scan loop for one scanned record at relative offset
`off` of the immutable file `srcId`: skip unless the keydir cites exactly
(`srcId`, `off`); skip tombstones; otherwise copy the record with its
original timestamp, write the hint record (`ValuePos := newPos`, the
file-absolute offset the merge writer returned) and record the pending
remap. -/
def mergeRecStep (kd : Keydir) (srcId : Nat) (acc : MergeAcc) (r : Record)
    (off : Nat) : Except Err MergeAcc :=
  match kd r.key with
  | none => .ok acc
  | some kdRecord =>
    if kdRecord.fileId ≠ srcId ∨ kdRecord.valuePos ≠ off then .ok acc
    else if r.header.recordType = recordTypeDelete then .ok acc
    else
      let w := mergeWriterWrite acc.mw r.key r.value r.header.timestamp
      (addHintRecord acc.hints w.1
        ⟨r.header.timestamp, r.header.keySize, r.header.valueSize, w.2.1, r.key⟩).map
        (fun hints' =>
          { mw := w.2.2, hints := hints',
            locs := upsertLoc acc.locs r.key ⟨w.1, w.2.1, r.header.timestamp, srcId⟩ })

/-- The merge scan of one immutable file from relative offset `off`: `Scan`
until `io.EOF` (break) or another error (abort the merge), processing each
record with `mergeRecStep`.  Fuel bounds the loop; `f.length + 1` steps
always suffice. -/
def mergeScanLoop (kd : Keydir) (f : List Nat) (srcId : Nat) (off : Nat)
    (acc : MergeAcc) : Nat → Except Err MergeAcc
  | 0 => .error .fuelOut
  | fuel + 1 =>
    match scanRecord f off with
    | .error .eofErr => .ok acc
    | .error e => .error e
    | .ok rec =>
      match mergeRecStep kd srcId acc rec off with
      | .error e => .error e
      | .ok acc' => mergeScanLoop kd f srcId (off + rec.size) acc' fuel

/-- Record-level view of the merge scan of one file: process the records
with their offsets in order. -/
def mergeRecsFold (kd : Keydir) (srcId : Nat) :
    List (Record × Nat) → MergeAcc → Except Err MergeAcc
  | [], acc => .ok acc
  | (r, off) :: rest, acc =>
    match mergeRecStep kd srcId acc r off with
    | .error e => .error e
    | .ok acc' => mergeRecsFold kd srcId rest acc'

/-- One iteration of the final keydir reseat of `DataStore.Merge`: re-read
the live keydir entry for the remapped key and, if it still points at the
source file, insert the new location (renamed file id, same value size, the
merge offset minus the 19-byte file header, the live entry's timestamp). -/
def applyLocStep (startId : Nat) (kd : Keydir) (p : List Nat × ValueLoc) :
    Keydir :=
  match kd p.1 with
  | none => kd
  | some current =>
    if current.fileId = p.2.sourceFileId then
      addKeydirRecord kd p.1 (startId + (p.2.pathIdx - 1)) current.valueSize
        (p.2.offset - FileHeaderSize) current.timestamp
    else kd

/-- The final keydir reseat of `DataStore.Merge` over all pending remaps. -/
def applyLocs (startId : Nat) (locs : List (List Nat × ValueLoc))
    (kd : Keydir) : Keydir :=
  locs.foldl (applyLocStep startId) kd

/-- `DataStore.Merge` in a single-threaded execution.  The immutable files
are those with id strictly below the active id, in ascending order; the
reserved-id block start is `nextDataFileNumber` (spec §4.6
`reserve_next_file_ids`, absent from the third `FileManager` iteration);
temporary merge file `i` (1-based) becomes data file `startId + i - 1`, its
hint file is renamed alongside, the keydir is reseated and the scanned
immutable files (with their hint files) are deleted. -/
def mergeOp (S : Store) : Except Err Store :=
  let immutables := (S.fm.dataFiles.filter
      (fun df => df.id < S.fm.activeDataFile)).mergeSort (fun a b => a.id ≤ b.id)
  let scanRes := immutables.foldl (fun (st : Except Err MergeAcc) df =>
      match st with
      | .error e => .error e
      | .ok acc => mergeScanLoop S.keydir (fileBytes df) df.id 0 acc
          ((fileBytes df).length + 1))
    (.ok (⟨⟨[], false, false, S.fm.maxDatafileSize⟩, [], []⟩ : MergeAcc))
  match scanRes with
  | .error e => .error e
  | .ok acc =>
    let n := acc.mw.files.length
    let startId := S.fm.nextDataFileNumber
    let newFiles := (List.range n).map (fun i =>
      (⟨startId + i, S.clock, acc.mw.files.getD i []⟩ : DataFile))
    .ok { fm := { S.fm with
            dataFiles := S.fm.dataFiles.filter
              (fun df => ¬ df.id < S.fm.activeDataFile) ++ newFiles
            nextDataFileNumber := S.fm.nextDataFileNumber + n }
          keydir := applyLocs startId acc.locs S.keydir
          hints := S.hints.filter
              (fun p => ¬ immutables.any (fun df => df.id = p.1)) ++
            acc.hints.map (fun p => (startId + (p.1 - 1), p.2))
          clock := S.clock }

/-- One pending remap is fully accounted for: it is recorded in
`valueLocations`, it points back at the keydir entry's source file, and the
merge writer holds an intact copy `r` of the cited record at the recorded
(file, offset) position, whose value is exactly what `Get` returns. -/
def locClause (S : Store) (acc : MergeAcc) (k : List Nat) (e : KeydirRecord) :
    Prop :=
  ∃ loc r, lookupLoc acc.locs k = some loc ∧ loc.sourceFileId = e.fileId ∧
    1 ≤ loc.pathIdx ∧ loc.pathIdx ≤ acc.mw.files.length ∧
    FileHeaderSize ≤ loc.offset ∧ recordOK r ∧ r.key = k ∧
    (r, loc.offset - FileHeaderSize) ∈
      recOffsetsFrom 0 (acc.mw.files.getD (loc.pathIdx - 1) []) ∧
    getOp S k = .ok r.value

/-- Every hint record written so far cites an intact record of the merge
file it sits beside, at the hint's `ValuePos` measured file-absolutely
(19-byte header included). -/
def hintClause (acc : MergeAcc) : Prop :=
  ∀ p ∈ acc.hints, 1 ≤ p.1 ∧ p.1 ≤ acc.mw.files.length ∧
    ∀ h ∈ p.2, FileHeaderSize ≤ h.valuePos ∧ ∃ r,
      (r, h.valuePos - FileHeaderSize) ∈
        recOffsetsFrom 0 (acc.mw.files.getD (p.1 - 1) []) ∧
      r.key = h.key ∧ r.header.timestamp = h.timestamp ∧
      r.header.keySize = h.keySize ∧ r.header.valueSize = h.valueSize

/-- Invariant of the merge scan, parameterized by the predicate `P` holding
on the (file id, relative offset) pairs already processed: the merge writer
holds only intact records, `valueLocations` has no duplicate keys, each hint
record is accounted for, and a keydir entry's key has a pending remap exactly
when its cited position has been processed. -/
def MergeInvGen (S : Store) (P : Nat → Nat → Prop) (acc : MergeAcc) : Prop :=
  (∀ fc ∈ acc.mw.files, ∀ r ∈ fc, recordOK r) ∧
  (acc.mw.hasWriter = true → acc.mw.files ≠ []) ∧
  List.Nodup (acc.locs.map Prod.fst) ∧
  hintClause acc ∧
  (∀ k, S.keydir k = none → lookupLoc acc.locs k = none) ∧
  (∀ k e, S.keydir k = some e →
    (P e.fileId e.valuePos → locClause S acc k e) ∧
    (¬ P e.fileId e.valuePos → lookupLoc acc.locs k = none))

/-! ## Theorems -/

@[simp] theorem exceptBind_ok {ε α β : Type} (a : α) (f : α → Except ε β) :
    (Except.ok a >>= f : Except ε β) = f a := rfl

@[simp] theorem exceptBind_error {ε α β : Type} (e : ε) (f : α → Except ε β) :
    ((Except.error e : Except ε α) >>= f) = Except.error e := rfl

@[simp] theorem exceptIsOk_ok {ε α : Type} (a : α) :
    (Except.ok a : Except ε α).isOk = true := rfl

@[simp] theorem exceptIsOk_error {ε α : Type} (e : ε) :
    (Except.error e : Except ε α).isOk = false := rfl

@[simp] theorem uintLE_length (w n : Nat) : (uintLE w n).length = w := by
  induction w generalizing n with
  | zero => rfl
  | succ w ih => simp [uintLE, ih]

theorem uintLE_lt (w n : Nat) : ∀ b ∈ uintLE w n, b < 256 := by
  induction w generalizing n with
  | zero => simp [uintLE]
  | succ w ih =>
    intro b hb
    simp only [uintLE, List.mem_cons] at hb
    rcases hb with h | h
    · subst h; exact Nat.mod_lt _ (by norm_num)
    · exact ih _ _ h

theorem decodeLE_uintLE (w n : Nat) (h : n < 256 ^ w) : decodeLE (uintLE w n) = n := by
  induction w generalizing n with
  | zero => simp [uintLE, decodeLE]; omega
  | succ w ih =>
    have hdiv : n / 256 < 256 ^ w := by
      rw [Nat.div_lt_iff_lt_mul (by norm_num)]
      calc n < 256 ^ (w + 1) := h
        _ = 256 ^ w * 256 := by ring
    simp only [uintLE, decodeLE, List.foldr_cons]
    have := ih (n / 256) hdiv
    simp only [decodeLE] at this
    rw [this]
    omega

@[simp] theorem encodeHeader_length (h : Header) : (encodeHeader h).length = recordHeaderSize := by
  simp [encodeHeader, recordHeaderSize]

@[simp] theorem encodeRecord_length (r : Record) :
    (encodeRecord r).length = recordHeaderSize + r.key.length + r.value.length + 4 := by
  simp [encodeRecord]
  omega

@[simp] theorem mkFileHeaderBytes_length (cts : Nat) :
    (mkFileHeaderBytes cts).length = FileHeaderSize := by
  simp [mkFileHeaderBytes, fileHeaderMagic, FileHeaderSize]

theorem natXorLtTwoPow {x y n : Nat} (hx : x < 2 ^ n) (hy : y < 2 ^ n) : x ^^^ y < 2 ^ n :=
  Nat.bitwise_lt_two_pow hx hy

theorem crcStep1_lt {c : Nat} (hc : c < 2 ^ 32) : crcStep1 c < 2 ^ 32 := by
  unfold crcStep1
  split
  · exact natXorLtTwoPow (by omega) (by norm_num [crcPoly])
  · omega

theorem crcStep1_inj {c₁ c₂ : Nat} (h₁ : c₁ < 2 ^ 32) (h₂ : c₂ < 2 ^ 32)
    (heq : crcStep1 c₁ = crcStep1 c₂) : c₁ = c₂ := by
  have hp : crcPoly.testBit 31 = true := by decide
  unfold crcStep1 at heq
  by_cases p₁ : c₁ % 2 = 1 <;> by_cases p₂ : c₂ % 2 = 1
  · rw [if_pos p₁, if_pos p₂] at heq
    have : c₁ / 2 = c₂ / 2 := Nat.xor_left_inj.mp heq
    omega
  · rw [if_pos p₁, if_neg p₂] at heq
    exfalso
    have hb : ((c₁ / 2) ^^^ crcPoly).testBit 31 = (c₂ / 2).testBit 31 := by rw [heq]
    have h1 : (c₁ / 2).testBit 31 = false := Nat.testBit_eq_false_of_lt (by omega)
    have h2 : (c₂ / 2).testBit 31 = false := Nat.testBit_eq_false_of_lt (by omega)
    rw [Nat.testBit_xor, h1, hp, h2] at hb
    simp at hb
  · rw [if_neg p₁, if_pos p₂] at heq
    exfalso
    have hb : (c₁ / 2).testBit 31 = ((c₂ / 2) ^^^ crcPoly).testBit 31 := by rw [heq]
    have h1 : (c₁ / 2).testBit 31 = false := Nat.testBit_eq_false_of_lt (by omega)
    have h2 : (c₂ / 2).testBit 31 = false := Nat.testBit_eq_false_of_lt (by omega)
    rw [Nat.testBit_xor, h1, hp, h2] at hb
    simp at hb
  · rw [if_neg p₁, if_neg p₂] at heq
    omega

theorem crcStep8_lt {c : Nat} (hc : c < 2 ^ 32) : crcStep8 c < 2 ^ 32 :=
  crcStep1_lt (crcStep1_lt (crcStep1_lt (crcStep1_lt (crcStep1_lt (crcStep1_lt
    (crcStep1_lt (crcStep1_lt hc)))))))

theorem crcStep8_inj {c₁ c₂ : Nat} (h₁ : c₁ < 2 ^ 32) (h₂ : c₂ < 2 ^ 32)
    (heq : crcStep8 c₁ = crcStep8 c₂) : c₁ = c₂ := by
  unfold crcStep8 at heq
  have l1 : ∀ {c : Nat}, c < 2 ^ 32 → crcStep1 c < 2 ^ 32 := fun h => crcStep1_lt h
  exact crcStep1_inj h₁ h₂
    (crcStep1_inj (l1 h₁) (l1 h₂)
      (crcStep1_inj (l1 (l1 h₁)) (l1 (l1 h₂))
        (crcStep1_inj (l1 (l1 (l1 h₁))) (l1 (l1 (l1 h₂)))
          (crcStep1_inj (l1 (l1 (l1 (l1 h₁)))) (l1 (l1 (l1 (l1 h₂))))
            (crcStep1_inj (l1 (l1 (l1 (l1 (l1 h₁))))) (l1 (l1 (l1 (l1 (l1 h₂)))))
              (crcStep1_inj (l1 (l1 (l1 (l1 (l1 (l1 h₁))))))
                  (l1 (l1 (l1 (l1 (l1 (l1 h₂))))))
                (crcStep1_inj (l1 (l1 (l1 (l1 (l1 (l1 (l1 h₁)))))))
                  (l1 (l1 (l1 (l1 (l1 (l1 (l1 h₂))))))) heq)))))))

theorem crcUpdateByte_lt {c b : Nat} (hc : c < 2 ^ 32) (hb : b < 256) :
    crcUpdateByte c b < 2 ^ 32 :=
  crcStep8_lt (natXorLtTwoPow hc (by omega))

theorem crcUpdateByte_inj_state {c₁ c₂ b : Nat} (h₁ : c₁ < 2 ^ 32) (h₂ : c₂ < 2 ^ 32)
    (hb : b < 256) (heq : crcUpdateByte c₁ b = crcUpdateByte c₂ b) : c₁ = c₂ :=
  Nat.xor_left_inj.mp
    (crcStep8_inj (natXorLtTwoPow h₁ (by omega)) (natXorLtTwoPow h₂ (by omega)) heq)

@[simp] theorem crcUpdate_nil (c : Nat) : crcUpdate c [] = c := rfl

@[simp] theorem crcUpdate_cons (c b : Nat) (l : List Nat) :
    crcUpdate c (b :: l) = crcUpdate (crcUpdateByte c b) l := rfl

theorem crcUpdate_lt {l : List Nat} (hl : bytesOK l) :
    ∀ {c : Nat}, c < 2 ^ 32 → crcUpdate c l < 2 ^ 32 := by
  induction l with
  | nil => intro c hc; simpa using hc
  | cons b t ih =>
    intro c hc
    rw [crcUpdate_cons]
    exact ih (fun x hx => hl x (List.mem_cons_of_mem _ hx))
      (crcUpdateByte_lt hc (hl b (List.mem_cons_self _ _)))

theorem crcUpdate_ne {l : List Nat} (hl : bytesOK l) :
    ∀ {c₁ c₂ : Nat}, c₁ < 2 ^ 32 → c₂ < 2 ^ 32 → c₁ ≠ c₂ →
      crcUpdate c₁ l ≠ crcUpdate c₂ l := by
  induction l with
  | nil => intro c₁ c₂ _ _ hne; simpa using hne
  | cons b t ih =>
    intro c₁ c₂ h₁ h₂ hne
    rw [crcUpdate_cons, crcUpdate_cons]
    have hb : b < 256 := hl b (List.mem_cons_self _ _)
    exact ih (fun x hx => hl x (List.mem_cons_of_mem _ hx))
      (crcUpdateByte_lt h₁ hb) (crcUpdateByte_lt h₂ hb)
      (fun hc => hne (crcUpdateByte_inj_state h₁ h₂ hb hc))

theorem crcUpdate_set_ne {l : List Nat} (hl : bytesOK l) :
    ∀ {i b c : Nat}, c < 2 ^ 32 → b < 256 → i < l.length → b ≠ l.getD i 0 →
      crcUpdate c (l.set i b) ≠ crcUpdate c l := by
  induction l with
  | nil => intro i b c _ _ hi; simp at hi
  | cons x t ih =>
    intro i b c hc hb hi hne
    have hx : x < 256 := hl x (List.mem_cons_self _ _)
    have ht : bytesOK t := fun y hy => hl y (List.mem_cons_of_mem _ hy)
    cases i with
    | zero =>
      simp only [List.set_cons_zero, crcUpdate_cons]
      simp only [List.getD_cons_zero] at hne
      exact crcUpdate_ne ht (crcUpdateByte_lt hc hb) (crcUpdateByte_lt hc hx)
        (fun hcu => hne (Nat.xor_right_inj.mp
          (crcStep8_inj (natXorLtTwoPow hc (by omega)) (natXorLtTwoPow hc (by omega)) hcu)))
    | succ i =>
      simp only [List.set_cons_succ, crcUpdate_cons]
      simp only [List.getD_cons_succ] at hne
      have hstep : crcUpdateByte c x < 2 ^ 32 := crcUpdateByte_lt hc hx
      exact ih ht hstep hb (by simpa using hi) hne

theorem crc32_lt (l : List Nat) (hl : bytesOK l) : crc32 l < 2 ^ 32 :=
  natXorLtTwoPow (crcUpdate_lt hl (by norm_num)) (by norm_num)

theorem crc32_set_ne {l : List Nat} {i b : Nat} (hl : bytesOK l) (hi : i < l.length)
    (hb : b < 256) (hne : b ≠ l.getD i 0) : crc32 (l.set i b) ≠ crc32 l := by
  unfold crc32
  intro h
  exact crcUpdate_set_ne hl (by norm_num) hb hi hne (Nat.xor_left_inj.mp h)

theorem decodeLE_set_ne : ∀ {l : List Nat} {i b : Nat}, i < l.length →
    b ≠ l.getD i 0 → decodeLE (l.set i b) ≠ decodeLE l := by
  intro l
  induction l with
  | nil => intro i b hi; simp at hi
  | cons x t ih =>
    intro i b hi hne
    cases i with
    | zero =>
      simp only [List.getD_cons_zero] at hne
      simp only [List.set_cons_zero, decodeLE, List.foldr_cons]
      intro h
      exact hne (by omega)
    | succ i =>
      simp only [List.getD_cons_succ] at hne
      simp only [List.set_cons_succ, decodeLE, List.foldr_cons]
      intro h
      exact ih (by simpa using hi) hne (show decodeLE _ = decodeLE _ by
        simp only [decodeLE]; omega)

theorem bytesOK_append {l₁ l₂ : List Nat} (h₁ : bytesOK l₁) (h₂ : bytesOK l₂) :
    bytesOK (l₁ ++ l₂) := by
  intro b hb
  rcases List.mem_append.mp hb with h | h
  · exact h₁ b h
  · exact h₂ b h

theorem uintLE_bytesOK (w n : Nat) : bytesOK (uintLE w n) := uintLE_lt w n

theorem encodeHeader_bytesOK (h : Header) : bytesOK (encodeHeader h) := by
  unfold encodeHeader
  refine bytesOK_append (bytesOK_append (bytesOK_append ?_ ?_) ?_) ?_
  · exact uintLE_bytesOK 8 _
  · exact uintLE_bytesOK 4 _
  · exact uintLE_bytesOK 4 _
  · intro b hb
    simp only [List.mem_cons, List.not_mem_nil, or_false] at hb
    rcases hb with h | h | h | h <;> subst h
    · exact Nat.mod_lt _ (by norm_num)
    · exact Nat.mod_lt _ (by norm_num)
    · norm_num
    · norm_num

theorem getD_append_left' {l₁ l₂ : List Nat} {n : Nat} (h : n < l₁.length) :
    (l₁ ++ l₂).getD n 0 = l₁.getD n 0 := by
  rw [List.getD_eq_getElem?_getD, List.getD_eq_getElem?_getD, List.getElem?_append_left h]

theorem getD_append_right' {l₁ l₂ : List Nat} {n : Nat} (h : l₁.length ≤ n) :
    (l₁ ++ l₂).getD n 0 = l₂.getD (n - l₁.length) 0 := by
  rw [List.getD_eq_getElem?_getD, List.getD_eq_getElem?_getD, List.getElem?_append_right h]

theorem decodeHeaderBytes_encodeHeader (h : Header) (hts : h.timestamp < 2 ^ 64)
    (hks : h.keySize < 2 ^ 32) (hvs : h.valueSize < 2 ^ 32)
    (hrt : h.recordType < 256) (hvt : h.valueType < 256) :
    decodeHeaderBytes (encodeHeader h) = h := by
  have hassoc : encodeHeader h = uintLE 8 h.timestamp ++ (uintLE 4 h.keySize ++
      (uintLE 4 h.valueSize ++ [h.recordType % 256, h.valueType % 256, 0, 0])) := by
    simp [encodeHeader]
  have htake8 : (encodeHeader h).take 8 = uintLE 8 h.timestamp := by
    rw [hassoc]; exact List.take_left' (uintLE_length 8 _)
  have hdrop8 : (encodeHeader h).drop 8 = uintLE 4 h.keySize ++
      (uintLE 4 h.valueSize ++ [h.recordType % 256, h.valueType % 256, 0, 0]) := by
    rw [hassoc]; exact List.drop_left' (uintLE_length 8 _)
  have hks4 : ((encodeHeader h).drop 8).take 4 = uintLE 4 h.keySize := by
    rw [hdrop8]; exact List.take_left' (uintLE_length 4 _)
  have hdrop12 : (encodeHeader h).drop 12 = uintLE 4 h.valueSize ++
      [h.recordType % 256, h.valueType % 256, 0, 0] := by
    have h12 : (encodeHeader h).drop 12 = ((encodeHeader h).drop 8).drop 4 := by
      rw [List.drop_drop]
    rw [h12, hdrop8]
    exact List.drop_left' (uintLE_length 4 _)
  have hvs4 : ((encodeHeader h).drop 12).take 4 = uintLE 4 h.valueSize := by
    rw [hdrop12]; exact List.take_left' (uintLE_length 4 _)
  have h16 : (encodeHeader h).getD 16 0 = h.recordType := by
    have hre : encodeHeader h = (uintLE 8 h.timestamp ++ uintLE 4 h.keySize ++
        uintLE 4 h.valueSize) ++ [h.recordType % 256, h.valueType % 256, 0, 0] := by
      simp [encodeHeader]
    rw [hre, getD_append_right' (by simp)]
    simp [Nat.mod_eq_of_lt hrt]
  have h17 : (encodeHeader h).getD 17 0 = h.valueType := by
    have hre : encodeHeader h = (uintLE 8 h.timestamp ++ uintLE 4 h.keySize ++
        uintLE 4 h.valueSize) ++ [h.recordType % 256, h.valueType % 256, 0, 0] := by
      simp [encodeHeader]
    rw [hre, getD_append_right' (by simp)]
    simp [Nat.mod_eq_of_lt hvt]
  have d1 : decodeLE (uintLE 8 h.timestamp) = h.timestamp :=
    decodeLE_uintLE 8 _ (by
      have he : (256 : Nat) ^ 8 = 2 ^ 64 := by norm_num
      rw [he]; exact hts)
  have d2 : decodeLE (uintLE 4 h.keySize) = h.keySize :=
    decodeLE_uintLE 4 _ (by
      have he : (256 : Nat) ^ 4 = 2 ^ 32 := by norm_num
      rw [he]; exact hks)
  have d3 : decodeLE (uintLE 4 h.valueSize) = h.valueSize :=
    decodeLE_uintLE 4 _ (by
      have he : (256 : Nat) ^ 4 = 2 ^ 32 := by norm_num
      rw [he]; exact hvs)
  unfold decodeHeaderBytes
  rw [htake8, hks4, hvs4, h16, h17, d1, d2, d3]

theorem readAtBytes_slice {pre mid suf : List Nat} {off n : Nat}
    (hoff : off = pre.length) (hn : n = mid.length) :
    readAtBytes (pre ++ (mid ++ suf)) off n = .ok mid := by
  subst hoff hn
  unfold readAtBytes
  rw [if_pos (by simp [List.length_append])]
  rw [List.drop_left, List.take_left]

theorem readRecordAtStrict_concat (pre k v cb suf : List Nat) (h : Header) (off : Nat)
    (hpre : pre.length = off + FileHeaderSize)
    (hk : h.keySize = k.length) (hv : h.valueSize = v.length)
    (hkc : h.keySize ≤ MaxKeySize) (hvc : h.valueSize ≤ MaxValueSize)
    (hts : h.timestamp < 2 ^ 64) (hrt : h.recordType < 256) (hvt : h.valueType < 256)
    (hcb : cb.length = 4) :
    readRecordAtStrict (pre ++ (encodeHeader h ++ (k ++ (v ++ (cb ++ suf))))) off =
      if decodeLE cb ≠ crc32 (encodeHeader h ++ k ++ v)
      then .error .crcMismatch
      else .ok ⟨h, k, v, recordHeaderSize + h.keySize + h.valueSize + 4⟩ := by
  have hks32 : h.keySize < 2 ^ 32 := by
    have : MaxKeySize < 2 ^ 32 := by norm_num [MaxKeySize]
    omega
  have hvs32 : h.valueSize < 2 ^ 32 := by
    have : MaxValueSize < 2 ^ 32 := by norm_num [MaxValueSize]
    omega
  have hdec := decodeHeaderBytes_encodeHeader h hts hks32 hvs32 hrt hvt
  have hhdr : readAtBytes (pre ++ (encodeHeader h ++ (k ++ (v ++ (cb ++ suf)))))
      (off + FileHeaderSize) recordHeaderSize = .ok (encodeHeader h) :=
    readAtBytes_slice hpre.symm (encodeHeader_length h).symm
  have hkey : readAtBytes (pre ++ (encodeHeader h ++ (k ++ (v ++ (cb ++ suf)))))
      (off + FileHeaderSize + recordHeaderSize) h.keySize = .ok k := by
    have hre : pre ++ (encodeHeader h ++ (k ++ (v ++ (cb ++ suf)))) =
        (pre ++ encodeHeader h) ++ (k ++ (v ++ (cb ++ suf))) := by
      simp [List.append_assoc]
    rw [hre]
    exact readAtBytes_slice (by simp [hpre, recordHeaderSize]) hk
  have hval : readAtBytes (pre ++ (encodeHeader h ++ (k ++ (v ++ (cb ++ suf)))))
      (off + FileHeaderSize + recordHeaderSize + h.keySize) h.valueSize = .ok v := by
    have hre : pre ++ (encodeHeader h ++ (k ++ (v ++ (cb ++ suf)))) =
        ((pre ++ encodeHeader h) ++ k) ++ (v ++ (cb ++ suf)) := by
      simp [List.append_assoc]
    rw [hre]
    exact readAtBytes_slice (by simp [hpre, recordHeaderSize, hk]; omega) hv
  have hcrc : readAtBytes (pre ++ (encodeHeader h ++ (k ++ (v ++ (cb ++ suf)))))
      (off + FileHeaderSize + recordHeaderSize + h.keySize + h.valueSize) 4 = .ok cb := by
    have hre : pre ++ (encodeHeader h ++ (k ++ (v ++ (cb ++ suf)))) =
        (((pre ++ encodeHeader h) ++ k) ++ v) ++ (cb ++ suf) := by
      simp [List.append_assoc]
    rw [hre]
    exact readAtBytes_slice (by simp [hpre, recordHeaderSize, hk, hv]; omega) hcb.symm
  unfold readRecordAtStrict
  simp only [hhdr, exceptBind_ok, hdec, gt_iff_lt]
  rw [if_neg (by omega), if_neg (by omega)]
  simp only [hkey, exceptBind_ok, hval, hcrc]
  rfl

theorem set_middle {l₁ l₂ l₃ : List Nat} {j : Nat} (b : Nat)
    (h₁ : l₁.length ≤ j) (h₂ : j < l₁.length + l₂.length) :
    (l₁ ++ l₂ ++ l₃).set j b = l₁ ++ l₂.set (j - l₁.length) b ++ l₃ := by
  rw [List.set_append_left _ _ (by simp [List.length_append]; omega),
    List.set_append_right _ _ h₁]

theorem readRecordAtStrict_encodeRecord (r : Record) (pre suf : List Nat) (off : Nat)
    (hr : recordOK r) (hpre : pre.length = off + FileHeaderSize) :
    readRecordAtStrict (pre ++ (encodeRecord r ++ suf)) off = .ok r := by
  obtain ⟨hks, hvs, hkc, hvc, hbk, hbv, hts, hrt, hvt, hsz⟩ := hr
  have hassoc : encodeRecord r ++ suf = encodeHeader r.header ++ (r.key ++ (r.value ++
      (uintLE 4 (crc32 (encodeHeader r.header ++ r.key ++ r.value)) ++ suf))) := by
    simp [encodeRecord, List.append_assoc]
  rw [hassoc, readRecordAtStrict_concat pre r.key r.value _ suf r.header off hpre
    (by omega) (by omega) (by omega) (by omega) hts hrt hvt (by simp)]
  rw [if_neg]
  · cases r with
    | mk h k v sz =>
      simp only at hsz ⊢
      rw [hsz]
      simp only [recordHeaderSize] at hks hvs ⊢
      rw [hks, hvs]
  · rw [not_ne_iff]
    exact decodeLE_uintLE 4 _ (by
      have := crc32_lt (encodeHeader r.header ++ r.key ++ r.value)
        (bytesOK_append (bytesOK_append (encodeHeader_bytesOK r.header) hbk) hbv)
      norm_num at this ⊢
      exact this)

/-- C7: for every record written within the size caps, every single-byte
mutation to the record's key bytes, value bytes, or trailing 4-byte CRC field
makes `ReadRecordAtStrict` at the record's offset fail with the crc-mismatch
error. -/
theorem crc_mutation_detected (r : Record) (pre suf : List Nat) (off j b : Nat)
    (hr : recordOK r) (hpre : pre.length = off + FileHeaderSize)
    (hj : recordHeaderSize ≤ j) (hjlt : j < (encodeRecord r).length)
    (hb : b < 256) (hmut : b ≠ (encodeRecord r).getD j 0) :
    readRecordAtStrict (pre ++ ((encodeRecord r).set j b ++ suf)) off =
      .error .crcMismatch := by
  obtain ⟨hks, hvs, hkc, hvc, hbk, hbv, hts, hrt, hvt, hsz⟩ := hr
  have henc : encodeRecord r = (encodeHeader r.header ++ r.key ++ r.value) ++
      uintLE 4 (crc32 (encodeHeader r.header ++ r.key ++ r.value)) := rfl
  have hbl : (encodeHeader r.header ++ r.key ++ r.value).length =
      recordHeaderSize + r.key.length + r.value.length := by
    simp [List.length_append]; omega
  have hel : (encodeRecord r).length =
      recordHeaderSize + r.key.length + r.value.length + 4 := by
    rw [henc]; simp [List.length_append]; omega
  have hbodyOK : bytesOK (encodeHeader r.header ++ r.key ++ r.value) :=
    bytesOK_append (bytesOK_append (encodeHeader_bytesOK _) hbk) hbv
  have hcrclt : crc32 (encodeHeader r.header ++ r.key ++ r.value) < 2 ^ 32 :=
    crc32_lt _ hbodyOK
  have hdecb : decodeLE (uintLE 4 (crc32 (encodeHeader r.header ++ r.key ++ r.value))) =
      crc32 (encodeHeader r.header ++ r.key ++ r.value) :=
    decodeLE_uintLE 4 _ (by
      have he : (256 : Nat) ^ 4 = 2 ^ 32 := by norm_num
      rw [he]; exact hcrclt)
  rcases lt_or_ge j (recordHeaderSize + r.key.length + r.value.length) with hlt | hge
  · -- the mutation hits the key or value bytes: the stored CRC is intact but
    -- the recomputed CRC differs (single-byte error detection)
    have hjb : j < (encodeHeader r.header ++ r.key ++ r.value).length := by
      rw [hbl]; omega
    have hgA : b ≠ (encodeHeader r.header ++ r.key ++ r.value).getD j 0 := by
      rw [henc, getD_append_left' hjb] at hmut
      exact hmut
    have hcrcne : decodeLE (uintLE 4 (crc32 (encodeHeader r.header ++ r.key ++ r.value))) ≠
        crc32 ((encodeHeader r.header ++ r.key ++ r.value).set j b) := by
      rw [hdecb]
      exact (crc32_set_ne hbodyOK hjb hb hgA).symm
    have hset : (encodeRecord r).set j b =
        (encodeHeader r.header ++ r.key ++ r.value).set j b ++
          uintLE 4 (crc32 (encodeHeader r.header ++ r.key ++ r.value)) := by
      rw [henc, List.set_append_left _ _ hjb]
    rcases lt_or_ge j (recordHeaderSize + r.key.length) with hkeyr | hvalr
    · -- key region
      have hsetb : (encodeHeader r.header ++ r.key ++ r.value).set j b =
          encodeHeader r.header ++ r.key.set (j - (encodeHeader r.header).length) b ++
            r.value :=
        set_middle b (by simp; omega) (by simp; omega)
      have hfile : (encodeRecord r).set j b ++ suf =
          encodeHeader r.header ++ (r.key.set (j - (encodeHeader r.header).length) b ++
            (r.value ++ (uintLE 4 (crc32 (encodeHeader r.header ++ r.key ++ r.value)) ++
              suf))) := by
        rw [hset, hsetb]; simp [List.append_assoc]
      rw [hfile, readRecordAtStrict_concat pre _ _ _ suf r.header off hpre
        (by rw [List.length_set]; omega) (by omega) (by omega) (by omega) hts hrt hvt
        (by simp)]
      rw [if_pos]
      rw [show encodeHeader r.header ++
          r.key.set (j - (encodeHeader r.header).length) b ++ r.value =
          (encodeHeader r.header ++ r.key ++ r.value).set j b from hsetb.symm]
      exact hcrcne
    · -- value region
      have hsetb : (encodeHeader r.header ++ r.key ++ r.value).set j b =
          encodeHeader r.header ++ r.key ++
            r.value.set (j - (encodeHeader r.header ++ r.key).length) b :=
        List.set_append_right _ _ (by simp; omega)
      have hfile : (encodeRecord r).set j b ++ suf =
          encodeHeader r.header ++ (r.key ++
            ((r.value.set (j - (encodeHeader r.header ++ r.key).length) b) ++
              (uintLE 4 (crc32 (encodeHeader r.header ++ r.key ++ r.value)) ++ suf))) := by
        rw [hset, hsetb]; simp [List.append_assoc]
      rw [hfile, readRecordAtStrict_concat pre _ _ _ suf r.header off hpre
        (by omega) (by rw [List.length_set]; omega) (by omega) (by omega) hts hrt hvt
        (by simp)]
      rw [if_pos]
      rw [show encodeHeader r.header ++ r.key ++
          r.value.set (j - (encodeHeader r.header ++ r.key).length) b =
          (encodeHeader r.header ++ r.key ++ r.value).set j b from hsetb.symm]
      exact hcrcne
  · -- the mutation hits the CRC field: the recomputed CRC is intact but the
    -- stored CRC decodes to a different value
    have hgC : b ≠ (uintLE 4 (crc32 (encodeHeader r.header ++ r.key ++ r.value))).getD
        (j - (encodeHeader r.header ++ r.key ++ r.value).length) 0 := by
      rw [henc, getD_append_right' (by rw [hbl]; omega)] at hmut
      exact hmut
    have hset : (encodeRecord r).set j b =
        (encodeHeader r.header ++ r.key ++ r.value) ++
          (uintLE 4 (crc32 (encodeHeader r.header ++ r.key ++ r.value))).set
            (j - (encodeHeader r.header ++ r.key ++ r.value).length) b := by
      rw [henc, List.set_append_right _ _ (by rw [hbl]; omega)]
    have hfile : (encodeRecord r).set j b ++ suf =
        encodeHeader r.header ++ (r.key ++ (r.value ++
          ((uintLE 4 (crc32 (encodeHeader r.header ++ r.key ++ r.value))).set
            (j - (encodeHeader r.header ++ r.key ++ r.value).length) b ++ suf))) := by
      rw [hset]; simp [List.append_assoc]
    rw [hfile, readRecordAtStrict_concat pre _ _ _ suf r.header off hpre
      (by omega) (by omega) (by omega) (by omega) hts hrt hvt
      (by rw [List.length_set]; simp)]
    rw [if_pos]
    have hcblt : j - (encodeHeader r.header ++ r.key ++ r.value).length <
        (uintLE 4 (crc32 (encodeHeader r.header ++ r.key ++ r.value))).length := by
      rw [uintLE_length, hbl]
      omega
    intro hcontra
    exact decodeLE_set_ne hcblt hgC (hcontra.trans hdecb.symm)

theorem readValueAt_concat (pre k v cb suf : List Nat) (h : Header) (off : Nat)
    (hpre : pre.length = off + FileHeaderSize)
    (hk : h.keySize = k.length) (hv : h.valueSize = v.length)
    (hkc : h.keySize ≤ MaxKeySize) (hvc : h.valueSize ≤ MaxValueSize)
    (hts : h.timestamp < 2 ^ 64) (hrt : h.recordType < 256) (hvt : h.valueType < 256) :
    readValueAt (pre ++ (encodeHeader h ++ (k ++ (v ++ (cb ++ suf))))) off =
      .ok ⟨h, [], v, recordHeaderSize + h.keySize + h.valueSize + 4⟩ := by
  have hks32 : h.keySize < 2 ^ 32 := by
    have hc : MaxKeySize < 2 ^ 32 := by norm_num [MaxKeySize]
    omega
  have hvs32 : h.valueSize < 2 ^ 32 := by
    have hc : MaxValueSize < 2 ^ 32 := by norm_num [MaxValueSize]
    omega
  have hdec := decodeHeaderBytes_encodeHeader h hts hks32 hvs32 hrt hvt
  have hhdr : readAtBytes (pre ++ (encodeHeader h ++ (k ++ (v ++ (cb ++ suf)))))
      (off + FileHeaderSize) recordHeaderSize = .ok (encodeHeader h) :=
    readAtBytes_slice hpre.symm (encodeHeader_length h).symm
  have hval : readAtBytes (pre ++ (encodeHeader h ++ (k ++ (v ++ (cb ++ suf)))))
      (off + FileHeaderSize + recordHeaderSize + h.keySize) h.valueSize = .ok v := by
    have hre : pre ++ (encodeHeader h ++ (k ++ (v ++ (cb ++ suf)))) =
        ((pre ++ encodeHeader h) ++ k) ++ (v ++ (cb ++ suf)) := by
      simp [List.append_assoc]
    rw [hre]
    exact readAtBytes_slice (by simp [hpre, recordHeaderSize, hk]; omega) hv
  unfold readValueAt readHeaderAt
  simp only [hhdr, exceptBind_ok, hdec, gt_iff_lt]
  rw [if_neg (by omega), if_neg (by omega)]
  simp only [pure, Except.pure, exceptBind_ok, hval]

/-- Witness for C7 at a concrete one-byte key/value record whose first key
byte is flipped from 10 to 11. -/
theorem crc_mutation_detected_witness :
    (recordOK (newRecord 1 [10] [20] recordTypePut) ∧
      (mkFileHeaderBytes 0).length = 0 + FileHeaderSize ∧
      recordHeaderSize ≤ 20 ∧
      20 < (encodeRecord (newRecord 1 [10] [20] recordTypePut)).length ∧
      (11 : Nat) < 256 ∧
      (11 : Nat) ≠ (encodeRecord (newRecord 1 [10] [20] recordTypePut)).getD 20 0) ∧
    readRecordAtStrict (mkFileHeaderBytes 0 ++
      ((encodeRecord (newRecord 1 [10] [20] recordTypePut)).set 20 11 ++ [])) 0 =
      .error .crcMismatch :=
  ⟨⟨by decide, by decide, by decide, by decide, by decide, by decide⟩,
   crc_mutation_detected (newRecord 1 [10] [20] recordTypePut) (mkFileHeaderBytes 0) []
     0 20 11 (by decide) (by decide) (by decide) (by decide) (by decide) (by decide)⟩

theorem addKeydirRecord_stale (kd : Keydir) (key : List Nat)
    (fileId valueSize valuePos ts : Nat) (e : KeydirRecord)
    (hk : kd key = some e) (hts : ts < e.timestamp) :
    addKeydirRecord kd key fileId valueSize valuePos ts = kd := by
  simp [addKeydirRecord, hk, hts]

theorem addKeydirRecord_timestamp_mono (kd : Keydir) (key : List Nat)
    (fileId valueSize valuePos ts : Nat) (e : KeydirRecord) (hk : kd key = some e) :
    ∃ e', addKeydirRecord kd key fileId valueSize valuePos ts key = some e' ∧
      e.timestamp ≤ e'.timestamp := by
  unfold addKeydirRecord
  rw [hk]
  by_cases hts : ts < e.timestamp
  · exact ⟨e, by simp [hts, hk], le_refl _⟩
  · exact ⟨⟨fileId, valueSize, valuePos, ts⟩, by simp [hts],
      by simpa using Nat.le_of_not_lt hts⟩

theorem addKeydirRecord_other (kd : Keydir) (key k : List Nat)
    (fileId valueSize valuePos ts : Nat) (hne : k ≠ key) :
    addKeydirRecord kd key fileId valueSize valuePos ts k = kd k := by
  unfold addKeydirRecord
  cases hkd : kd key with
  | none => simp [hne]
  | some e =>
    by_cases hts : ts < e.timestamp <;> simp [hts, hne]

theorem applyAddCalls_timestamp_mono (calls : List AddCall) :
    ∀ (kd : Keydir) (key : List Nat) (e : KeydirRecord), kd key = some e →
    ∃ e', applyAddCalls kd calls key = some e' ∧ e.timestamp ≤ e'.timestamp := by
  induction calls with
  | nil => exact fun kd key e hk => ⟨e, hk, le_refl _⟩
  | cons c rest ih =>
    intro kd key e hk
    by_cases hkey : key = c.key
    · subst hkey
      obtain ⟨e₁, he₁, hle₁⟩ :=
        addKeydirRecord_timestamp_mono kd c.key c.fileId c.valueSize c.valuePos c.timestamp e hk
      obtain ⟨e₂, he₂, hle₂⟩ := ih _ c.key e₁ he₁
      exact ⟨e₂, he₂, le_trans hle₁ hle₂⟩
    · have hother := addKeydirRecord_other kd c.key key c.fileId c.valueSize c.valuePos
        c.timestamp hkey
      obtain ⟨e₂, he₂, hle₂⟩ := ih
        (addKeydirRecord kd c.key c.fileId c.valueSize c.valuePos c.timestamp) key e
        (hother.trans hk)
      exact ⟨e₂, he₂, hle₂⟩

/-- C5: a keydir put whose timestamp is strictly earlier than the existing
entry's timestamp leaves the keydir completely unchanged, and for every key
present in the keydir the stored timestamp never decreases across any
sequence of `AddKeydirRecord` calls. -/
theorem keydir_stale_guard_and_timestamp_monotone
    (kd : Keydir) (key : List Nat) (e : KeydirRecord) (hk : kd key = some e) :
    (∀ fileId valueSize valuePos ts, ts < e.timestamp →
        addKeydirRecord kd key fileId valueSize valuePos ts = kd) ∧
    (∀ calls : List AddCall, ∃ e',
        applyAddCalls kd calls key = some e' ∧ e.timestamp ≤ e'.timestamp) := by
  constructor
  · intro fileId valueSize valuePos ts hts
    exact addKeydirRecord_stale kd key fileId valueSize valuePos ts e hk hts
  · intro calls
    exact applyAddCalls_timestamp_mono calls kd key e hk

/-- Witness for C5 at a concrete keydir: the key `[1]` is present with
timestamp 5, so the theorem applies. -/
theorem keydir_stale_guard_and_timestamp_monotone_witness :
    (addKeydirRecord newKeydir [1] 1 2 3 5 [1] = some ⟨1, 2, 3, 5⟩) ∧
    ((∀ fileId valueSize valuePos ts, ts < (5 : Nat) →
        addKeydirRecord (addKeydirRecord newKeydir [1] 1 2 3 5) [1]
          fileId valueSize valuePos ts = addKeydirRecord newKeydir [1] 1 2 3 5) ∧
     (∀ calls : List AddCall, ∃ e',
        applyAddCalls (addKeydirRecord newKeydir [1] 1 2 3 5) calls [1] = some e' ∧
          5 ≤ e'.timestamp)) :=
  ⟨by decide,
   keydir_stale_guard_and_timestamp_monotone
     (addKeydirRecord newKeydir [1] 1 2 3 5) [1] ⟨1, 2, 3, 5⟩ (by decide)⟩

/-- C4 (amended): the record writer performs no size check — a record whose
key exceeds 1024 bytes or whose value exceeds 1,048,576 bytes is accepted and
its full encoding is appended; only decoding a record header whose size
fields exceed the caps fails, with `ErrKeyTooLarge` / `ErrValueTooLarge`. -/
theorem record_size_caps_amended (f key value : List Nat) (ts : Nat) (g : List Nat) (off : Nat)
    (bytes : List Nat) (hbig : MaxKeySize < key.length ∨ MaxValueSize < value.length)
    (hb : readAtBytes g off recordHeaderSize = .ok bytes) :
    (∃ pos f', writeKeyValue f key value ts = .ok (pos, f') ∧
        f'.length = f.length + (recordHeaderSize + key.length + value.length + 4)) ∧
    (MaxKeySize < (decodeHeaderBytes bytes).keySize →
        readHeaderAt g off = .error .keyTooLarge) ∧
    ((decodeHeaderBytes bytes).keySize ≤ MaxKeySize →
      MaxValueSize < (decodeHeaderBytes bytes).valueSize →
        readHeaderAt g off = .error .valueTooLarge) := by
  refine ⟨⟨f.length, f ++ encodeRecord (newRecord ts key value recordTypePut), rfl, ?_⟩, ?_, ?_⟩
  · simp [newRecord]
  · intro hks
    simp only [readHeaderAt, hb, exceptBind_ok, gt_iff_lt]
    rw [if_pos hks]
  · intro hks hvs
    simp only [readHeaderAt, hb, exceptBind_ok, gt_iff_lt]
    rw [if_neg (by omega), if_pos hvs]

/-- Witness for C4 (amended) at a 1025-byte key and a 20-byte header whose
key-size field is 2000. -/
theorem record_size_caps_amended_witness :
    ((MaxKeySize < (List.replicate 1025 7 : List Nat).length ∨
        MaxValueSize < ([] : List Nat).length) ∧
      readAtBytes (uintLE 8 0 ++ uintLE 4 2000 ++ uintLE 4 0 ++ [0x50, 0, 0, 0]) 0
        recordHeaderSize =
        .ok (uintLE 8 0 ++ uintLE 4 2000 ++ uintLE 4 0 ++ [0x50, 0, 0, 0])) ∧
    (∃ pos f', writeKeyValue [] (List.replicate 1025 7) [] 3 = .ok (pos, f') ∧
        f'.length = ([] : List Nat).length +
          (recordHeaderSize + (List.replicate 1025 7 : List Nat).length +
            ([] : List Nat).length + 4)) ∧
    (MaxKeySize < (decodeHeaderBytes
        (uintLE 8 0 ++ uintLE 4 2000 ++ uintLE 4 0 ++ [0x50, 0, 0, 0])).keySize →
      readHeaderAt (uintLE 8 0 ++ uintLE 4 2000 ++ uintLE 4 0 ++ [0x50, 0, 0, 0]) 0 =
        .error .keyTooLarge) ∧
    ((decodeHeaderBytes
        (uintLE 8 0 ++ uintLE 4 2000 ++ uintLE 4 0 ++ [0x50, 0, 0, 0])).keySize ≤ MaxKeySize →
      MaxValueSize < (decodeHeaderBytes
        (uintLE 8 0 ++ uintLE 4 2000 ++ uintLE 4 0 ++ [0x50, 0, 0, 0])).valueSize →
      readHeaderAt (uintLE 8 0 ++ uintLE 4 2000 ++ uintLE 4 0 ++ [0x50, 0, 0, 0]) 0 =
        .error .valueTooLarge) :=
  ⟨⟨Or.inl (by rw [List.length_replicate]; norm_num [MaxKeySize]), by rfl⟩,
    record_size_caps_amended [] (List.replicate 1025 7) [] 3
      (uintLE 8 0 ++ uintLE 4 2000 ++ uintLE 4 0 ++ [0x50, 0, 0, 0]) 0
      (uintLE 8 0 ++ uintLE 4 2000 ++ uintLE 4 0 ++ [0x50, 0, 0, 0])
      (Or.inl (by rw [List.length_replicate]; norm_num [MaxKeySize])) (by rfl)⟩

/-- C4 counterexample: encoding a record with a 1025-byte key is not
rejected — the write succeeds and appends the 1049-byte record. -/
theorem record_size_caps_counterexample :
    (writeKeyValue [] (List.replicate 1025 7) [] 3).isOk = true ∧
    (match writeKeyValue [] (List.replicate 1025 7) [] 3 with
     | .ok (_, f') => f'.length
     | .error _ => 0) = 1049 := by
  constructor
  · rfl
  · show ([] ++ encodeRecord (newRecord 3 (List.replicate 1025 7) [] recordTypePut)).length = 1049
    rw [List.nil_append, encodeRecord_length]
    simp only [newRecord]
    rw [List.length_replicate, List.length_nil]
    norm_num [recordHeaderSize]

/-- C6 (amended): after every `RotateWriter.Write` the rotate-pending flag is
set exactly when the record's start offset (the offset the write returns,
i.e. the pre-write position) exceeds `maxDatafileSize`; when the flag was
pending the write begins a new file (the record lands at offset 19, right
after the file header), and otherwise the record is admitted into the current
file regardless of how far it overruns the threshold. -/
theorem rotate_flag_set_on_record_offset (rw : RotateWriter) (key value : List Nat)
    (tomb : Bool) (ts cts : Nat) :
    ((rotateWrite rw key value tomb ts cts).2.2.shouldRotate =
      decide ((rotateWrite rw key value tomb ts cts).2.1 > rw.maxDatafileSize)) ∧
    (rw.shouldRotate = true →
      (rotateWrite rw key value tomb ts cts).2.1 = FileHeaderSize ∧
      (rotateWrite rw key value tomb ts cts).2.2.files.length = rw.files.length + 1) ∧
    (rw.shouldRotate = false → rw.hasWriter = true → rw.files ≠ [] →
      (rotateWrite rw key value tomb ts cts).2.2.files.length = rw.files.length ∧
      ((rotateWrite rw key value tomb ts cts).2.2.files.getLast?).getD [] =
        (rw.files.getLast?).getD [] ++ encodeRecord (rotateRecord key value tomb ts)) := by
  refine ⟨?_, ?_, ?_⟩
  · by_cases hrot : (rw.shouldRotate || !rw.hasWriter) = true
    · simp [rotateWrite, hrot, rotateGetNewWriter]
    · simp [rotateWrite, hrot]
  · intro hpend
    have hrot : (rw.shouldRotate || !rw.hasWriter) = true := by simp [hpend]
    constructor
    · simp [rotateWrite, hrot, rotateGetNewWriter]
    · simp [rotateWrite, hrot, rotateGetNewWriter, List.dropLast_concat]
  · intro hpend hwriter hne
    have hrot : (rw.shouldRotate || !rw.hasWriter) = false := by simp [hpend, hwriter]
    constructor
    · simp only [rotateWrite, hrot, Bool.false_eq_true, if_false]
      rw [List.length_append, List.length_dropLast, List.length_singleton]
      have := List.length_pos.mpr hne
      omega
    · simp only [rotateWrite, hrot, Bool.false_eq_true, if_false]
      rw [List.getLast?_append_cons]
      rfl

/-- Witness for C6 (amended), exercising the rotate-pending branch. -/
theorem rotate_flag_set_on_record_offset_witness :
    ((rotateWrite ⟨30, [[0]], true, true⟩ [1] [2] false 5 6).2.2.shouldRotate =
      decide ((rotateWrite ⟨30, [[0]], true, true⟩ [1] [2] false 5 6).2.1 >
        (30 : Nat))) ∧
    ((true : Bool) = true →
      (rotateWrite ⟨30, [[0]], true, true⟩ [1] [2] false 5 6).2.1 = FileHeaderSize ∧
      (rotateWrite ⟨30, [[0]], true, true⟩ [1] [2] false 5 6).2.2.files.length =
        [[0]].length + 1) ∧
    ((true : Bool) = false → (true : Bool) = true → ([[0]] : List (List Nat)) ≠ [] →
      (rotateWrite ⟨30, [[0]], true, true⟩ [1] [2] false 5 6).2.2.files.length =
        [[0]].length ∧
      ((rotateWrite ⟨30, [[0]], true, true⟩ [1] [2] false 5 6).2.2.files.getLast?).getD [] =
        (([[0]] : List (List Nat)).getLast?).getD [] ++
          encodeRecord (rotateRecord [1] [2] false 5)) :=
  rotate_flag_set_on_record_offset ⟨30, [[0]], true, true⟩ [1] [2] false 5 6

@[simp] theorem deleteRecord_self (kd : Keydir) (key : List Nat) :
    deleteRecord kd key key = none := by
  simp [deleteRecord]

theorem deleteRecord_other (kd : Keydir) (key k : List Nat) (h : k ≠ key) :
    deleteRecord kd key k = kd k := by
  simp [deleteRecord, h]

theorem addKeydirRecord_self_fresh (kd : Keydir) (key : List Nat)
    (fileId valueSize valuePos ts : Nat)
    (h : ∀ e, kd key = some e → e.timestamp ≤ ts) :
    addKeydirRecord kd key fileId valueSize valuePos ts key =
      some ⟨fileId, valueSize, valuePos, ts⟩ := by
  unfold addKeydirRecord
  cases hkd : kd key with
  | none => simp
  | some e =>
    have hns : ¬ ts < e.timestamp := by have := h e hkd; omega
    simp [hns]

theorem addKeydirRecord_self_cases (kd : Keydir) (key : List Nat)
    (fileId valueSize valuePos ts : Nat) :
    addKeydirRecord kd key fileId valueSize valuePos ts key = kd key ∨
    addKeydirRecord kd key fileId valueSize valuePos ts key =
      some ⟨fileId, valueSize, valuePos, ts⟩ := by
  unfold addKeydirRecord
  cases hkd : kd key with
  | none => right; simp
  | some e =>
    by_cases hts : ts < e.timestamp
    · left; simp [hts, hkd]
    · right; simp [hts]

theorem replayFile_append (kd : Keydir) (fileId : Nat) (l₁ l₂ : List (Record × Nat)) :
    replayFile kd fileId (l₁ ++ l₂) = replayFile (replayFile kd fileId l₁) fileId l₂ := by
  induction l₁ generalizing kd with
  | nil => rfl
  | cons p rest ih =>
    obtain ⟨r, off⟩ := p
    simp only [List.cons_append, replayFile]
    exact ih _

theorem replayFile_origin (l : List (Record × Nat)) :
    ∀ (kd : Keydir) (fileId : Nat) (k : List Nat) (e : KeydirRecord),
    replayFile kd fileId l k = some e →
    kd k = some e ∨ ∃ r off, (r, off) ∈ l ∧ r.key = k ∧
      r.header.recordType ≠ recordTypeDelete ∧
      e = ⟨fileId, r.header.valueSize, off, r.header.timestamp⟩ := by
  induction l with
  | nil => intro kd fileId k e h; exact Or.inl h
  | cons p rest ih =>
    intro kd fileId k e h
    obtain ⟨r, off⟩ := p
    simp only [replayFile] at h
    rcases ih _ fileId k e h with hbase | ⟨r', off', hmem, hkey, hnd, he⟩
    · by_cases hdel : r.header.recordType = recordTypeDelete
      · rw [if_pos hdel] at hbase
        by_cases hk : k = r.key
        · subst hk; simp [deleteRecord] at hbase
        · rw [deleteRecord_other _ _ _ hk] at hbase
          exact Or.inl hbase
      · rw [if_neg hdel] at hbase
        by_cases hk : k = r.key
        · subst hk
          rcases addKeydirRecord_self_cases kd r.key fileId r.header.valueSize off
              r.header.timestamp with hc | hc
          · rw [hc] at hbase; exact Or.inl hbase
          · rw [hc] at hbase
            refine Or.inr ⟨r, off, List.mem_cons_self _ _, rfl, hdel, ?_⟩
            cases hbase; rfl
        · rw [addKeydirRecord_other _ _ _ _ _ _ _ hk] at hbase
          exact Or.inl hbase
    · exact Or.inr ⟨r', off', List.mem_cons_of_mem _ hmem, hkey, hnd, he⟩

theorem replayStore_origin (dfs : List DataFile) :
    ∀ (k : List Nat) (e : KeydirRecord), replayStore dfs k = some e →
    ∃ df ∈ dfs, df.id = e.fileId ∧ ∃ r off, (r, off) ∈ recOffsetsFrom 0 df.recs ∧
      r.key = k ∧ r.header.recordType ≠ recordTypeDelete ∧
      e = ⟨df.id, r.header.valueSize, off, r.header.timestamp⟩ := by
  suffices hgen : ∀ (dfs : List DataFile) (kd : Keydir) (k : List Nat) (e : KeydirRecord),
      dfs.foldl (fun kd df => replayFile kd df.id (recOffsetsFrom 0 df.recs)) kd k = some e →
      kd k = some e ∨ ∃ df ∈ dfs, df.id = e.fileId ∧
        ∃ r off, (r, off) ∈ recOffsetsFrom 0 df.recs ∧ r.key = k ∧
          r.header.recordType ≠ recordTypeDelete ∧
          e = ⟨df.id, r.header.valueSize, off, r.header.timestamp⟩ by
    intro k e h
    rcases hgen dfs newKeydir k e h with hbase | hfound
    · simp [newKeydir] at hbase
    · exact hfound
  intro dfs
  induction dfs with
  | nil => intro kd k e h; exact Or.inl h
  | cons df rest ih =>
    intro kd k e h
    simp only [List.foldl_cons] at h
    rcases ih _ k e h with hbase | ⟨df', hmem, hid, r, off, hroff, hkey, hnd, he⟩
    · rcases replayFile_origin _ kd df.id k e hbase with hb | ⟨r, off, hroff, hkey, hnd, he⟩
      · exact Or.inl hb
      · exact Or.inr ⟨df, List.mem_cons_self _ _, by rw [he], r, off, hroff, hkey, hnd,
          by rw [he]⟩
    · exact Or.inr ⟨df', List.mem_cons_of_mem _ hmem, hid, r, off, hroff, hkey, hnd, he⟩

theorem recOffsetsFrom_append (l₁ l₂ : List Record) :
    ∀ off, recOffsetsFrom off (l₁ ++ l₂) =
      recOffsetsFrom off l₁ ++ recOffsetsFrom (off + sizeSum l₁) l₂ := by
  induction l₁ with
  | nil => intro off; simp [recOffsetsFrom, sizeSum]
  | cons r rest ih =>
    intro off
    have hs : off + sizeSum (r :: rest) = off + r.size + sizeSum rest := by
      simp only [sizeSum, List.map_cons, List.sum_cons]; omega
    simp only [List.cons_append, recOffsetsFrom, List.append_eq, ih, hs]

theorem recOffsetsFrom_mem_rec {recs : List Record} {r : Record} {off : Nat} :
    ∀ {off0 : Nat}, (r, off) ∈ recOffsetsFrom off0 recs → r ∈ recs := by
  induction recs with
  | nil => intro off0 h; simp [recOffsetsFrom] at h
  | cons x t ih =>
    intro off0 h
    simp only [recOffsetsFrom, List.mem_cons] at h
    rcases h with h | h
    · cases h; exact List.mem_cons_self _ _
    · exact List.mem_cons_of_mem _ (ih h)

theorem recOffsetsFrom_slice {recs : List Record} (hok : ∀ r ∈ recs, recordOK r) :
    ∀ {off0 : Nat} {r : Record} {off : Nat}, (r, off) ∈ recOffsetsFrom off0 recs →
    ∃ pre suf : List Nat, (recs.map encodeRecord).flatten = pre ++ (encodeRecord r ++ suf) ∧
      off0 + pre.length = off := by
  induction recs with
  | nil => intro off0 r off h; simp [recOffsetsFrom] at h
  | cons x t ih =>
    intro off0 r off h
    simp only [recOffsetsFrom, List.mem_cons] at h
    rcases h with h | h
    · obtain ⟨h1, h2⟩ := Prod.mk.injEq .. ▸ h
      refine ⟨[], (t.map encodeRecord).flatten, ?_, ?_⟩
      · simp [h1]
      · simp [← h2]
    · obtain ⟨pre, suf, hfl, hoff⟩ := ih (fun r hr => hok r (List.mem_cons_of_mem _ hr)) h
      obtain ⟨-, -, -, -, -, -, -, -, -, hxsz⟩ := hok x (List.mem_cons_self _ _)
      refine ⟨encodeRecord x ++ pre, suf, ?_, ?_⟩
      · simp only [List.map_cons, List.flatten_cons, hfl, List.append_assoc]
      · rw [List.length_append, encodeRecord_length]
        omega

theorem findFile_of_mem {dfs : List DataFile} {df : DataFile}
    (hsort : List.Pairwise (· < ·) (dfs.map DataFile.id)) (hmem : df ∈ dfs) :
    findFile dfs df.id = some df := by
  induction dfs with
  | nil => simp at hmem
  | cons x t ih =>
    rcases List.mem_cons.mp hmem with h | h
    · subst h
      simp [findFile, List.find?_cons]
    · have hx : x.id ≠ df.id := by
        have := (List.pairwise_cons.mp hsort).1 df.id (List.mem_map_of_mem _ h)
        omega
      have ht := ih (List.pairwise_cons.mp hsort).2 h
      simp only [findFile] at ht ⊢
      rw [List.find?_cons]
      simp [hx, ht]

theorem readValueAt_fileBytes {df : DataFile} {r : Record} {off : Nat}
    (hok : ∀ r' ∈ df.recs, recordOK r') (hroff : (r, off) ∈ recOffsetsFrom 0 df.recs) :
    readValueAt (fileBytes df) off = .ok ⟨r.header, [], r.value, r.size⟩ := by
  obtain ⟨pre, suf, hfl, hoff⟩ := recOffsetsFrom_slice hok hroff
  obtain ⟨hks, hvs, hkc, hvc, hbk, hbv, hts, hrt, hvt, hsz⟩ :=
    hok r (recOffsetsFrom_mem_rec hroff)
  have hfile : fileBytes df = (mkFileHeaderBytes df.cts ++ pre) ++
      (encodeHeader r.header ++ (r.key ++ (r.value ++
        (uintLE 4 (crc32 (encodeHeader r.header ++ r.key ++ r.value)) ++ suf)))) := by
    rw [fileBytes, hfl]
    simp [encodeRecord, List.append_assoc]
  rw [hfile, readValueAt_concat _ _ _ _ _ _ off
    (by rw [List.length_append, mkFileHeaderBytes_length]; omega)
    (by omega) (by omega) (by omega) (by omega) hts hrt hvt]
  have hsz' : recordHeaderSize + r.header.keySize + r.header.valueSize + 4 = r.size := by
    omega
  rw [hsz']

theorem readRecordAtStrict_fileBytes {df : DataFile} {r : Record} {off : Nat}
    (hok : ∀ r' ∈ df.recs, recordOK r') (hroff : (r, off) ∈ recOffsetsFrom 0 df.recs) :
    readRecordAtStrict (fileBytes df) off = .ok r := by
  obtain ⟨pre, suf, hfl, hoff⟩ := recOffsetsFrom_slice hok hroff
  have hfile : fileBytes df = (mkFileHeaderBytes df.cts ++ pre) ++
      (encodeRecord r ++ suf) := by
    rw [fileBytes, hfl, List.append_assoc]
  rw [hfile]
  exact readRecordAtStrict_encodeRecord r _ suf off (hok r (recOffsetsFrom_mem_rec hroff))
    (by rw [List.length_append, mkFileHeaderBytes_length]; omega)

theorem flatten_length_sizeSum {recs : List Record} (hok : ∀ r ∈ recs, recordOK r) :
    ((recs.map encodeRecord).flatten).length = sizeSum recs := by
  induction recs with
  | nil => simp [sizeSum]
  | cons r t ih =>
    obtain ⟨-, -, -, -, -, -, -, -, -, hsz⟩ := hok r (List.mem_cons_self _ _)
    have hih := ih (fun r' hr' => hok r' (List.mem_cons_of_mem _ hr'))
    simp only [List.map_cons, List.flatten_cons, List.length_append, encodeRecord_length,
      hih, sizeSum, List.map_cons, List.sum_cons]
    simp only [sizeSum] at hih ⊢
    omega

theorem fileBytes_length {df : DataFile} (hok : ∀ r ∈ df.recs, recordOK r) :
    (fileBytes df).length = FileHeaderSize + sizeSum df.recs := by
  rw [fileBytes, List.length_append, mkFileHeaderBytes_length, flatten_length_sizeSum hok]

theorem map_update_not_mem {dfs : List DataFile} {a : Nat} (f : DataFile → DataFile)
    (h : ∀ df ∈ dfs, df.id ≠ a) :
    dfs.map (fun df => if df.id = a then f df else df) = dfs := by
  induction dfs with
  | nil => rfl
  | cons x t ih =>
    simp only [List.map_cons, if_neg (h x (List.mem_cons_self _ _)),
      ih (fun df hdf => h df (List.mem_cons_of_mem _ hdf))]

theorem pairwise_ids_append {dfs : List DataFile} {x : DataFile}
    (hsort : List.Pairwise (· < ·) (dfs.map DataFile.id))
    (hlt : ∀ df ∈ dfs, df.id < x.id) :
    List.Pairwise (· < ·) ((dfs ++ [x]).map DataFile.id) := by
  rw [List.map_append, List.pairwise_append]
  refine ⟨hsort, List.pairwise_singleton _ _, ?_⟩
  intro a ha b hb
  simp only [List.map_cons, List.map_nil, List.mem_singleton] at hb
  obtain ⟨df, hdf, rfl⟩ := List.mem_map.mp ha
  rw [hb]
  exact hlt df hdf

theorem replayStore_append_file (dfs : List DataFile) (df : DataFile) :
    replayStore (dfs ++ [df]) =
      replayFile (replayStore dfs) df.id (recOffsetsFrom 0 df.recs) := by
  unfold replayStore
  rw [List.foldl_append]
  rfl

/-- Characterization of `FileManager.Write` on an invariant-satisfying store:
the record is appended to the (possibly freshly rotated) active file `df`,
the returned offset is that file's byte length before the append (hence
`offset - FileHeaderSize` is the record's offset from the first record), and
the replay view advances by exactly that one record. -/
theorem fmWrite_spec {S : Store} (hInv : Inv S) (key value : List Nat) (tomb : Bool)
    {fid off : Nat} {fm' : FM}
    (hkc : key.length ≤ MaxKeySize) (hbk : bytesOK key)
    (hvc : value.length ≤ MaxValueSize) (hbv : bytesOK value)
    (hclk : S.clock + 2 < 2 ^ 64)
    (hw : fmWrite S.fm key value tomb S.clock S.clock = (fid, off, fm')) :
    ∃ init df,
      fm'.dataFiles =
        init ++ [⟨df.id, df.cts, df.recs ++ [rotateRecord key value tomb S.clock]⟩] ∧
      df.id = fid ∧ fid = fm'.activeDataFile ∧
      off = (fileBytes df).length ∧ off - FileHeaderSize = sizeSum df.recs ∧
      FileHeaderSize ≤ off ∧
      (∀ r ∈ df.recs, recordOK r ∧ r.header.timestamp < S.clock) ∧
      List.Pairwise (· < ·) (fm'.dataFiles.map DataFile.id) ∧
      (∀ df' ∈ fm'.dataFiles, 1 ≤ df'.id ∧ df'.id ≤ fm'.activeDataFile) ∧
      ((fm'.dataFiles.getLast?).map DataFile.id = some fm'.activeDataFile ∧
        fm'.hasWriter = true) ∧
      fm'.nextDataFileNumber = fm'.activeDataFile + 1 ∧
      fm'.maxDatafileSize = S.fm.maxDatafileSize ∧
      (∀ df' ∈ fm'.dataFiles, ∀ r ∈ df'.recs, recordOK r ∧
        r.header.timestamp < S.clock + 2) ∧
      replayStore fm'.dataFiles = replayFile (replayStore S.fm.dataFiles) fid
        [(rotateRecord key value tomb S.clock, off - FileHeaderSize)] := by
  have hr0 : recordOK (rotateRecord key value tomb S.clock) := by
    cases tomb
    · exact ⟨rfl, rfl, hkc, hvc, hbk, hbv,
        show S.clock < 2 ^ 64 by omega,
        show recordTypePut < 256 by norm_num [recordTypePut],
        show (0 : Nat) < 256 by norm_num, rfl⟩
    · exact ⟨rfl, rfl, hkc, Nat.zero_le _,
        hbk, fun b hb => absurd hb (List.not_mem_nil b),
        show S.clock < 2 ^ 64 by omega,
        show recordTypeDelete < 256 by norm_num [recordTypeDelete],
        show (0 : Nat) < 256 by norm_num, rfl⟩
  have hr0ts : (rotateRecord key value tomb S.clock).header.timestamp < S.clock + 2 := by
    cases tomb <;> exact show S.clock < S.clock + 2 by omega
  by_cases hrot : (S.fm.shouldRotate || !S.fm.hasWriter) = true
  · -- rotation: a fresh file with id `nextDataFileNumber` receives the record
    have hlt : ∀ df ∈ S.fm.dataFiles, df.id < S.fm.nextDataFileNumber := by
      intro df hdf
      have := (hInv.ids_bound df hdf).2
      rw [hInv.next_eq]
      omega
    have hsort' : List.Pairwise (· < ·)
        ((S.fm.dataFiles ++ [(⟨S.fm.nextDataFileNumber, S.clock, []⟩ : DataFile)]).map
          DataFile.id) :=
      pairwise_ids_append hInv.ids_sorted hlt
    have hfind : findFile (S.fm.dataFiles ++ [⟨S.fm.nextDataFileNumber, S.clock, []⟩])
        S.fm.nextDataFileNumber = some ⟨S.fm.nextDataFileNumber, S.clock, []⟩ :=
      findFile_of_mem hsort' (List.mem_append_right _ (List.mem_singleton.mpr rfl))
    have hmap : (S.fm.dataFiles ++ [(⟨S.fm.nextDataFileNumber, S.clock, []⟩ : DataFile)]).map
        (fun df => if df.id = S.fm.nextDataFileNumber
          then { df with recs := df.recs ++ [rotateRecord key value tomb S.clock] }
          else df) =
        S.fm.dataFiles ++ [⟨S.fm.nextDataFileNumber, S.clock,
          [rotateRecord key value tomb S.clock]⟩] := by
      rw [List.map_append,
        map_update_not_mem _ (fun df hdf => Nat.ne_of_lt (hlt df hdf))]
      simp
    rw [fmWrite] at hw
    simp only [hrot, if_true, hfind, Option.getD_some, hmap] at hw
    injection hw with h1 hrest
    injection hrest with h2 h3
    subst h1
    subst h2
    subst h3
    refine ⟨S.fm.dataFiles, ⟨S.fm.nextDataFileNumber, S.clock, []⟩, rfl, rfl, rfl,
      by simp [fileBytes], ?_, ?_, ?_, ?_, ?_, ?_, ?_, ?_, ?_, ?_⟩
    · simp [fileBytes, sizeSum, FileHeaderSize, mkFileHeaderBytes, fileHeaderMagic]
    · simp [fileBytes, FileHeaderSize, mkFileHeaderBytes, fileHeaderMagic]
    · intro r hr; simp at hr
    · simpa using hsort'
    · intro df' hdf'
      rcases List.mem_append.mp hdf' with h | h
      · exact ⟨(hInv.ids_bound df' h).1, Nat.le_of_lt (hlt df' h)⟩
      · simp only [List.mem_singleton] at h
        subst h
        exact ⟨by simp [hInv.next_eq], by simp⟩
    · exact ⟨by rw [List.getLast?_concat]; rfl, rfl⟩
    · rfl
    · rfl
    · intro df' hdf' r hr
      rcases List.mem_append.mp hdf' with h | h
      · obtain ⟨hro, hts0⟩ := hInv.recs_ok df' h r hr
        exact ⟨hro, by omega⟩
      · simp only [List.mem_singleton] at h
        subst h
        simp only [List.mem_singleton] at hr
        subst hr
        exact ⟨hr0, hr0ts⟩
    · rw [replayStore_append_file]
      rfl
  · -- no rotation: the record is appended to the current active (last) file
    have hrot' : S.fm.shouldRotate = false ∧ S.fm.hasWriter = true := by
      simpa using hrot
    have hrotf : (S.fm.shouldRotate || !S.fm.hasWriter) = false := by
      rw [hrot'.1, hrot'.2]
      rfl
    have hwlast : ((S.fm.dataFiles.getLast?).map DataFile.id =
        some S.fm.activeDataFile ∧ S.fm.hasWriter = true) := by
      rcases hInv.active_last with ⟨he, ha, hwr⟩ | h
      · rw [hwr] at hrot'
        exact absurd hrot'.2 (by simp)
      · exact h
    have hne : S.fm.dataFiles ≠ [] := by
      intro h
      rw [h] at hwlast
      simp at hwlast
    have hdec : S.fm.dataFiles =
        S.fm.dataFiles.dropLast ++ [S.fm.dataFiles.getLast hne] :=
      (List.dropLast_concat_getLast hne).symm
    have hLid : (S.fm.dataFiles.getLast hne).id = S.fm.activeDataFile := by
      have hh := hwlast.1
      rw [List.getLast?_eq_getLast _ hne] at hh
      simpa using hh
    have hLmem : S.fm.dataFiles.getLast hne ∈ S.fm.dataFiles := List.getLast_mem hne
    have hfind : findFile S.fm.dataFiles S.fm.activeDataFile =
        some (S.fm.dataFiles.getLast hne) := by
      rw [← hLid]
      exact findFile_of_mem hInv.ids_sorted hLmem
    have hdroplt : ∀ df ∈ S.fm.dataFiles.dropLast, df.id < S.fm.activeDataFile := by
      intro df hdf
      have hpw := hInv.ids_sorted
      rw [hdec, List.map_append, List.pairwise_append] at hpw
      have := hpw.2.2 df.id (List.mem_map_of_mem _ hdf)
        (S.fm.dataFiles.getLast hne).id (by simp)
      omega
    have hLok : ∀ r ∈ (S.fm.dataFiles.getLast hne).recs, recordOK r ∧
        r.header.timestamp < S.clock := hInv.recs_ok _ hLmem
    have hofflen : (fileBytes (S.fm.dataFiles.getLast hne)).length =
        FileHeaderSize + sizeSum (S.fm.dataFiles.getLast hne).recs :=
      fileBytes_length (fun r hr => (hLok r hr).1)
    have hmap : S.fm.dataFiles.map
        (fun df => if df.id = S.fm.activeDataFile
          then { df with recs := df.recs ++ [rotateRecord key value tomb S.clock] }
          else df) =
        S.fm.dataFiles.dropLast ++ [⟨(S.fm.dataFiles.getLast hne).id,
          (S.fm.dataFiles.getLast hne).cts,
          (S.fm.dataFiles.getLast hne).recs ++
            [rotateRecord key value tomb S.clock]⟩] := by
      conv =>
        lhs
        rw [hdec]
      rw [List.map_append,
        map_update_not_mem _ (fun df hdf => Nat.ne_of_lt (hdroplt df hdf))]
      simp only [List.map_cons, List.map_nil]
      rw [if_pos hLid]
    rw [fmWrite] at hw
    simp only [hrotf, Bool.false_eq_true, if_false, hfind, Option.getD_some, hmap] at hw
    injection hw with h1 hrest
    injection hrest with h2 h3
    subst h1
    subst h2
    subst h3
    have hids : ((S.fm.dataFiles.dropLast ++ [(⟨(S.fm.dataFiles.getLast hne).id,
        (S.fm.dataFiles.getLast hne).cts,
        (S.fm.dataFiles.getLast hne).recs ++
          [rotateRecord key value tomb S.clock]⟩ : DataFile)]).map DataFile.id) =
        S.fm.dataFiles.map DataFile.id := by
      conv =>
        rhs
        rw [hdec]
      simp [List.map_append]
    refine ⟨S.fm.dataFiles.dropLast, S.fm.dataFiles.getLast hne, rfl, hLid, rfl,
      rfl, ?_, ?_, hLok, ?_, ?_, ?_, ?_, ?_, ?_, ?_⟩
    · rw [hofflen]; omega
    · rw [hofflen]; omega
    · rw [hids]; exact hInv.ids_sorted
    · intro df' hdf'
      rcases List.mem_append.mp hdf' with h | h
      · exact ⟨(hInv.ids_bound df' (hdec ▸ List.mem_append_left _ h)).1,
          Nat.le_of_lt (hdroplt df' h)⟩
      · simp only [List.mem_singleton] at h
        subst h
        exact ⟨(hInv.ids_bound _ hLmem).1, by simp [hLid]⟩
    · exact ⟨by rw [List.getLast?_concat]; simp [hLid], hrot'.2⟩
    · exact hInv.next_eq
    · rfl
    · intro df' hdf' r hr
      rcases List.mem_append.mp hdf' with h | h
      · obtain ⟨hro, hts0⟩ := hInv.recs_ok df' (hdec ▸ List.mem_append_left _ h) r hr
        exact ⟨hro, by omega⟩
      · simp only [List.mem_singleton] at h
        subst h
        simp only at hr
        rcases List.mem_append.mp hr with h | h
        · obtain ⟨hro, hts0⟩ := hLok r h
          exact ⟨hro, by omega⟩
        · simp only [List.mem_singleton] at h
          subst h
          exact ⟨hr0, hr0ts⟩
    · have hrs : replayStore S.fm.dataFiles =
          replayFile (replayStore S.fm.dataFiles.dropLast)
            (S.fm.dataFiles.getLast hne).id
            (recOffsetsFrom 0 (S.fm.dataFiles.getLast hne).recs) := by
        conv =>
          lhs
          rw [hdec]
        exact replayStore_append_file _ _
      have hoffs : recOffsetsFrom 0 ((S.fm.dataFiles.getLast hne).recs ++
          [rotateRecord key value tomb S.clock]) =
          recOffsetsFrom 0 (S.fm.dataFiles.getLast hne).recs ++
            [(rotateRecord key value tomb S.clock,
              sizeSum (S.fm.dataFiles.getLast hne).recs)] := by
        rw [recOffsetsFrom_append]
        simp [recOffsetsFrom]
      have hsz : FileHeaderSize + sizeSum (S.fm.dataFiles.getLast hne).recs -
          FileHeaderSize = sizeSum (S.fm.dataFiles.getLast hne).recs := by omega
      rw [replayStore_append_file, hrs, hofflen, hsz]
      dsimp only
      rw [hoffs, replayFile_append, hLid]

/-- Under the invariant, a present keydir entry cites an intact PUT record
whose value `Get` returns. -/
theorem get_spec {S : Store} (hInv : Inv S) {k : List Nat} {e : KeydirRecord}
    (hk : S.keydir k = some e) :
    ∃ df ∈ S.fm.dataFiles, df.id = e.fileId ∧
      ∃ r off, (r, off) ∈ recOffsetsFrom 0 df.recs ∧ r.key = k ∧
        r.header.recordType ≠ recordTypeDelete ∧ e.valuePos = off ∧
        e.valueSize = r.header.valueSize ∧ getOp S k = .ok r.value := by
  have hm := hInv.kd_match k
  rw [hk] at hm
  cases hrep : replayStore S.fm.dataFiles k with
  | none => rw [hrep] at hm; exact absurd hm (by simp [kdMatch])
  | some e' =>
    rw [hrep] at hm
    obtain ⟨hfid, hsz, hpos⟩ := hm
    obtain ⟨df, hdmem, hdid, r, off, hroff, hkey, hnd, he'⟩ :=
      replayStore_origin _ k e' hrep
    have hepos : e.valuePos = off := by rw [hpos, he']
    have hesz : e.valueSize = r.header.valueSize := by rw [hsz, he']
    have hdid' : df.id = e.fileId := by rw [hdid, ← hfid]
    refine ⟨df, hdmem, hdid', r, off, hroff, hkey, hnd, hepos, hesz, ?_⟩
    unfold getOp getKeydirRecord fmReadValueAt
    rw [hk]
    have hff : findFile S.fm.dataFiles e.fileId = some df := by
      rw [← hdid']; exact findFile_of_mem hInv.ids_sorted hdmem
    simp only [hff, hepos,
      readValueAt_fileBytes (fun r' hr' => (hInv.recs_ok df hdmem r' hr').1) hroff]
    rfl

/-- C6 counterexample: with `maxDatafileSize = 30`, a first write of an empty
key and empty value ends with the post-write file offset at 43 > 30, yet the
rotate-pending flag is left false (the code compares the record's start
offset 19, not the post-write offset). -/
theorem rotate_flag_counterexample :
    (((rotateWrite ⟨30, [], false, false⟩ [] [] false 0 0).2.2.files.getLast?).getD
        []).length = 43 ∧
    ((30 : Nat) < 43) ∧
    (rotateWrite ⟨30, [], false, false⟩ [] [] false 0 0).2.2.shouldRotate = false := by
  refine ⟨?_, by norm_num, ?_⟩
  · show ((((mkFileHeaderBytes 0 ++
        encodeRecord (rotateRecord [] [] false 0)) :: []).getLast?).getD []).length = 43
    rw [List.getLast?_singleton, Option.getD_some, List.length_append,
      mkFileHeaderBytes_length, encodeRecord_length]
    rfl
  · rfl

theorem replayFile_put_singleton (kd : Keydir) (fid : Nat) (key value : List Nat)
    (ts off : Nat) :
    replayFile kd fid [(rotateRecord key value false ts, off)] =
      addKeydirRecord kd key fid value.length off ts := by
  simp [replayFile, rotateRecord, newRecord, recordTypePut, recordTypeDelete]

theorem replayFile_del_singleton (kd : Keydir) (fid : Nat) (key : List Nat)
    (ts off : Nat) :
    replayFile kd fid [(rotateRecord key [] true ts, off)] = deleteRecord kd key := by
  simp [replayFile, rotateRecord, newRecord, recordTypeDelete]

theorem inv_createStore (maxSize : Nat) : Inv (createStore maxSize) := by
  refine ⟨?_, ?_, Or.inl ⟨rfl, rfl, rfl⟩, rfl, ?_, ?_, ?_, ?_, rfl⟩
  · simp [createStore]
  · intro df hdf; simp [createStore] at hdf
  · intro df hdf; simp [createStore] at hdf
  · intro k; exact trivial
  · intro k e h; exact Option.noConfusion h
  · intro k e h; exact Option.noConfusion h

theorem inv_putOp {S : Store} (hInv : Inv S) (key value : List Nat)
    (hkc : key.length ≤ MaxKeySize) (hbk : bytesOK key)
    (hvc : value.length ≤ MaxValueSize) (hbv : bytesOK value)
    (hclk : S.clock + 2 < 2 ^ 64) :
    Inv (putOp S key value) := by
  obtain ⟨fid, off, fm', hw⟩ :
      ∃ fid off fm', fmWrite S.fm key value false S.clock S.clock = (fid, off, fm') :=
    ⟨_, _, _, rfl⟩
  obtain ⟨init, df, hdf, hdid, hfid, hoff, hoffsz, hoffge, hold, hsort, hbound,
      hlast, hnext, hmax, hrecs, hreplay⟩ :=
    fmWrite_spec hInv key value false hkc hbk hvc hbv hclk hw
  have hS' : putOp S key value =
      { fm := fm'
        keydir := addKeydirRecord S.keydir key fid value.length
          (off - FileHeaderSize) (S.clock + 1)
        hints := S.hints
        clock := S.clock + 2 } := by
    unfold putOp
    rw [hw]
  rw [hS']
  have hrep1 : replayStore fm'.dataFiles =
      addKeydirRecord (replayStore S.fm.dataFiles) key fid value.length
        (off - FileHeaderSize) S.clock := by
    rw [hreplay, replayFile_put_singleton]
  refine ⟨hsort, hbound, Or.inr hlast, hnext, hrecs, ?_, ?_, ?_, hInv.hints_empty⟩
  · intro k
    show kdMatch (addKeydirRecord S.keydir key fid value.length
        (off - FileHeaderSize) (S.clock + 1) k) (replayStore fm'.dataFiles k)
    rw [hrep1]
    by_cases hk : k = key
    · subst hk
      rw [addKeydirRecord_self_fresh _ _ _ _ _ _
          (fun e he => by have := hInv.kd_ts_lt _ e he; omega),
        addKeydirRecord_self_fresh _ _ _ _ _ _
          (fun e he => by have := hInv.replay_ts_lt _ e he; omega)]
      exact ⟨rfl, rfl, rfl⟩
    · rw [addKeydirRecord_other _ _ _ _ _ _ _ hk,
        addKeydirRecord_other _ _ _ _ _ _ _ hk]
      exact hInv.kd_match k
  · intro k e he
    have he' : addKeydirRecord S.keydir key fid value.length
        (off - FileHeaderSize) (S.clock + 1) k = some e := he
    show e.timestamp < S.clock + 2
    by_cases hk : k = key
    · subst hk
      rcases addKeydirRecord_self_cases S.keydir k fid value.length
          (off - FileHeaderSize) (S.clock + 1) with hc | hc
      · rw [hc] at he'
        have := hInv.kd_ts_lt _ e he'
        omega
      · rw [hc] at he'
        injection he' with h
        subst h
        show S.clock + 1 < S.clock + 2
        omega
    · rw [addKeydirRecord_other _ _ _ _ _ _ _ hk] at he'
      have := hInv.kd_ts_lt _ e he'
      omega
  · intro k e he
    have he' : addKeydirRecord (replayStore S.fm.dataFiles) key fid value.length
        (off - FileHeaderSize) S.clock k = some e := by
      rw [← hrep1]; exact he
    show e.timestamp < S.clock + 2
    by_cases hk : k = key
    · subst hk
      rcases addKeydirRecord_self_cases (replayStore S.fm.dataFiles) k fid
          value.length (off - FileHeaderSize) S.clock with hc | hc
      · rw [hc] at he'
        have := hInv.replay_ts_lt _ e he'
        omega
      · rw [hc] at he'
        injection he' with h
        subst h
        show S.clock < S.clock + 2
        omega
    · rw [addKeydirRecord_other _ _ _ _ _ _ _ hk] at he'
      have := hInv.replay_ts_lt _ e he'
      omega

theorem inv_deleteOp {S : Store} (hInv : Inv S) (key : List Nat)
    (hkc : key.length ≤ MaxKeySize) (hbk : bytesOK key)
    (hclk : S.clock + 2 < 2 ^ 64) :
    Inv (deleteOp S key) := by
  obtain ⟨fid, off, fm', hw⟩ :
      ∃ fid off fm', fmWrite S.fm key [] true S.clock S.clock = (fid, off, fm') :=
    ⟨_, _, _, rfl⟩
  obtain ⟨init, df, hdf, hdid, hfid, hoff, hoffsz, hoffge, hold, hsort, hbound,
      hlast, hnext, hmax, hrecs, hreplay⟩ :=
    fmWrite_spec hInv key [] true hkc hbk (Nat.zero_le _)
      (fun b hb => absurd hb (List.not_mem_nil b)) hclk hw
  have hS' : deleteOp S key =
      { fm := fm'
        keydir := deleteRecord S.keydir key
        hints := S.hints
        clock := S.clock + 2 } := by
    unfold deleteOp
    rw [hw]
  rw [hS']
  have hrep1 : replayStore fm'.dataFiles =
      deleteRecord (replayStore S.fm.dataFiles) key := by
    rw [hreplay, replayFile_del_singleton]
  refine ⟨hsort, hbound, Or.inr hlast, hnext, hrecs, ?_, ?_, ?_, hInv.hints_empty⟩
  · intro k
    show kdMatch (deleteRecord S.keydir key k) (replayStore fm'.dataFiles k)
    rw [hrep1]
    by_cases hk : k = key
    · subst hk
      simp only [deleteRecord, if_pos rfl]
      exact trivial
    · rw [deleteRecord_other _ _ _ hk, deleteRecord_other _ _ _ hk]
      exact hInv.kd_match k
  · intro k e he
    have he' : deleteRecord S.keydir key k = some e := he
    show e.timestamp < S.clock + 2
    by_cases hk : k = key
    · subst hk
      simp only [deleteRecord, if_pos rfl] at he'
      exact Option.noConfusion he'
    · rw [deleteRecord_other _ _ _ hk] at he'
      have := hInv.kd_ts_lt _ e he'
      omega
  · intro k e he
    have he' : deleteRecord (replayStore S.fm.dataFiles) key k = some e := by
      rw [← hrep1]; exact he
    show e.timestamp < S.clock + 2
    by_cases hk : k = key
    · subst hk
      simp only [deleteRecord, if_pos rfl] at he'
      exact Option.noConfusion he'
    · rw [deleteRecord_other _ _ _ hk] at he'
      have := hInv.replay_ts_lt _ e he'
      omega

theorem clock_applyOp (S : Store) (op : StoreOp) :
    (applyOp S op).clock = S.clock + 2 := by
  cases op <;> rfl

theorem clock_runOps (ops : List StoreOp) :
    ∀ S : Store, (runOps S ops).clock = S.clock + 2 * ops.length := by
  induction ops with
  | nil => intro S; simp [runOps]
  | cons op rest ih =>
    intro S
    show (runOps (applyOp S op) rest).clock = S.clock + 2 * (op :: rest).length
    rw [ih, clock_applyOp, List.length_cons]
    omega

theorem inv_runOps (ops : List StoreOp) :
    ∀ S : Store, Inv S → (∀ op ∈ ops, opOK op) →
    S.clock + 2 * ops.length < 2 ^ 64 → Inv (runOps S ops) := by
  induction ops with
  | nil => intro S hInv _ _; exact hInv
  | cons op rest ih =>
    intro S hInv hok hclk
    show Inv (runOps (applyOp S op) rest)
    rw [List.length_cons] at hclk
    have hclk2 : S.clock + 2 < 2 ^ 64 := by omega
    have hclk' : (applyOp S op).clock + 2 * rest.length < 2 ^ 64 := by
      rw [clock_applyOp]
      omega
    have hInv' : Inv (applyOp S op) := by
      cases op with
      | put k v =>
        have h := hok _ (List.mem_cons_self _ _)
        simp only [opOK] at h
        exact inv_putOp hInv k v h.1 h.2.2.1 h.2.1 h.2.2.2 hclk2
      | del k =>
        have h := hok _ (List.mem_cons_self _ _)
        simp only [opOK] at h
        exact inv_deleteOp hInv k h.1 h.2 hclk2
    exact ih _ hInv' (fun o ho => hok o (List.mem_cons_of_mem _ ho)) hclk'

theorem reachable_inv {S : Store} (hS : Reachable S) : Inv S := by
  obtain ⟨maxSize, ops, hok, hlen, rfl⟩ := hS
  refine inv_runOps ops _ (inv_createStore maxSize) hok ?_
  show 0 + 2 * ops.length < 2 ^ 64
  omega

theorem reachable_clock_lt {S : Store} (hS : Reachable S) : S.clock + 2 < 2 ^ 64 := by
  obtain ⟨maxSize, ops, hok, hlen, rfl⟩ := hS
  rw [clock_runOps]
  show 0 + 2 * ops.length + 2 < 2 ^ 64
  omega

/-- C1: read-your-writes — after a successful `Put(k, v)` within the size
caps on any reachable single-threaded store state, `Get(k)` returns exactly
the byte string `v` with no error (the keydir entry stores the record offset
minus the 19-byte file header and `ReadValueAt` adds it back). -/
theorem read_your_writes {S : Store} (hS : Reachable S) (key value : List Nat)
    (hkc : key.length ≤ MaxKeySize) (hbk : bytesOK key)
    (hvc : value.length ≤ MaxValueSize) (hbv : bytesOK value) :
    getOp (putOp S key value) key = .ok value := by
  have hInv := reachable_inv hS
  have hclk := reachable_clock_lt hS
  obtain ⟨fid, off, fm', hw⟩ :
      ∃ fid off fm', fmWrite S.fm key value false S.clock S.clock = (fid, off, fm') :=
    ⟨_, _, _, rfl⟩
  obtain ⟨init, df, hdf, hdid, hfid, hoff, hoffsz, hoffge, hold, hsort, hbound,
      hlast, hnext, hmax, hrecs, hreplay⟩ :=
    fmWrite_spec hInv key value false hkc hbk hvc hbv hclk hw
  have hS' : putOp S key value =
      { fm := fm'
        keydir := addKeydirRecord S.keydir key fid value.length
          (off - FileHeaderSize) (S.clock + 1)
        hints := S.hints
        clock := S.clock + 2 } := by
    unfold putOp
    rw [hw]
  rw [hS']
  have hkd : addKeydirRecord S.keydir key fid value.length
      (off - FileHeaderSize) (S.clock + 1) key =
      some ⟨fid, value.length, off - FileHeaderSize, S.clock + 1⟩ :=
    addKeydirRecord_self_fresh _ _ _ _ _ _
      (fun e he => by have := hInv.kd_ts_lt _ e he; omega)
  have hmem : (⟨df.id, df.cts, df.recs ++ [rotateRecord key value false S.clock]⟩ :
      DataFile) ∈ fm'.dataFiles := by
    rw [hdf]
    exact List.mem_append_right _ (List.mem_singleton.mpr rfl)
  have hff : findFile fm'.dataFiles fid =
      some ⟨df.id, df.cts, df.recs ++ [rotateRecord key value false S.clock]⟩ := by
    rw [← hdid]
    exact findFile_of_mem hsort hmem
  have hroff : (rotateRecord key value false S.clock, off - FileHeaderSize) ∈
      recOffsetsFrom 0 (⟨df.id, df.cts,
        df.recs ++ [rotateRecord key value false S.clock]⟩ : DataFile).recs := by
    show _ ∈ recOffsetsFrom 0 (df.recs ++ [rotateRecord key value false S.clock])
    rw [recOffsetsFrom_append]
    refine List.mem_append_right _ ?_
    simp [recOffsetsFrom, hoffsz]
  have hok : ∀ r' ∈ (⟨df.id, df.cts,
      df.recs ++ [rotateRecord key value false S.clock]⟩ : DataFile).recs,
      recordOK r' := fun r' hr' => (hrecs _ hmem r' hr').1
  have hread := readValueAt_fileBytes hok hroff
  simp only [getOp, getKeydirRecord, hkd, fmReadValueAt, hff, hread, Except.map]
  rfl

/-- Witness for C1 at a concrete store and key/value pair. -/
theorem read_your_writes_witness :
    getOp (putOp (createStore 100) [1] [2]) [1] = Except.ok [2] :=
  read_your_writes
    ⟨100, [], fun op h => absurd h (List.not_mem_nil op), by norm_num, rfl⟩
    [1] [2] (by decide) (by decide) (by decide) (by decide)

theorem readRecordAtStrict_eof {f : List Nat} {off : Nat}
    (h : f.length < off + FileHeaderSize + recordHeaderSize) :
    readRecordAtStrict f off = .error .eofErr := by
  have hra : readAtBytes f (off + FileHeaderSize) recordHeaderSize =
      Except.error Err.eofErr := by
    unfold readAtBytes
    rw [if_neg (by omega)]
  simp only [readRecordAtStrict, hra, exceptBind_error]

theorem length_le_sizeSum {recs : List Record} (hok : ∀ r ∈ recs, recordOK r) :
    recs.length ≤ sizeSum recs := by
  induction recs with
  | nil => simp [sizeSum]
  | cons r t ih =>
    obtain ⟨-, -, -, -, -, -, -, -, -, hsz⟩ := hok r (List.mem_cons_self _ _)
    have ht := ih (fun r' h => hok r' (List.mem_cons_of_mem _ h))
    simp only [sizeSum, List.map_cons, List.sum_cons, List.length_cons] at *
    have : 0 < r.size := by rw [hsz]; unfold recordHeaderSize; omega
    omega

theorem sizeSum_append (l₁ l₂ : List Record) :
    sizeSum (l₁ ++ l₂) = sizeSum l₁ + sizeSum l₂ := by
  simp [sizeSum]

theorem addRecordsLoop_fileBytes {df : DataFile} {fileId : Nat}
    (hok : ∀ r ∈ df.recs, recordOK r) :
    ∀ (suffix pre : List Record) (kd : Keydir) (fuel : Nat),
    df.recs = pre ++ suffix → suffix.length < fuel →
    addRecordsLoop (fileBytes df) fileId kd (sizeSum pre) fuel =
      (replayFile kd fileId (recOffsetsFrom (sizeSum pre) suffix), none) := by
  intro suffix
  induction suffix with
  | nil =>
    intro pre kd fuel hdec hfuel
    cases fuel with
    | zero => omega
    | succ fuel =>
      have hlen : (fileBytes df).length = FileHeaderSize + sizeSum pre := by
        rw [fileBytes_length hok, hdec, List.append_nil]
      rw [addRecordsLoop, readRecordAtStrict_eof (by rw [hlen]; unfold recordHeaderSize; omega)]
      rfl
  | cons r rest ih =>
    intro pre kd fuel hdec hfuel
    cases fuel with
    | zero => omega
    | succ fuel =>
      have hroff : (r, sizeSum pre) ∈ recOffsetsFrom 0 df.recs := by
        rw [hdec, recOffsetsFrom_append]
        refine List.mem_append_right _ ?_
        rw [Nat.zero_add]
        exact List.mem_cons_self _ _
      have hread := readRecordAtStrict_fileBytes hok hroff
      rw [addRecordsLoop, hread]
      have hih := ih (pre ++ [r]) (if r.header.recordType = recordTypeDelete
          then deleteRecord kd r.key
          else addKeydirRecord kd r.key fileId r.header.valueSize (sizeSum pre)
            r.header.timestamp)
        fuel (by rw [hdec, List.append_assoc]; rfl)
        (by simpa using Nat.lt_of_succ_lt_succ hfuel)
      rw [sizeSum_append] at hih
      show addRecordsLoop (fileBytes df) fileId _ (sizeSum pre + r.size) fuel = _
      rw [show sizeSum [r] = r.size from by simp [sizeSum]] at hih
      rw [hih]
      rfl

theorem addRecordsToKeydir_fileBytes {df : DataFile} (fileId : Nat) (kd : Keydir)
    (hok : ∀ r ∈ df.recs, recordOK r) :
    addRecordsToKeydir (fileBytes df) fileId kd =
      (replayFile kd fileId (recOffsetsFrom 0 df.recs), none) := by
  unfold addRecordsToKeydir
  have h := @addRecordsLoop_fileBytes df fileId hok df.recs [] kd
    ((fileBytes df).length + 1) rfl
    (by
      rw [fileBytes_length hok]
      have := length_le_sizeSum hok
      unfold FileHeaderSize
      omega)
  simpa [sizeSum] using h

theorem readFileHeader_fileBytes (df : DataFile) :
    ∃ x, readFileHeader (fileBytes df) = .ok x := by
  refine ⟨(2, 0, 0, decodeLE (uintLE 8 df.cts)), ?_⟩
  have hbuf : readFullBytes (fileBytes df) 0 FileHeaderSize =
      .ok (mkFileHeaderBytes df.cts) := by
    unfold readFullBytes fileBytes
    rw [if_pos (by
      rw [List.length_append, mkFileHeaderBytes_length]
      omega)]
    rw [List.drop_zero, List.take_append_of_le_length (by rw [mkFileHeaderBytes_length]),
      List.take_of_length_le (by rw [mkFileHeaderBytes_length])]
  have htake : (mkFileHeaderBytes df.cts).take 8 = fileHeaderMagic := by
    unfold mkFileHeaderBytes
    rw [List.take_append_of_le_length (by decide)]
    decide
  have hg8 : (mkFileHeaderBytes df.cts).getD 8 0 = 2 := by
    unfold mkFileHeaderBytes
    rw [getD_append_left' (by decide)]
    decide
  have hg9 : (mkFileHeaderBytes df.cts).getD 9 0 = 0 := by
    unfold mkFileHeaderBytes
    rw [getD_append_left' (by decide)]
    decide
  have hg10 : (mkFileHeaderBytes df.cts).getD 10 0 = 0 := by
    unfold mkFileHeaderBytes
    rw [getD_append_left' (by decide)]
    decide
  have hdrop : (mkFileHeaderBytes df.cts).drop 11 = uintLE 8 df.cts := by
    unfold mkFileHeaderBytes fileHeaderMagic
    rfl
  simp only [readFileHeader, hbuf, exceptBind_ok, htake, hg8, hg9, hg10, hdrop]
  rfl

theorem foldl_build_eq_replay (dfs : List DataFile)
    (hok : ∀ df ∈ dfs, ∀ r ∈ df.recs, recordOK r) :
    ∀ kd : Keydir, dfs.foldl (fun kd df =>
        match readFileHeader (fileBytes df) with
        | .error _ => kd
        | .ok _ => (addRecordsToKeydir (fileBytes df) df.id kd).1) kd =
      dfs.foldl (fun kd df => replayFile kd df.id (recOffsetsFrom 0 df.recs)) kd := by
  induction dfs with
  | nil => intro kd; rfl
  | cons df rest ih =>
    intro kd
    obtain ⟨x, hx⟩ := readFileHeader_fileBytes df
    simp only [List.foldl_cons, hx,
      addRecordsToKeydir_fileBytes df.id kd (hok df (List.mem_cons_self _ _))]
    exact ih (fun d hd => hok d (List.mem_cons_of_mem _ hd)) _

theorem buildKeydir_diskFiles {S : Store} (hInv : Inv S) :
    buildKeydir (diskFiles S) = .ok (replayStore S.fm.dataFiles) := by
  unfold buildKeydir diskFiles
  rw [List.mergeSort_of_sorted (by
    refine (List.pairwise_map).mpr ?_
    exact ((List.pairwise_map).mp hInv.ids_sorted).imp
      (fun h => by simpa using Nat.le_of_lt h))]
  rw [List.foldl_map]
  rw [foldl_build_eq_replay S.fm.dataFiles
    (fun df hdf r hr => (hInv.recs_ok df hdf r hr).1) newKeydir]
  rfl

theorem lookupBytes_diskFiles {dfs : List DataFile} {df : DataFile}
    (hsort : List.Pairwise (· < ·) (dfs.map DataFile.id)) (hmem : df ∈ dfs) :
    lookupBytes (dfs.map (fun d => (d.id, fileBytes d))) df.id = some (fileBytes df) := by
  induction dfs with
  | nil => simp at hmem
  | cons x t ih =>
    rcases List.mem_cons.mp hmem with h | h
    · subst h
      simp [lookupBytes, List.find?_cons]
    · have hx : x.id ≠ df.id := by
        have := (List.pairwise_cons.mp hsort).1 df.id (List.mem_map_of_mem _ h)
        omega
      have ht := ih (List.pairwise_cons.mp hsort).2 h
      simp only [lookupBytes, List.map_cons] at ht ⊢
      rw [List.find?_cons]
      simp only [hx, decide_eq_true_eq, if_neg hx]
      exact ht

/-- C3: round-trip under persistence — for any reachable store state,
`Open` on the closed store's data files succeeds, rebuilding the keydir by
replaying the data files in ascending id order, and the reopened store's
`Get` agrees with the pre-close `Get` on every key: live keys return their
value, deleted or absent keys report key-not-found. -/
theorem reopen_preserves_gets {S : Store} (hS : Reachable S) :
    ∃ bs : ByteStore, openStore (diskFiles S) = .ok bs ∧
      ∀ k, byteGet bs k = getOp S k := by
  have hInv := reachable_inv hS
  refine ⟨⟨diskFiles S, replayStore S.fm.dataFiles⟩, ?_, ?_⟩
  · unfold openStore
    rw [buildKeydir_diskFiles hInv]
    rfl
  · intro k
    have hm := hInv.kd_match k
    cases hkd : S.keydir k with
    | none =>
      rw [hkd] at hm
      cases hrep : replayStore S.fm.dataFiles k with
      | none =>
        unfold byteGet
        dsimp only
        rw [hrep]
        unfold getOp getKeydirRecord
        rw [hkd]
      | some e' =>
        rw [hrep] at hm
        exact absurd hm (by simp [kdMatch])
    | some e =>
      obtain ⟨df, hdmem, hdid, r, off, hroff, hkey, hnd, hepos, hesz, hget⟩ :=
        get_spec hInv hkd
      rw [hget]
      rw [hkd] at hm
      cases hrep : replayStore S.fm.dataFiles k with
      | none =>
        rw [hrep] at hm
        exact absurd hm (by simp [kdMatch])
      | some e' =>
        rw [hrep] at hm
        obtain ⟨hfid, hsz, hpos⟩ := hm
        have hlb : lookupBytes (diskFiles S) e'.fileId = some (fileBytes df) := by
          rw [← hfid, ← hdid]
          exact lookupBytes_diskFiles hInv.ids_sorted hdmem
        have hread := readValueAt_fileBytes
          (fun r' hr' => (hInv.recs_ok df hdmem r' hr').1) hroff
        unfold byteGet
        dsimp only
        rw [hrep]
        dsimp only
        rw [hlb]
        dsimp only
        rw [show e'.valuePos = off from by rw [← hpos, hepos], hread]
        rfl

/-- Witness for C3 at a concrete store: create, put one key, close and
reopen; the rebuilt store returns the value. -/
theorem reopen_preserves_gets_witness :
    ∃ bs : ByteStore,
      openStore (diskFiles (putOp (createStore 100) [1] [2])) = .ok bs ∧
      ∀ k, byteGet bs k = getOp (putOp (createStore 100) [1] [2]) k :=
  reopen_preserves_gets
    ⟨100, [StoreOp.put [1] [2]],
      fun op h => by
        rw [List.mem_singleton] at h
        subst h
        exact ⟨by decide, by decide, by decide, by decide⟩,
      by norm_num, rfl⟩

theorem readAtBytes_error {f : List Nat} {off n : Nat} {e : Err}
    (h : readAtBytes f off n = .error e) : e = .eofErr := by
  unfold readAtBytes at h
  split at h
  · simp at h
  · injection h with h
    exact h.symm

theorem readValueAt_ne_crc (f : List Nat) (off : Nat) :
    readValueAt f off ≠ .error .crcMismatch := by
  unfold readValueAt readHeaderAt
  cases hb : readAtBytes f (off + FileHeaderSize) recordHeaderSize with
  | error e =>
    simp only [hb, exceptBind_error]
    rw [readAtBytes_error hb]
    simp
  | ok bytes =>
    simp only [hb, exceptBind_ok]
    split
    · simp
    · split
      · simp
      · simp only [pure, Except.pure, exceptBind_ok]
        cases hv : readAtBytes f (off + FileHeaderSize + recordHeaderSize +
            (decodeHeaderBytes bytes).keySize) (decodeHeaderBytes bytes).valueSize with
        | error e =>
          simp only [hv, exceptBind_error]
          rw [readAtBytes_error hv]
          simp
        | ok v => simp [hv]

theorem readValueAt_silent_corruption (r : Record) (pre suf : List Nat)
    (off j b : Nat) (hr : recordOK r) (hpre : pre.length = off + FileHeaderSize)
    (hj : j < r.value.length) (hb : b < 256) :
    readValueAt ((pre ++ (encodeRecord r ++ suf)).set
        (pre.length + recordHeaderSize + r.key.length + j) b) off =
      .ok ⟨r.header, [], r.value.set j b,
        recordHeaderSize + r.header.keySize + r.header.valueSize + 4⟩ := by
  obtain ⟨hks, hvs, hkc, hvc, hbk, hbv, hts, hrt, hvt, hsz⟩ := hr
  have hfile : pre ++ (encodeRecord r ++ suf) =
      ((pre ++ encodeHeader r.header ++ r.key) ++ r.value) ++
        (uintLE 4 (crc32 (encodeHeader r.header ++ r.key ++ r.value)) ++ suf) := by
    simp [encodeRecord, List.append_assoc]
  have hl1 : (pre ++ encodeHeader r.header ++ r.key).length =
      pre.length + recordHeaderSize + r.key.length := by
    simp [List.length_append, encodeHeader_length, recordHeaderSize]
    omega
  rw [hfile, set_middle b (by rw [hl1]; omega) (by rw [hl1]; omega)]
  have hidx : pre.length + recordHeaderSize + r.key.length + j -
      (pre ++ encodeHeader r.header ++ r.key).length = j := by
    rw [hl1]; omega
  rw [hidx]
  have hre : ((pre ++ encodeHeader r.header ++ r.key) ++ r.value.set j b) ++
      (uintLE 4 (crc32 (encodeHeader r.header ++ r.key ++ r.value)) ++ suf) =
      pre ++ (encodeHeader r.header ++ (r.key ++ (r.value.set j b ++
        (uintLE 4 (crc32 (encodeHeader r.header ++ r.key ++ r.value)) ++ suf)))) := by
    simp [List.append_assoc]
  rw [hre, readValueAt_concat pre r.key (r.value.set j b) _ suf r.header off hpre
    hks (by rw [List.length_set]; omega) (by omega) (by omega) hts hrt hvt]

/-- C10: `Get` never verifies the checksum — no store state and key can make
`Get` fail with the crc-mismatch error, and when a value byte of a stored
record is corrupted in place, `ReadValueAt` silently returns the corrupted
value bytes with no error. -/
theorem get_no_crc_verification :
    (∀ (S : Store) (key : List Nat), getOp S key ≠ .error .crcMismatch) ∧
    (∀ (r : Record) (pre suf : List Nat) (off j b : Nat), recordOK r →
      pre.length = off + FileHeaderSize → j < r.value.length → b < 256 →
      readValueAt ((pre ++ (encodeRecord r ++ suf)).set
          (pre.length + recordHeaderSize + r.key.length + j) b) off =
        .ok ⟨r.header, [], r.value.set j b,
          recordHeaderSize + r.header.keySize + r.header.valueSize + 4⟩) := by
  constructor
  · intro S key
    unfold getOp
    cases hkd : getKeydirRecord S.keydir key with
    | none => simp
    | some rec =>
      dsimp only
      unfold fmReadValueAt
      cases hff : findFile S.fm.dataFiles rec.fileId with
      | none => simp [Except.map]
      | some df =>
        dsimp only
        cases hrv : readValueAt (fileBytes df) rec.valuePos with
        | error e =>
          simp only [hrv, Except.map]
          intro hcontra
          injection hcontra with h
          exact readValueAt_ne_crc (fileBytes df) rec.valuePos (by rw [hrv, h])
        | ok r => simp [hrv, Except.map]
  · intro r pre suf off j b hr hpre hj hb
    exact readValueAt_silent_corruption r pre suf off j b hr hpre hj hb

/-- Witness for C10: on the empty store `Get` fails with key-not-found (not
crc-mismatch), and flipping the single value byte of a concrete stored record
to 99 makes `ReadValueAt` return value `[99]` with no error. -/
theorem get_no_crc_verification_witness :
    (getOp (createStore 7) [1] ≠ .error .crcMismatch) ∧
    (recordOK (newRecord 1 [10] [20] recordTypePut) ∧
      (mkFileHeaderBytes 0).length = 0 + FileHeaderSize ∧
      0 < [20].length ∧ (99 : Nat) < 256) ∧
    readValueAt ((mkFileHeaderBytes 0 ++
        (encodeRecord (newRecord 1 [10] [20] recordTypePut) ++ [])).set
        ((mkFileHeaderBytes 0).length + recordHeaderSize + [10].length + 0) 99) 0 =
      .ok ⟨(newRecord 1 [10] [20] recordTypePut).header, [], [99],
        recordHeaderSize + 1 + 1 + 4⟩ :=
  ⟨get_no_crc_verification.1 (createStore 7) [1],
   ⟨by decide, by decide, by decide, by decide⟩,
   get_no_crc_verification.2 (newRecord 1 [10] [20] recordTypePut)
     (mkFileHeaderBytes 0) [] 0 0 99 (by decide) (by decide) (by decide) (by decide)⟩

theorem buildKeydir_ok (files : List (Nat × List Nat)) :
    ∃ kd, buildKeydir files = .ok kd := ⟨_, rfl⟩

theorem mergeSort_singleton (p : Nat × List Nat) :
    [p].mergeSort (fun a b => a.1 ≤ b.1) = [p] :=
  List.mergeSort_of_sorted (List.pairwise_singleton _ _)

/-- C9 amended: the startup keydir build never surfaces record-level errors.
`Open` succeeds on every directory content, and on a file whose header is
intact the keydir is whatever `addRecordsToKeydir` built before stopping —
its error component (e.g. a crc-mismatch) is dropped and the build continues;
header-level failures skip the file with an unchanged keydir. -/
theorem open_swallows_record_errors :
    (∀ files : List (Nat × List Nat), ∃ bs, openStore files = .ok bs) ∧
    (∀ (id : Nat) (f : List Nat) (x : Nat × Nat × Nat × Nat),
      readFileHeader f = .ok x →
      openStore [(id, f)] = .ok ⟨[(id, f)], (addRecordsToKeydir f id newKeydir).1⟩) ∧
    (∀ (id : Nat) (f : List Nat) (e : Err),
      readFileHeader f = .error e →
      openStore [(id, f)] = .ok ⟨[(id, f)], newKeydir⟩) := by
  refine ⟨fun files => ⟨⟨files, _⟩, rfl⟩, ?_, ?_⟩
  · intro id f x hx
    unfold openStore buildKeydir
    rw [mergeSort_singleton]
    simp only [List.foldl_cons, List.foldl_nil, hx]
    rfl
  · intro id f e he
    unfold openStore buildKeydir
    rw [mergeSort_singleton]
    simp only [List.foldl_cons, List.foldl_nil, he]
    rfl

/-- Witness for C9's amended theorem on a concrete intact one-record file and
a concrete header-corrupt file. -/
theorem open_swallows_record_errors_witness :
    (∃ bs, openStore [(1, [7])] = .ok bs) ∧
    (readFileHeader (fileBytes ⟨1, 0, [newRecord 1 [10] [20] recordTypePut]⟩) =
        .ok (2, 0, 0, 0) ∧
      openStore [(1, fileBytes ⟨1, 0, [newRecord 1 [10] [20] recordTypePut]⟩)] =
        .ok ⟨[(1, fileBytes ⟨1, 0, [newRecord 1 [10] [20] recordTypePut]⟩)],
          (addRecordsToKeydir (fileBytes ⟨1, 0, [newRecord 1 [10] [20] recordTypePut]⟩)
            1 newKeydir).1⟩) ∧
    (readFileHeader [7] = .error .unexpectedEof ∧
      openStore [(2, [7])] = .ok ⟨[(2, [7])], newKeydir⟩) :=
  ⟨open_swallows_record_errors.1 [(1, [7])],
   ⟨by decide, open_swallows_record_errors.2.1 1 _ (2, 0, 0, 0) (by decide)⟩,
   ⟨by decide, open_swallows_record_errors.2.2 2 [7] .unexpectedEof (by decide)⟩⟩

set_option maxRecDepth 4000 in
/-- C9 counterexample: a data file whose single record has a corrupted key
byte (so its CRC check fails) makes `addRecordsToKeydir` stop with the
crc-mismatch error, yet `Open` on that directory succeeds — the error is
logged and swallowed, not surfaced to the caller of `Open`. -/
theorem keydir_build_error_counterexample :
    (addRecordsToKeydir (mkFileHeaderBytes 0 ++
        ((encodeRecord (newRecord 1 [10] [20] recordTypePut)).set 20 11)) 1
        newKeydir).2 = some .crcMismatch ∧
    readFileHeader (mkFileHeaderBytes 0 ++
        ((encodeRecord (newRecord 1 [10] [20] recordTypePut)).set 20 11)) =
      .ok (2, 0, 0, 0) ∧
    (openStore [(1, mkFileHeaderBytes 0 ++
        ((encodeRecord (newRecord 1 [10] [20] recordTypePut)).set 20 11))]).isOk =
      true := by
  exact ⟨by decide, by decide, rfl⟩

theorem readFullBytes_slice {pre mid suf : List Nat} {off n : Nat}
    (hoff : off = pre.length) (hn : n = mid.length) :
    readFullBytes (pre ++ (mid ++ suf)) off n = .ok mid := by
  subst hoff hn
  unfold readFullBytes
  rw [if_pos (by simp [List.length_append])]
  rw [List.drop_left, List.take_left]

theorem scanReadFull_slice {pre mid suf : List Nat} {off n : Nat}
    (hoff : off = pre.length) (hn : n = mid.length) :
    scanReadFull (pre ++ (mid ++ suf)) off n = .ok mid := by
  unfold scanReadFull
  by_cases h0 : n = 0
  · rw [if_pos h0]
    rw [h0] at hn
    rw [List.eq_nil_of_length_eq_zero hn.symm]
  · rw [if_neg h0]
    exact readFullBytes_slice hoff hn

theorem scanRecord_concat (pre k v cb suf : List Nat) (h : Header) (off : Nat)
    (hpre : pre.length = off + FileHeaderSize)
    (hk : h.keySize = k.length) (hv : h.valueSize = v.length)
    (hkc : h.keySize ≤ MaxKeySize) (hvc : h.valueSize ≤ MaxValueSize)
    (hts : h.timestamp < 2 ^ 64) (hrt : h.recordType < 256) (hvt : h.valueType < 256)
    (hcb : cb.length = 4) :
    scanRecord (pre ++ (encodeHeader h ++ (k ++ (v ++ (cb ++ suf))))) off =
      if decodeLE cb ≠ crc32 (encodeHeader h ++ k ++ v)
      then .error .crcMismatch
      else .ok ⟨h, k, v, recordHeaderSize + h.keySize + h.valueSize + 4⟩ := by
  have hks32 : h.keySize < 2 ^ 32 := by
    have : MaxKeySize < 2 ^ 32 := by norm_num [MaxKeySize]
    omega
  have hvs32 : h.valueSize < 2 ^ 32 := by
    have : MaxValueSize < 2 ^ 32 := by norm_num [MaxValueSize]
    omega
  have hdec := decodeHeaderBytes_encodeHeader h hts hks32 hvs32 hrt hvt
  have hhdr : readFullBytes (pre ++ (encodeHeader h ++ (k ++ (v ++ (cb ++ suf)))))
      (FileHeaderSize + off) recordHeaderSize = .ok (encodeHeader h) :=
    readFullBytes_slice (by omega) (encodeHeader_length h).symm
  have hkey : scanReadFull (pre ++ (encodeHeader h ++ (k ++ (v ++ (cb ++ suf)))))
      (FileHeaderSize + off + recordHeaderSize) h.keySize = .ok k := by
    have hre : pre ++ (encodeHeader h ++ (k ++ (v ++ (cb ++ suf)))) =
        (pre ++ encodeHeader h) ++ (k ++ (v ++ (cb ++ suf))) := by
      simp [List.append_assoc]
    rw [hre]
    exact scanReadFull_slice (by simp [hpre, recordHeaderSize]; omega) hk
  have hval : scanReadFull (pre ++ (encodeHeader h ++ (k ++ (v ++ (cb ++ suf)))))
      (FileHeaderSize + off + recordHeaderSize + h.keySize) h.valueSize = .ok v := by
    have hre : pre ++ (encodeHeader h ++ (k ++ (v ++ (cb ++ suf)))) =
        ((pre ++ encodeHeader h) ++ k) ++ (v ++ (cb ++ suf)) := by
      simp [List.append_assoc]
    rw [hre]
    exact scanReadFull_slice (by simp [hpre, recordHeaderSize, hk]; omega) hv
  have hcrc : readFullBytes (pre ++ (encodeHeader h ++ (k ++ (v ++ (cb ++ suf)))))
      (FileHeaderSize + off + recordHeaderSize + h.keySize + h.valueSize) 4 = .ok cb := by
    have hre : pre ++ (encodeHeader h ++ (k ++ (v ++ (cb ++ suf)))) =
        (((pre ++ encodeHeader h) ++ k) ++ v) ++ (cb ++ suf) := by
      simp [List.append_assoc]
    rw [hre]
    exact readFullBytes_slice (by simp [hpre, recordHeaderSize, hk, hv]; omega) hcb.symm
  unfold scanRecord
  simp only [hhdr, exceptBind_ok, hdec, gt_iff_lt]
  rw [if_neg (by omega), if_neg (by omega)]
  simp only [hkey, exceptBind_ok, hval, hcrc]
  rfl

theorem scanRecord_encodeRecord (r : Record) (pre suf : List Nat) (off : Nat)
    (hr : recordOK r) (hpre : pre.length = off + FileHeaderSize) :
    scanRecord (pre ++ (encodeRecord r ++ suf)) off = .ok r := by
  obtain ⟨hks, hvs, hkc, hvc, hbk, hbv, hts, hrt, hvt, hsz⟩ := hr
  have hassoc : encodeRecord r ++ suf = encodeHeader r.header ++ (r.key ++ (r.value ++
      (uintLE 4 (crc32 (encodeHeader r.header ++ r.key ++ r.value)) ++ suf))) := by
    simp [encodeRecord, List.append_assoc]
  rw [hassoc, scanRecord_concat pre r.key r.value _ suf r.header off hpre
    (by omega) (by omega) (by omega) (by omega) hts hrt hvt (by simp)]
  rw [if_neg]
  · cases r with
    | mk h k v sz =>
      simp only at hsz ⊢
      rw [hsz]
      simp only [recordHeaderSize] at hks hvs ⊢
      rw [hks, hvs]
  · rw [not_ne_iff]
    exact decodeLE_uintLE 4 _ (by
      have := crc32_lt (encodeHeader r.header ++ r.key ++ r.value)
        (bytesOK_append (bytesOK_append (encodeHeader_bytesOK r.header) hbk) hbv)
      norm_num at this ⊢
      exact this)

theorem scanRecord_fileBytes {df : DataFile} {r : Record} {off : Nat}
    (hok : ∀ r' ∈ df.recs, recordOK r') (hroff : (r, off) ∈ recOffsetsFrom 0 df.recs) :
    scanRecord (fileBytes df) off = .ok r := by
  obtain ⟨pre, suf, hfl, hoff⟩ := recOffsetsFrom_slice hok hroff
  have hfile : fileBytes df = (mkFileHeaderBytes df.cts ++ pre) ++
      (encodeRecord r ++ suf) := by
    rw [fileBytes, hfl, List.append_assoc]
  rw [hfile]
  exact scanRecord_encodeRecord r _ suf off (hok r (recOffsetsFrom_mem_rec hroff))
    (by rw [List.length_append, mkFileHeaderBytes_length]; omega)

theorem scanRecord_eof {f : List Nat} {off : Nat} (h : f.length ≤ FileHeaderSize + off) :
    scanRecord f off = .error .eofErr := by
  have hra : readFullBytes f (FileHeaderSize + off) recordHeaderSize =
      Except.error Err.eofErr := by
    unfold readFullBytes
    rw [if_neg (by unfold recordHeaderSize; omega), if_pos h]
  simp only [scanRecord, hra, exceptBind_error]

theorem mergeScanLoop_fileBytes {df : DataFile} (kd : Keydir) (srcId : Nat)
    (hok : ∀ r ∈ df.recs, recordOK r) :
    ∀ (suffix pre : List Record) (acc : MergeAcc) (fuel : Nat),
    df.recs = pre ++ suffix → suffix.length < fuel →
    mergeScanLoop kd (fileBytes df) srcId (sizeSum pre) acc fuel =
      mergeRecsFold kd srcId (recOffsetsFrom (sizeSum pre) suffix) acc := by
  intro suffix
  induction suffix with
  | nil =>
    intro pre acc fuel hdec hfuel
    cases fuel with
    | zero => omega
    | succ fuel =>
      have hlen : (fileBytes df).length = FileHeaderSize + sizeSum pre := by
        rw [fileBytes_length hok, hdec, List.append_nil]
      rw [mergeScanLoop, scanRecord_eof (by omega)]
      rfl
  | cons r rest ih =>
    intro pre acc fuel hdec hfuel
    cases fuel with
    | zero => omega
    | succ fuel =>
      have hroff : (r, sizeSum pre) ∈ recOffsetsFrom 0 df.recs := by
        rw [hdec, recOffsetsFrom_append]
        refine List.mem_append_right _ ?_
        rw [Nat.zero_add]
        exact List.mem_cons_self _ _
      have hread := scanRecord_fileBytes hok hroff
      rw [mergeScanLoop, hread, recOffsetsFrom]
      cases hstep : mergeRecStep kd srcId acc r (sizeSum pre) with
      | error e =>
        dsimp only
        rw [mergeRecsFold, hstep]
      | ok acc' =>
        dsimp only
        rw [mergeRecsFold, hstep]
        have hih := ih (pre ++ [r]) acc' fuel
          (by rw [hdec, List.append_assoc]; rfl)
          (by simpa using Nat.lt_of_succ_lt_succ hfuel)
        rw [sizeSum_append] at hih
        rw [show sizeSum [r] = r.size from by simp [sizeSum]] at hih
        exact hih

theorem lookupLoc_nil (k : List Nat) : lookupLoc [] k = none := rfl

theorem lookupLoc_upsert_self (locs : List (List Nat × ValueLoc)) (k : List Nat)
    (v : ValueLoc) : lookupLoc (upsertLoc locs k v) k = some v := by
  induction locs with
  | nil => simp [upsertLoc, lookupLoc, List.find?_cons]
  | cons p t ih =>
    by_cases hp : p.1 = k
    · simp [upsertLoc, hp, lookupLoc, List.find?_cons]
    · have hd : (decide (p.1 = k)) = false := by simpa using hp
      simp only [upsertLoc, if_neg hp, lookupLoc, List.find?_cons, hd]
      exact ih

theorem lookupLoc_upsert_other (locs : List (List Nat × ValueLoc)) (k k' : List Nat)
    (v : ValueLoc) (h : k' ≠ k) :
    lookupLoc (upsertLoc locs k v) k' = lookupLoc locs k' := by
  have hd1 : (decide (k = k')) = false := by
    simp only [decide_eq_false_iff_not]
    exact fun hc => h hc.symm
  induction locs with
  | nil =>
    simp only [upsertLoc, lookupLoc, List.find?_cons, List.find?_nil, hd1]
  | cons p t ih =>
    by_cases hp : p.1 = k
    · have hd2 : (decide (p.1 = k')) = false := by rw [hp]; exact hd1
      simp only [upsertLoc, if_pos hp, lookupLoc, List.find?_cons, hd1, hd2]
    · by_cases hpk : p.1 = k'
      · have hd : (decide (p.1 = k')) = true := by simpa using hpk
        simp only [upsertLoc, if_neg hp, lookupLoc, List.find?_cons, hd]
      · have hd : (decide (p.1 = k')) = false := by simpa using hpk
        simp only [upsertLoc, if_neg hp, lookupLoc, List.find?_cons, hd]
        exact ih

theorem upsert_fst_mem (locs : List (List Nat × ValueLoc)) (k : List Nat)
    (v : ValueLoc) :
    ∀ x ∈ (upsertLoc locs k v).map Prod.fst, x = k ∨ x ∈ locs.map Prod.fst := by
  induction locs with
  | nil => intro x hx; simp [upsertLoc] at hx; exact Or.inl hx
  | cons p t ih =>
    intro x hx
    by_cases hp : p.1 = k
    · simp only [upsertLoc, if_pos hp, List.map_cons, List.mem_cons] at hx
      rcases hx with hx | hx
      · exact Or.inl hx
      · exact Or.inr (by simp [hx])
    · simp only [upsertLoc, if_neg hp, List.map_cons, List.mem_cons] at hx
      rcases hx with hx | hx
      · exact Or.inr (by simp [hx])
      · rcases ih x hx with h | h
        · exact Or.inl h
        · exact Or.inr (by simp [h])

theorem nodup_upsert (locs : List (List Nat × ValueLoc)) (k : List Nat)
    (v : ValueLoc) (h : List.Nodup (locs.map Prod.fst)) :
    List.Nodup ((upsertLoc locs k v).map Prod.fst) := by
  induction locs with
  | nil => simp [upsertLoc]
  | cons p t ih =>
    rw [List.map_cons, List.nodup_cons] at h
    by_cases hp : p.1 = k
    · simp only [upsertLoc, if_pos hp, List.map_cons, List.nodup_cons]
      exact ⟨by rw [← hp]; exact h.1, h.2⟩
    · simp only [upsertLoc, if_neg hp, List.map_cons, List.nodup_cons]
      refine ⟨?_, ih h.2⟩
      intro hc
      rcases upsert_fst_mem t k v _ hc with hc' | hc'
      · exact hp hc'
      · exact h.1 hc'

theorem lookupLoc_none_of_not_mem {locs : List (List Nat × ValueLoc)}
    {k : List Nat} (h : k ∉ locs.map Prod.fst) : lookupLoc locs k = none := by
  induction locs with
  | nil => rfl
  | cons p t ih =>
    simp only [List.map_cons, List.mem_cons, not_or] at h
    have hd : (decide (p.1 = k)) = false := by
      simp only [decide_eq_false_iff_not]
      exact fun hc => h.1 hc.symm
    simp only [lookupLoc, List.find?_cons, hd]
    exact ih h.2

theorem recOffsetsFrom_le {recs : List Record} :
    ∀ {off0 : Nat} {r : Record} {off : Nat}, (r, off) ∈ recOffsetsFrom off0 recs →
    off0 ≤ off := by
  induction recs with
  | nil => intro off0 r off h; simp [recOffsetsFrom] at h
  | cons x t ih =>
    intro off0 r off h
    simp only [recOffsetsFrom, List.mem_cons] at h
    rcases h with h | h
    · obtain ⟨-, h2⟩ := Prod.mk.injEq .. ▸ h
      omega
    · have := ih h
      omega

theorem recOffsetsFrom_lt {recs : List Record} (hpos : ∀ r ∈ recs, 0 < r.size) :
    ∀ {off0 : Nat} {r : Record} {off : Nat}, (r, off) ∈ recOffsetsFrom off0 recs →
    off < off0 + sizeSum recs := by
  induction recs with
  | nil => intro off0 r off h; simp [recOffsetsFrom] at h
  | cons x t ih =>
    intro off0 r off h
    have hx := hpos x (List.mem_cons_self _ _)
    have hsz : sizeSum (x :: t) = x.size + sizeSum t := by simp [sizeSum]
    simp only [recOffsetsFrom, List.mem_cons] at h
    rcases h with h | h
    · obtain ⟨-, h2⟩ := Prod.mk.injEq .. ▸ h
      omega
    · have := ih (fun r' hr' => hpos r' (List.mem_cons_of_mem _ hr')) h
      omega

theorem recOffsetsFrom_inj {recs : List Record} (hpos : ∀ r ∈ recs, 0 < r.size) :
    ∀ {off0 : Nat} {r₁ r₂ : Record} {off : Nat},
    (r₁, off) ∈ recOffsetsFrom off0 recs → (r₂, off) ∈ recOffsetsFrom off0 recs →
    r₁ = r₂ := by
  induction recs with
  | nil => intro off0 r₁ r₂ off h; simp [recOffsetsFrom] at h
  | cons x t ih =>
    intro off0 r₁ r₂ off h₁ h₂
    have hx := hpos x (List.mem_cons_self _ _)
    simp only [recOffsetsFrom, List.mem_cons] at h₁ h₂
    rcases h₁ with h₁ | h₁ <;> rcases h₂ with h₂ | h₂
    · obtain ⟨e1, -⟩ := Prod.mk.injEq .. ▸ h₁
      obtain ⟨e2, -⟩ := Prod.mk.injEq .. ▸ h₂
      rw [e1, e2]
    · obtain ⟨-, e1⟩ := Prod.mk.injEq .. ▸ h₁
      have := recOffsetsFrom_le h₂
      omega
    · obtain ⟨-, e2⟩ := Prod.mk.injEq .. ▸ h₂
      have := recOffsetsFrom_le h₁
      omega
    · exact ih (fun r' hr' => hpos r' (List.mem_cons_of_mem _ hr')) h₁ h₂

theorem recordOK_size_pos {r : Record} (h : recordOK r) : 0 < r.size := by
  obtain ⟨-, -, -, -, -, -, -, -, -, hsz⟩ := h
  rw [hsz]
  unfold recordHeaderSize
  omega

theorem mem_id_unique {dfs : List DataFile}
    (hsort : List.Pairwise (· < ·) (dfs.map DataFile.id)) {df df' : DataFile}
    (h : df ∈ dfs) (h' : df' ∈ dfs) (heq : df.id = df'.id) : df = df' := by
  induction dfs with
  | nil => simp at h
  | cons x t ih =>
    rw [List.map_cons, List.pairwise_cons] at hsort
    rcases List.mem_cons.mp h with h1 | h1 <;> rcases List.mem_cons.mp h' with h2 | h2
    · rw [h1, h2]
    · subst h1
      have := hsort.1 df'.id (List.mem_map_of_mem _ h2)
      omega
    · subst h2
      have := hsort.1 df.id (List.mem_map_of_mem _ h1)
      omega
    · exact ih hsort.2 h1 h2

theorem mergeWriterWrite_eq (w : MergeWriter) (key value : List Nat) (ts : Nat)
    (hw : w.hasWriter = true → w.files ≠ []) :
    ∃ init cur,
      mergeWriterWrite w key value ts =
        (init.length + 1, FileHeaderSize + sizeSum cur,
         { files := init ++ [cur ++ [newRecord ts key value recordTypePut]],
           hasWriter := true,
           shouldRotate := decide (FileHeaderSize + sizeSum cur > w.maxDatafileSize),
           maxDatafileSize := w.maxDatafileSize }) ∧
      (w.files = init ++ [cur] ∨ (init = w.files ∧ cur = [])) := by
  by_cases hrot : (w.shouldRotate || !w.hasWriter) = true
  · refine ⟨w.files, [], ?_, Or.inr ⟨rfl, rfl⟩⟩
    unfold mergeWriterWrite
    rw [if_pos hrot]
    simp only [List.getLast?_concat, Option.getD_some, List.dropLast_concat,
      List.length_append, List.length_cons, List.length_nil]
  · have hrot' : w.shouldRotate = false ∧ w.hasWriter = true := by
      constructor
      · by_contra hc
        simp only [Bool.not_eq_false] at hc
        exact hrot (by rw [hc]; rfl)
      · by_contra hc
        simp only [Bool.not_eq_true] at hc
        exact hrot (by rw [hc]; simp)
    have hne : w.files ≠ [] := hw hrot'.2
    refine ⟨w.files.dropLast, w.files.getLast hne,
      ?_, Or.inl (List.dropLast_append_getLast hne).symm⟩
    have hlast : w.files.getLast? = some (w.files.getLast hne) :=
      List.getLast?_eq_getLast _ hne
    have hlen : w.files.dropLast.length + 1 = w.files.length := by
      rw [List.length_dropLast]
      have := List.length_pos.mpr hne
      omega
    unfold mergeWriterWrite
    rw [if_neg hrot]
    dsimp only
    rw [hlast]
    simp only [Option.getD_some]
    rw [← hlen, hrot'.2]

theorem getD_append_left_gen {α : Type} {l₁ l₂ : List α} {n : Nat} (d : α)
    (h : n < l₁.length) : (l₁ ++ l₂).getD n d = l₁.getD n d := by
  rw [List.getD_eq_getElem?_getD, List.getD_eq_getElem?_getD, List.getElem?_append_left h]

theorem getD_append_last_gen {α : Type} (l : List α) (x d : α) :
    (l ++ [x]).getD l.length d = x := by
  rw [List.getD_eq_getElem?_getD, List.getElem?_append_right (Nat.le_refl _)]
  simp

theorem getD_of_length_le {α : Type} {l : List α} {n : Nat} (d : α)
    (h : l.length ≤ n) : l.getD n d = d := by
  rw [List.getD_eq_getElem?_getD, List.getElem?_eq_none h]
  rfl

theorem getD_mem_gen {α : Type} {l : List α} {n : Nat} (d : α) (h : n < l.length) :
    l.getD n d ∈ l := by
  rw [List.getD_eq_getElem?_getD, List.getElem?_eq_getElem h]
  exact List.getElem_mem h

theorem mergeWriterWrite_spec {w : MergeWriter} {key value : List Nat} {ts : Nat}
    {idx pos : Nat} {w' : MergeWriter}
    (hw : w.hasWriter = true → w.files ≠ [])
    (hwf : ∀ fc ∈ w.files, ∀ r ∈ fc, recordOK r)
    (hrOK : recordOK (newRecord ts key value recordTypePut))
    (heq : mergeWriterWrite w key value ts = (idx, pos, w')) :
    idx = w'.files.length ∧ 1 ≤ idx ∧ FileHeaderSize ≤ pos ∧
    (newRecord ts key value recordTypePut, pos - FileHeaderSize) ∈
      recOffsetsFrom 0 (w'.files.getD (idx - 1) []) ∧
    (∀ i r off, (r, off) ∈ recOffsetsFrom 0 (w.files.getD i []) →
      (r, off) ∈ recOffsetsFrom 0 (w'.files.getD i [])) ∧
    (∀ fc ∈ w'.files, ∀ r ∈ fc, recordOK r) ∧
    w'.files ≠ [] ∧ w'.maxDatafileSize = w.maxDatafileSize ∧
    w.files.length ≤ w'.files.length := by
  obtain ⟨init, cur, he, hdec⟩ := mergeWriterWrite_eq w key value ts hw
  rw [he] at heq
  injection heq with h1 hrest
  injection hrest with h2 h3
  subst h1
  subst h2
  subst h3
  have hmemcur : ∀ r ∈ cur, recordOK r := by
    rcases hdec with hdec | hdec
    · intro r hr
      exact hwf cur (by rw [hdec]; exact List.mem_append_right _ (List.mem_singleton.mpr rfl)) r hr
    · intro r hr
      rw [hdec.2] at hr
      exact absurd hr (List.not_mem_nil r)
  have hmeminit : ∀ fc ∈ init, fc ∈ w.files := by
    rcases hdec with hdec | hdec
    · intro fc hfc
      rw [hdec]
      exact List.mem_append_left _ hfc
    · intro fc hfc
      rw [← hdec.1]
      exact hfc
  refine ⟨by simp, by omega, by omega, ?_, ?_, ?_, by simp, rfl, ?_⟩
  · show _ ∈ recOffsetsFrom 0 ((init ++
      [cur ++ [newRecord ts key value recordTypePut]]).getD (init.length + 1 - 1) [])
    rw [show init.length + 1 - 1 = init.length from rfl, getD_append_last_gen]
    rw [recOffsetsFrom_append]
    refine List.mem_append_right _ ?_
    rw [Nat.zero_add]
    have hoff : FileHeaderSize + sizeSum cur - FileHeaderSize = sizeSum cur := by omega
    rw [hoff]
    exact List.mem_cons_self _ _
  · intro i r off hmem
    by_cases hi : i < init.length
    · rw [getD_append_left_gen _ hi]
      rcases hdec with hdec | hdec
      · rwa [hdec, getD_append_left_gen _ hi] at hmem
      · rwa [← hdec.1] at hmem
    · by_cases hieq : i = init.length
      · subst hieq
        rw [getD_append_last_gen]
        rcases hdec with hdec | hdec
        · rw [hdec, getD_append_last_gen] at hmem
          rw [recOffsetsFrom_append]
          exact List.mem_append_left _ hmem
        · rw [← hdec.1] at hmem
          rw [getD_of_length_le _ (Nat.le_refl _)] at hmem
          simp [recOffsetsFrom] at hmem
      · have hlen2 : w.files.length ≤ i := by
          rcases hdec with hdec | hdec
          · rw [hdec]
            simp only [List.length_append, List.length_cons, List.length_nil]
            omega
          · rw [← hdec.1]
            omega
        rw [getD_of_length_le _ hlen2] at hmem
        simp [recOffsetsFrom] at hmem
  · intro fc hfc r hr
    rcases List.mem_append.mp hfc with hfc | hfc
    · exact hwf fc (hmeminit fc hfc) r hr
    · rw [List.mem_singleton] at hfc
      subst hfc
      rcases List.mem_append.mp hr with hr | hr
      · exact hmemcur r hr
      · rw [List.mem_singleton] at hr
        subst hr
        exact hrOK
  · rcases hdec with hdec | hdec
    · rw [hdec]
      simp
    · rw [← hdec.1]
      simp

theorem addHintRecord_spec (hints : List (Nat × List HintRecord)) (idx : Nat)
    (h : HintRecord) (hk : h.keySize ≤ MaxKeySize) (hv : h.valueSize ≤ MaxValueSize) :
    ∃ hints', addHintRecord hints idx h = .ok hints' ∧
      (∀ p ∈ hints', p.1 = idx ∨ p.1 ∈ hints.map Prod.fst) ∧
      (∀ p ∈ hints', ∀ h' ∈ p.2,
        (p.1 = idx ∧ h' = h) ∨ ∃ hs, (p.1, hs) ∈ hints ∧ h' ∈ hs) := by
  have hwr : ∀ hs, writeHintRecord hs h = .ok (hs ++ [h]) := by
    intro hs
    unfold writeHintRecord
    rw [if_neg (by omega), if_neg (by omega)]
  cases hl : hints.getLast? with
  | none =>
    rw [List.getLast?_eq_none_iff] at hl
    subst hl
    refine ⟨[(idx, [h])], ?_, ?_, ?_⟩
    · unfold addHintRecord
      rw [List.getLast?_nil, hwr]
      rfl
    · intro p hp
      rw [List.mem_singleton] at hp
      subst hp
      exact Or.inl rfl
    · intro p hp h' hh
      rw [List.mem_singleton] at hp
      subst hp
      rw [List.mem_singleton] at hh
      exact Or.inl ⟨rfl, hh⟩
  | some q =>
    obtain ⟨i, hs⟩ := q
    have hne : hints ≠ [] := by
      intro hc
      rw [hc, List.getLast?_nil] at hl
      exact Option.noConfusion hl
    have hdec : hints = hints.dropLast ++ [(i, hs)] := by
      have h1 := List.dropLast_append_getLast hne
      have h2 : hints.getLast hne = (i, hs) := by
        have := List.getLast?_eq_getLast hints hne
        rw [hl] at this
        injection this with h3
        exact h3.symm
      rw [← h2]
      exact h1.symm
    have hdropsub : ∀ p ∈ hints.dropLast, p ∈ hints := by
      intro p hp
      rw [hdec]
      exact List.mem_append_left _ hp
    by_cases hi : i = idx
    · refine ⟨hints.dropLast ++ [(i, hs ++ [h])], ?_, ?_, ?_⟩
      · unfold addHintRecord
        rw [hl]
        dsimp only
        rw [if_pos hi, hwr]
        rfl
      · intro p hp
        rcases List.mem_append.mp hp with hp | hp
        · exact Or.inr (List.mem_map_of_mem _ (hdropsub p hp))
        · rw [List.mem_singleton] at hp
          subst hp
          exact Or.inl hi
      · intro p hp h' hh
        rcases List.mem_append.mp hp with hp | hp
        · exact Or.inr ⟨p.2, (by rw [Prod.mk.eta]; exact hdropsub p hp), hh⟩
        · rw [List.mem_singleton] at hp
          subst hp
          simp only at hh
          rcases List.mem_append.mp hh with hh | hh
          · exact Or.inr ⟨hs, (by
              conv =>
                lhs
                rw [hdec]
              exact List.mem_append_right _ (List.mem_singleton.mpr rfl)), hh⟩
          · rw [List.mem_singleton] at hh
            exact Or.inl ⟨hi, hh⟩
    · refine ⟨hints ++ [(idx, [h])], ?_, ?_, ?_⟩
      · unfold addHintRecord
        rw [hl]
        dsimp only
        rw [if_neg hi, hwr]
        rfl
      · intro p hp
        rcases List.mem_append.mp hp with hp | hp
        · exact Or.inr (List.mem_map_of_mem _ hp)
        · rw [List.mem_singleton] at hp
          subst hp
          exact Or.inl rfl
      · intro p hp h' hh
        rcases List.mem_append.mp hp with hp | hp
        · exact Or.inr ⟨p.2, (by rw [Prod.mk.eta]; exact hp), hh⟩
        · rw [List.mem_singleton] at hp
          subst hp
          rw [List.mem_singleton] at hh
          exact Or.inl ⟨rfl, hh⟩

theorem applyLocStep_other (startId : Nat) (kd : Keydir) (p : List Nat × ValueLoc)
    (k : List Nat) (h : k ≠ p.1) : applyLocStep startId kd p k = kd k := by
  unfold applyLocStep
  cases hkp : kd p.1 with
  | none => rfl
  | some current =>
    dsimp only
    by_cases hf : current.fileId = p.2.sourceFileId
    · rw [if_pos hf]
      exact addKeydirRecord_other _ _ _ _ _ _ _ h
    · rw [if_neg hf]

theorem applyLocs_not_mem (startId : Nat) :
    ∀ (locs : List (List Nat × ValueLoc)) (kd : Keydir) (k : List Nat),
    lookupLoc locs k = none → applyLocs startId locs kd k = kd k := by
  intro locs
  induction locs with
  | nil => intro kd k _; rfl
  | cons p t ih =>
    intro kd k h
    have hne : ¬ (p.1 = k) := by
      intro hc
      have hd : (decide (p.1 = k)) = true := by simpa using hc
      simp [lookupLoc, List.find?_cons, hd] at h
    have hd : (decide (p.1 = k)) = false := by simpa using hne
    have ht : lookupLoc t k = none := by
      simpa [lookupLoc, List.find?_cons, hd] using h
    show applyLocs startId t (applyLocStep startId kd p) k = kd k
    rw [ih _ _ ht, applyLocStep_other _ _ _ _ (fun hc => hne hc.symm)]

theorem applyLocs_mem (startId : Nat) :
    ∀ (locs : List (List Nat × ValueLoc)) (kd : Keydir) (k : List Nat)
    (loc : ValueLoc), List.Nodup (locs.map Prod.fst) →
    lookupLoc locs k = some loc →
    applyLocs startId locs kd k =
      (match kd k with
       | none => kd k
       | some current =>
         if current.fileId = loc.sourceFileId then
           some ⟨startId + (loc.pathIdx - 1), current.valueSize,
             loc.offset - FileHeaderSize, current.timestamp⟩
         else kd k) := by
  intro locs
  induction locs with
  | nil => intro kd k loc _ h; simp [lookupLoc] at h
  | cons p t ih =>
    intro kd k loc hnd hl
    rw [List.map_cons, List.nodup_cons] at hnd
    by_cases hp : p.1 = k
    · have hd : (decide (p.1 = k)) = true := by simpa using hp
      have hloc : p.2 = loc := by
        simp only [lookupLoc, List.find?_cons, hd, Option.map_some] at hl
        injection hl
      have htnone : lookupLoc t k = none := by
        apply lookupLoc_none_of_not_mem
        rw [← hp]
        exact hnd.1
      show applyLocs startId t (applyLocStep startId kd p) k = _
      rw [applyLocs_not_mem _ _ _ _ htnone]
      subst hloc
      unfold applyLocStep
      rw [hp]
      cases hkk : kd k with
      | none =>
        dsimp only
        exact hkk
      | some current =>
        dsimp only
        by_cases hf : current.fileId = p.2.sourceFileId
        · rw [if_pos hf, if_pos hf]
          unfold addKeydirRecord
          rw [hkk]
          dsimp only
          rw [if_neg (lt_irrefl _)]
          simp
        · rw [if_neg hf, if_neg hf]
          exact hkk
    · have hd : (decide (p.1 = k)) = false := by simpa using hp
      have hlt : lookupLoc t k = some loc := by
        simpa [lookupLoc, List.find?_cons, hd] using hl
      show applyLocs startId t (applyLocStep startId kd p) k = _
      rw [ih _ _ _ hnd.2 hlt]
      rw [applyLocStep_other _ _ _ _ (fun hc => hp hc.symm)]

theorem cited_at {S : Store} (hInv : Inv S) {df : DataFile}
    (hdf : df ∈ S.fm.dataFiles) {k : List Nat} {e : KeydirRecord}
    (hk : S.keydir k = some e) (hfid : e.fileId = df.id) :
    ∃ r, (r, e.valuePos) ∈ recOffsetsFrom 0 df.recs ∧ r.key = k ∧
      r.header.recordType ≠ recordTypeDelete ∧ getOp S k = .ok r.value := by
  obtain ⟨df₀, hd0, hid0, r, off, hroff, hkey, hnd, hepos, hesz, hget⟩ :=
    get_spec hInv hk
  have hdeq : df₀ = df := mem_id_unique hInv.ids_sorted hd0 hdf (by rw [hid0, hfid])
  subst hdeq
  exact ⟨r, by rw [hepos]; exact hroff, hkey, hnd, hget⟩

theorem cited_offset_eq {df : DataFile} (hok : ∀ r ∈ df.recs, recordOK r)
    {pre rest : List Record} {r₀ : Record} (hdec : df.recs = pre ++ r₀ :: rest)
    {r : Record} {pos : Nat} (hmem : (r, pos) ∈ recOffsetsFrom 0 df.recs)
    (h1 : sizeSum pre ≤ pos) (h2 : pos < sizeSum pre + r₀.size) :
    pos = sizeSum pre ∧ r = r₀ := by
  have hpos : ∀ r' ∈ df.recs, 0 < r'.size :=
    fun r' hr' => recordOK_size_pos (hok r' hr')
  rw [hdec, recOffsetsFrom_append] at hmem
  rcases List.mem_append.mp hmem with hmem | hmem
  · have := recOffsetsFrom_lt (fun r' hr' => hpos r'
      (by rw [hdec]; exact List.mem_append_left _ hr')) hmem
    omega
  · rw [Nat.zero_add] at hmem
    rw [recOffsetsFrom] at hmem
    rcases List.mem_cons.mp hmem with hmem | hmem
    · obtain ⟨e1, e2⟩ := Prod.mk.injEq .. ▸ hmem
      exact ⟨e2, e1⟩
    · have := recOffsetsFrom_le hmem
      omega

theorem locClause_mono {S : Store} {acc acc' : MergeAcc} {k : List Nat}
    {e : KeydirRecord} (h : locClause S acc k e)
    (hlk : lookupLoc acc'.locs k = lookupLoc acc.locs k)
    (hlen : acc.mw.files.length ≤ acc'.mw.files.length)
    (hstab : ∀ i r off, (r, off) ∈ recOffsetsFrom 0 (acc.mw.files.getD i []) →
      (r, off) ∈ recOffsetsFrom 0 (acc'.mw.files.getD i [])) :
    locClause S acc' k e := by
  obtain ⟨loc, r, hlook, hsrc, h1, h2, h3, h4, h5, h6, h7⟩ := h
  exact ⟨loc, r, by rw [hlk]; exact hlook, hsrc, h1, by omega, h3, h4, h5,
    hstab _ _ _ h6, h7⟩

theorem mergeInv_advance {S : Store} (hInv : Inv S) {df : DataFile}
    (hdf : df ∈ S.fm.dataFiles) {D : List Nat} {pre rest : List Record}
    {r₀ : Record} (hdec : df.recs = pre ++ r₀ :: rest) {acc : MergeAcc}
    (hacc : MergeInvGen S (fun id pos => id ∈ D ∨ (id = df.id ∧ pos < sizeSum pre)) acc)
    (hcover : ∀ k e, S.keydir k = some e → e.fileId = df.id →
      e.valuePos = sizeSum pre → locClause S acc k e) :
    MergeInvGen S
      (fun id pos => id ∈ D ∨ (id = df.id ∧ pos < sizeSum pre + r₀.size)) acc := by
  obtain ⟨hwf, hhw, hnd, hhint, hnone, hkd⟩ := hacc
  have hok : ∀ r ∈ df.recs, recordOK r := fun r hr => (hInv.recs_ok df hdf r hr).1
  refine ⟨hwf, hhw, hnd, hhint, hnone, ?_⟩
  intro k e hk
  obtain ⟨hin, hout⟩ := hkd k e hk
  constructor
  · rintro (hD | ⟨hfid, hpos⟩)
    · exact hin (Or.inl hD)
    · by_cases hless : e.valuePos < sizeSum pre
      · exact hin (Or.inr ⟨hfid, hless⟩)
      · obtain ⟨r_c, hrc, hkey, hnd', hget⟩ := cited_at hInv hdf hk hfid
        obtain ⟨hpe, -⟩ := cited_offset_eq hok hdec hrc (by omega) hpos
        exact hcover k e hk hfid hpe
  · intro hnp
    apply hout
    rintro (hD | ⟨hfid, hl⟩)
    · exact hnp (Or.inl hD)
    · exact hnp (Or.inr ⟨hfid, by omega⟩)

theorem mergeRecsFold_spec {S : Store} (hInv : Inv S) {df : DataFile}
    (hdf : df ∈ S.fm.dataFiles) (D : List Nat) :
    ∀ (suffix pre : List Record) (acc : MergeAcc),
    df.recs = pre ++ suffix →
    MergeInvGen S (fun id pos => id ∈ D ∨ (id = df.id ∧ pos < sizeSum pre)) acc →
    ∃ acc', mergeRecsFold S.keydir df.id (recOffsetsFrom (sizeSum pre) suffix) acc =
        .ok acc' ∧
      MergeInvGen S (fun id pos => id ∈ D ∨ (id = df.id ∧ pos < sizeSum df.recs))
        acc' := by
  intro suffix
  induction suffix with
  | nil =>
    intro pre acc hdec hacc
    have hss : sizeSum df.recs = sizeSum pre := by rw [hdec, List.append_nil]
    rw [← hss] at hacc
    exact ⟨acc, rfl, hacc⟩
  | cons r₀ rest ih =>
    intro pre acc hdec hacc
    have hok : ∀ r ∈ df.recs, recordOK r := fun r hr => (hInv.recs_ok df hdf r hr).1
    have hposall : ∀ r ∈ df.recs, 0 < r.size := fun r hr => recordOK_size_pos (hok r hr)
    have hr₀mem : r₀ ∈ df.recs := by
      rw [hdec]
      exact List.mem_append_right _ (List.mem_cons_self _ _)
    have hr₀ok : recordOK r₀ := hok r₀ hr₀mem
    have hr₀pos : 0 < r₀.size := recordOK_size_pos hr₀ok
    have hroff0 : (r₀, sizeSum pre) ∈ recOffsetsFrom 0 df.recs := by
      rw [hdec, recOffsetsFrom_append]
      refine List.mem_append_right _ ?_
      rw [Nat.zero_add]
      exact List.mem_cons_self _ _
    have hdec' : df.recs = (pre ++ [r₀]) ++ rest := by
      rw [hdec, List.append_assoc]
      rfl
    have hss' : sizeSum (pre ++ [r₀]) = sizeSum pre + r₀.size := by
      rw [sizeSum_append]
      simp [sizeSum]
    have hcite : ∀ k e, S.keydir k = some e → e.fileId = df.id →
        e.valuePos = sizeSum pre → k = r₀.key ∧
          r₀.header.recordType ≠ recordTypeDelete ∧ getOp S k = .ok r₀.value := by
      intro k e hk hfid hpos
      obtain ⟨r_c, hrc, hkey, hnd', hget⟩ := cited_at hInv hdf hk hfid
      rw [hpos] at hrc
      have hrceq : r_c = r₀ := recOffsetsFrom_inj hposall hrc hroff0
      subst hrceq
      exact ⟨hkey.symm, hnd', hget⟩
    rw [recOffsetsFrom]
    cases hkd0 : S.keydir r₀.key with
    | none =>
      have hadv := mergeInv_advance hInv hdf hdec hacc (fun k e hk hfid hpos => by
        obtain ⟨hkeq, -, -⟩ := hcite k e hk hfid hpos
        rw [hkeq, hkd0] at hk
        exact Option.noConfusion hk)
      rw [← hss'] at hadv
      obtain ⟨acc', hfold, hfin⟩ := ih (pre ++ [r₀]) acc hdec' hadv
      refine ⟨acc', ?_, hfin⟩
      have hstep : mergeRecStep S.keydir df.id acc r₀ (sizeSum pre) = .ok acc := by
        unfold mergeRecStep
        rw [hkd0]
      rw [mergeRecsFold, hstep]
      dsimp only
      rw [hss'] at hfold
      exact hfold
    | some kdRec =>
      by_cases hcheck : kdRec.fileId ≠ df.id ∨ kdRec.valuePos ≠ sizeSum pre
      · have hadv := mergeInv_advance hInv hdf hdec hacc (fun k e hk hfid hpos => by
          obtain ⟨hkeq, -, -⟩ := hcite k e hk hfid hpos
          rw [hkeq, hkd0] at hk
          injection hk with he
          subst he
          rcases hcheck with hc | hc
          · exact absurd hfid hc
          · exact absurd hpos hc)
        rw [← hss'] at hadv
        obtain ⟨acc', hfold, hfin⟩ := ih (pre ++ [r₀]) acc hdec' hadv
        refine ⟨acc', ?_, hfin⟩
        have hstep : mergeRecStep S.keydir df.id acc r₀ (sizeSum pre) = .ok acc := by
          unfold mergeRecStep
          rw [hkd0]
          dsimp only
          rw [if_pos hcheck]
        rw [mergeRecsFold, hstep]
        dsimp only
        rw [hss'] at hfold
        exact hfold
      · have hfid0 : kdRec.fileId = df.id := by
          by_contra hc
          exact hcheck (Or.inl hc)
        have hpos0 : kdRec.valuePos = sizeSum pre := by
          by_contra hc
          exact hcheck (Or.inr hc)
        obtain ⟨-, hnd0, hget0⟩ := hcite r₀.key kdRec hkd0 hfid0 hpos0
        by_cases hdel : r₀.header.recordType = recordTypeDelete
        · exact absurd hdel hnd0
        · obtain ⟨hks0, hvs0, hkc0, hvc0, hbk0, hbv0, hts0, hrt0, hvt0, hsz0⟩ := hr₀ok
          have hr'OK : recordOK
              (newRecord r₀.header.timestamp r₀.key r₀.value recordTypePut) :=
            ⟨rfl, rfl, hkc0, hvc0, hbk0, hbv0, hts0,
              (show recordTypePut < 256 by norm_num [recordTypePut]),
              (show (0 : Nat) < 256 by norm_num), rfl⟩
          obtain ⟨hwf, hhw, hnd, hhint, hnone, hkd⟩ := hacc
          obtain ⟨idx, pos, mw', heqw⟩ : ∃ idx pos mw',
              mergeWriterWrite acc.mw r₀.key r₀.value r₀.header.timestamp =
                (idx, pos, mw') := ⟨_, _, _, rfl⟩
          obtain ⟨hidx, hidx1, hposge, hnewmem, hstab, hwf', hne', hmax', hlenmono⟩ :=
            mergeWriterWrite_spec hhw hwf hr'OK heqw
          obtain ⟨hints', hhadd, hhfst, hhmem⟩ := addHintRecord_spec acc.hints idx
            ⟨r₀.header.timestamp, r₀.header.keySize, r₀.header.valueSize, pos, r₀.key⟩
            (by show r₀.header.keySize ≤ MaxKeySize; omega)
            (by show r₀.header.valueSize ≤ MaxValueSize; omega)
          have hstep : mergeRecStep S.keydir df.id acc r₀ (sizeSum pre) =
              .ok ⟨mw', hints',
                upsertLoc acc.locs r₀.key ⟨idx, pos, r₀.header.timestamp, df.id⟩⟩ := by
            unfold mergeRecStep
            rw [hkd0]
            dsimp only
            rw [if_neg hcheck, if_neg hdel, heqw]
            dsimp only
            rw [hhadd]
            rfl
          have hinv₁ : MergeInvGen S
              (fun id pos' => id ∈ D ∨ (id = df.id ∧ pos' < sizeSum pre + r₀.size))
              ⟨mw', hints',
                upsertLoc acc.locs r₀.key ⟨idx, pos, r₀.header.timestamp, df.id⟩⟩ := by
            refine ⟨hwf', fun _ => hne', nodup_upsert _ _ _ hnd, ?_, ?_, ?_⟩
            · show hintClause _
              unfold hintClause
              dsimp only
              intro p hp
              refine ⟨?_, ?_, ?_⟩
              · rcases hhfst p hp with h | h
                · omega
                · obtain ⟨q, hq, hq1⟩ := List.mem_map.mp h
                  have := (hhint q hq).1
                  omega
              · rcases hhfst p hp with h | h
                · rw [h, hidx]
                · obtain ⟨q, hq, hq1⟩ := List.mem_map.mp h
                  have h2 := (hhint q hq).2.1
                  omega
              · intro h' hh'
                rcases hhmem p hp h' hh' with ⟨hpidx, hh⟩ | ⟨hs₀, hmem₀, hh₀⟩
                · subst hh
                  refine ⟨by show FileHeaderSize ≤ pos; exact hposge,
                    newRecord r₀.header.timestamp r₀.key r₀.value recordTypePut,
                    ?_, rfl, rfl, hks0.symm, hvs0.symm⟩
                  rw [hpidx]
                  exact hnewmem
                · obtain ⟨h1b, h2b, h3b⟩ := hhint _ hmem₀
                  obtain ⟨hvp, r, hmemr, hkeyr, htsr, hksr, hvsr⟩ := h3b h' hh₀
                  exact ⟨hvp, r, hstab _ _ _ hmemr, hkeyr, htsr, hksr, hvsr⟩
            · intro k hke
              have hkne : k ≠ r₀.key := by
                intro hc
                rw [hc, hkd0] at hke
                exact Option.noConfusion hke
              exact (lookupLoc_upsert_other _ _ _ _ hkne).trans (hnone k hke)
            · intro k e hke
              by_cases hkeq : k = r₀.key
              · subst hkeq
                rw [hkd0] at hke
                injection hke with he
                subst he
                constructor
                · intro _
                  refine ⟨⟨idx, pos, r₀.header.timestamp, df.id⟩,
                    newRecord r₀.header.timestamp r₀.key r₀.value recordTypePut,
                    lookupLoc_upsert_self _ _ _,
                    (show df.id = kdRec.fileId from hfid0.symm),
                    hidx1, hidx.le, hposge, hr'OK, rfl, hnewmem, hget0⟩
                · intro hnp
                  refine absurd (Or.inr ⟨hfid0, ?_⟩) hnp
                  rw [hpos0]
                  omega
              · have hlk : lookupLoc (upsertLoc acc.locs r₀.key
                    ⟨idx, pos, r₀.header.timestamp, df.id⟩) k =
                    lookupLoc acc.locs k :=
                  lookupLoc_upsert_other _ _ _ _ hkeq
                obtain ⟨hin, hout⟩ := hkd k e hke
                constructor
                · rintro (hD | ⟨hfid, hpos⟩)
                  · exact locClause_mono (hin (Or.inl hD)) hlk hlenmono hstab
                  · by_cases hless : e.valuePos < sizeSum pre
                    · exact locClause_mono (hin (Or.inr ⟨hfid, hless⟩)) hlk
                        hlenmono hstab
                    · obtain ⟨r_c, hrc, hkeyc, -, -⟩ := cited_at hInv hdf hke hfid
                      obtain ⟨hpe, hre⟩ := cited_offset_eq hok hdec hrc (by omega) hpos
                      subst hre
                      exact absurd hkeyc.symm hkeq
                · intro hnp
                  refine (hlk).trans (hout ?_)
                  rintro (hD | ⟨hfid, hl⟩)
                  · exact hnp (Or.inl hD)
                  · exact hnp (Or.inr ⟨hfid, by omega⟩)
          rw [← hss'] at hinv₁
          obtain ⟨acc', hfold, hfin⟩ := ih (pre ++ [r₀]) _ hdec' hinv₁
          refine ⟨acc', ?_, hfin⟩
          rw [mergeRecsFold, hstep]
          dsimp only
          rw [hss'] at hfold
          exact hfold

theorem mergeFilesFold_spec {S : Store} (hInv : Inv S) :
    ∀ (files : List DataFile) (D : List Nat) (acc : MergeAcc),
    (∀ df ∈ files, df ∈ S.fm.dataFiles) →
    (∀ df ∈ files, df.id ∉ D) →
    List.Nodup (files.map DataFile.id) →
    MergeInvGen S (fun id _ => id ∈ D) acc →
    ∃ acc', files.foldl (fun (st : Except Err MergeAcc) df =>
        match st with
        | .error e => .error e
        | .ok acc => mergeScanLoop S.keydir (fileBytes df) df.id 0 acc
            ((fileBytes df).length + 1)) (.ok acc) = .ok acc' ∧
      MergeInvGen S (fun id _ => id ∈ D ++ files.map DataFile.id) acc' := by
  intro files
  induction files with
  | nil =>
    intro D acc _ _ _ hacc
    refine ⟨acc, rfl, ?_⟩
    rw [List.map_nil, List.append_nil]
    exact hacc
  | cons df rest ih =>
    intro D acc hmem hD hnodup hacc
    have hdfS : df ∈ S.fm.dataFiles := hmem df (List.mem_cons_self _ _)
    have hok : ∀ r ∈ df.recs, recordOK r := fun r hr => (hInv.recs_ok df hdfS r hr).1
    have hzero : sizeSum ([] : List Record) = 0 := rfl
    have hscan := mergeScanLoop_fileBytes S.keydir df.id hok df.recs [] acc
      ((fileBytes df).length + 1) rfl (by
        rw [fileBytes_length hok]
        have := length_le_sizeSum hok
        unfold FileHeaderSize
        omega)
    have hacc0 : MergeInvGen S
        (fun id pos => id ∈ D ∨ (id = df.id ∧ pos < sizeSum ([] : List Record)))
        acc := by
      obtain ⟨h1, h2, h3, h4, h5, h6⟩ := hacc
      refine ⟨h1, h2, h3, h4, h5, ?_⟩
      intro k e hk
      obtain ⟨hin, hout⟩ := h6 k e hk
      constructor
      · rintro (hDm | ⟨-, hlt⟩)
        · exact hin hDm
        · rw [hzero] at hlt
          omega
      · intro hnp
        exact hout (fun hDm => hnp (Or.inl hDm))
    obtain ⟨acc₁, hfold₁, hinv₁⟩ := mergeRecsFold_spec hInv hdfS D df.recs [] acc
      rfl hacc0
    rw [hzero] at hscan hfold₁
    have hinv₁' : MergeInvGen S (fun id _ => id ∈ D ++ [df.id]) acc₁ := by
      obtain ⟨h1, h2, h3, h4, h5, h6⟩ := hinv₁
      refine ⟨h1, h2, h3, h4, h5, ?_⟩
      intro k e hk
      obtain ⟨hin, hout⟩ := h6 k e hk
      constructor
      · intro hP
        rcases List.mem_append.mp hP with hDm | hdm
        · exact hin (Or.inl hDm)
        · rw [List.mem_singleton] at hdm
          obtain ⟨r_c, hrc, -, -, -⟩ := cited_at hInv hdfS hk hdm
          have hlt := recOffsetsFrom_lt
            (fun r hr => recordOK_size_pos (hok r hr)) hrc
          exact hin (Or.inr ⟨hdm, by omega⟩)
      · intro hnp
        apply hout
        rintro (hDm | ⟨hdm, -⟩)
        · exact hnp (List.mem_append_left _ hDm)
        · exact hnp (List.mem_append_right _ (List.mem_singleton.mpr hdm))
    obtain ⟨acc', hfold', hfin⟩ := ih (D ++ [df.id]) acc₁
      (fun d hd => hmem d (List.mem_cons_of_mem _ hd))
      (fun d hd hc => by
        rcases List.mem_append.mp hc with h | h
        · exact hD d (List.mem_cons_of_mem _ hd) h
        · rw [List.mem_singleton] at h
          rw [List.map_cons, List.nodup_cons] at hnodup
          exact hnodup.1 (h ▸ List.mem_map_of_mem _ hd))
      (by rw [List.map_cons, List.nodup_cons] at hnodup; exact hnodup.2)
      hinv₁'
    refine ⟨acc', ?_, ?_⟩
    · rw [List.foldl_cons]
      have hst : ((match (Except.ok acc : Except Err MergeAcc) with
          | .error e => .error e
          | .ok acc => mergeScanLoop S.keydir (fileBytes df) df.id 0 acc
              ((fileBytes df).length + 1)) : Except Err MergeAcc) = .ok acc₁ := by
        dsimp only
        rw [hscan]
        exact hfold₁
      rw [hst]
      exact hfold'
    · show MergeInvGen S (fun id _ => id ∈ D ++ (df :: rest).map DataFile.id) acc'
      rw [List.map_cons]
      rw [List.append_assoc, List.singleton_append] at hfin
      exact hfin

theorem mergeOp_eq {S : Store} (hInv : Inv S) :
    ∃ acc : MergeAcc,
      MergeInvGen S (fun id _ => id ∈ (S.fm.dataFiles.filter
          (fun df => df.id < S.fm.activeDataFile)).map DataFile.id) acc ∧
      mergeOp S = .ok
        { fm := { S.fm with
            dataFiles := S.fm.dataFiles.filter
                (fun df => ¬ df.id < S.fm.activeDataFile) ++
              (List.range acc.mw.files.length).map (fun i =>
                (⟨S.fm.nextDataFileNumber + i, S.clock,
                  acc.mw.files.getD i []⟩ : DataFile))
            nextDataFileNumber := S.fm.nextDataFileNumber + acc.mw.files.length }
          keydir := applyLocs S.fm.nextDataFileNumber acc.locs S.keydir
          hints := acc.hints.map (fun p =>
            (S.fm.nextDataFileNumber + (p.1 - 1), p.2))
          clock := S.clock } := by
  have hsortfil : List.Pairwise (· < ·) ((S.fm.dataFiles.filter
      (fun df => df.id < S.fm.activeDataFile)).map DataFile.id) :=
    List.Pairwise.sublist ((List.filter_sublist _).map _) hInv.ids_sorted
  have hms : (S.fm.dataFiles.filter
      (fun df => df.id < S.fm.activeDataFile)).mergeSort (fun a b => a.id ≤ b.id) =
      S.fm.dataFiles.filter (fun df => df.id < S.fm.activeDataFile) := by
    apply List.mergeSort_of_sorted
    exact ((List.pairwise_map).mp hsortfil).imp (fun h => by simpa using Nat.le_of_lt h)
  have hacc0 : MergeInvGen S (fun id _ => id ∈ ([] : List Nat))
      ⟨⟨[], false, false, S.fm.maxDatafileSize⟩, [], []⟩ := by
    refine ⟨?_, ?_, ?_, ?_, ?_, ?_⟩
    · intro fc hfc
      exact absurd hfc (List.not_mem_nil _)
    · intro h
      simp at h
    · simp
    · intro p hp
      exact absurd hp (List.not_mem_nil _)
    · intro k _
      rfl
    · intro k e _
      exact ⟨fun hP => absurd hP (List.not_mem_nil _), fun _ => rfl⟩
  obtain ⟨acc, hfold, hfin⟩ := mergeFilesFold_spec hInv
    (S.fm.dataFiles.filter (fun df => df.id < S.fm.activeDataFile)) [] _
    (fun df hdf => List.mem_of_mem_filter hdf)
    (fun df _ => List.not_mem_nil _)
    (hsortfil.imp (fun h => Nat.ne_of_lt h))
    hacc0
  rw [List.nil_append] at hfin
  refine ⟨acc, hfin, ?_⟩
  unfold mergeOp
  dsimp only
  rw [hms, hfold]
  dsimp only
  rw [hInv.hints_empty]
  rfl

/-- C2: merge preserves `Get` semantics — on any reachable single-threaded
store state, `Merge` succeeds, deletes the scanned immutable files (every
surviving data file has id ≥ the active id, the copies living in freshly
reserved ids), and for every key `Get` returns the identical result (the
same value bytes or the same key-not-found error) before and after the
merge. -/
theorem merge_preserves_gets {S : Store} (hS : Reachable S) :
    ∃ S', mergeOp S = .ok S' ∧
      (∀ df ∈ S'.fm.dataFiles, ¬ df.id < S.fm.activeDataFile) ∧
      ∀ k, getOp S' k = getOp S k := by
  have hInv := reachable_inv hS
  obtain ⟨acc, hfin, hmeq⟩ := mergeOp_eq hInv
  obtain ⟨hwfA, hhwA, hndA, hhintA, hnoneA, hkdA⟩ := hfin
  have hnewids : ((List.range acc.mw.files.length).map (fun i =>
      (⟨S.fm.nextDataFileNumber + i, S.clock,
        acc.mw.files.getD i []⟩ : DataFile))).map DataFile.id =
      (List.range acc.mw.files.length).map
        (fun i => S.fm.nextDataFileNumber + i) := by
    rw [List.map_map]
    rfl
  have hkept_sorted : List.Pairwise (· < ·) ((S.fm.dataFiles.filter
      (fun df => ¬ df.id < S.fm.activeDataFile)).map DataFile.id) :=
    List.Pairwise.sublist ((List.filter_sublist _).map _) hInv.ids_sorted
  have hnew_sorted : List.Pairwise (· < ·)
      (((List.range acc.mw.files.length).map (fun i =>
        (⟨S.fm.nextDataFileNumber + i, S.clock,
          acc.mw.files.getD i []⟩ : DataFile))).map DataFile.id) := by
    rw [hnewids]
    refine (List.pairwise_map).mpr ?_
    exact (List.pairwise_lt_range _).imp (fun h => by omega)
  have hsort' : List.Pairwise (· < ·)
      (((S.fm.dataFiles.filter (fun df => ¬ df.id < S.fm.activeDataFile)) ++
        (List.range acc.mw.files.length).map (fun i =>
          (⟨S.fm.nextDataFileNumber + i, S.clock,
            acc.mw.files.getD i []⟩ : DataFile))).map DataFile.id) := by
    rw [List.map_append, List.pairwise_append]
    refine ⟨hkept_sorted, hnew_sorted, ?_⟩
    intro a ha b hb
    obtain ⟨df', hdf', hid'⟩ := List.mem_map.mp ha
    rw [hnewids] at hb
    obtain ⟨i, hi, hbi⟩ := List.mem_map.mp hb
    have h1 : df'.id ≤ S.fm.activeDataFile :=
      (hInv.ids_bound df' (List.mem_of_mem_filter hdf')).2
    have h2 := hInv.next_eq
    omega
  refine ⟨_, hmeq, ?_, ?_⟩
  · intro df hdf
    rcases List.mem_append.mp hdf with h | h
    · have := List.of_mem_filter h
      simpa using this
    · obtain ⟨i, hi, hdfi⟩ := List.mem_map.mp h
      have h2 := hInv.next_eq
      rw [← hdfi]
      show ¬ S.fm.nextDataFileNumber + i < S.fm.activeDataFile
      omega
  · intro k
    cases hkd : S.keydir k with
    | none =>
      have hl := hnoneA k hkd
      have hres : applyLocs S.fm.nextDataFileNumber acc.locs S.keydir k =
          S.keydir k := applyLocs_not_mem _ _ _ _ hl
      have hL : getOp
          { fm := { S.fm with
              dataFiles := S.fm.dataFiles.filter
                  (fun df => ¬ df.id < S.fm.activeDataFile) ++
                (List.range acc.mw.files.length).map (fun i =>
                  (⟨S.fm.nextDataFileNumber + i, S.clock,
                    acc.mw.files.getD i []⟩ : DataFile))
              nextDataFileNumber := S.fm.nextDataFileNumber + acc.mw.files.length }
            keydir := applyLocs S.fm.nextDataFileNumber acc.locs S.keydir
            hints := acc.hints.map (fun p =>
              (S.fm.nextDataFileNumber + (p.1 - 1), p.2))
            clock := S.clock } k = .error .keyNotFound := by
        unfold getOp getKeydirRecord
        dsimp only
        rw [hres, hkd]
      have hR : getOp S k = .error .keyNotFound := by
        unfold getOp getKeydirRecord
        rw [hkd]
      rw [hL, hR]
    | some e =>
      obtain ⟨df_c, hdc, hidc, r_c, off_c, hroffc, hkeyc, hndc, heposc, heszc,
        hgetc⟩ := get_spec hInv hkd
      have hle : e.fileId ≤ S.fm.activeDataFile := by
        have h1 := (hInv.ids_bound df_c hdc).2
        omega
      by_cases hmerged : e.fileId < S.fm.activeDataFile
      · have hPm : e.fileId ∈ (S.fm.dataFiles.filter
            (fun df => df.id < S.fm.activeDataFile)).map DataFile.id := by
          refine List.mem_map.mpr ⟨df_c, ?_, hidc⟩
          refine List.mem_filter.mpr ⟨hdc, ?_⟩
          simp only [decide_eq_true_eq]
          omega
        obtain ⟨hP, -⟩ := hkdA k e hkd
        obtain ⟨loc, r, hlook, hsrc, hpi1, hpile, hposge, hrok, hrkey, hrmem,
          hrget⟩ := hP hPm
        have hres := applyLocs_mem S.fm.nextDataFileNumber acc.locs S.keydir k
          loc hndA hlook
        rw [hkd] at hres
        dsimp only at hres
        rw [if_pos hsrc.symm] at hres
        have hilt : loc.pathIdx - 1 < acc.mw.files.length := by omega
        have hmemnew : (⟨S.fm.nextDataFileNumber + (loc.pathIdx - 1), S.clock,
            acc.mw.files.getD (loc.pathIdx - 1) []⟩ : DataFile) ∈
            (List.range acc.mw.files.length).map (fun i =>
              (⟨S.fm.nextDataFileNumber + i, S.clock,
                acc.mw.files.getD i []⟩ : DataFile)) :=
          List.mem_map_of_mem _ (List.mem_range.mpr hilt)
        have hff : findFile ((S.fm.dataFiles.filter
            (fun df => ¬ df.id < S.fm.activeDataFile)) ++
            (List.range acc.mw.files.length).map (fun i =>
              (⟨S.fm.nextDataFileNumber + i, S.clock,
                acc.mw.files.getD i []⟩ : DataFile)))
            (S.fm.nextDataFileNumber + (loc.pathIdx - 1)) =
            some ⟨S.fm.nextDataFileNumber + (loc.pathIdx - 1), S.clock,
              acc.mw.files.getD (loc.pathIdx - 1) []⟩ :=
          findFile_of_mem hsort' (List.mem_append_right _ hmemnew)
        have hwfnew : ∀ r' ∈ (⟨S.fm.nextDataFileNumber + (loc.pathIdx - 1),
            S.clock, acc.mw.files.getD (loc.pathIdx - 1) []⟩ : DataFile).recs,
            recordOK r' := fun r' hr' => hwfA _ (getD_mem_gen _ hilt) r' hr'
        have hread := readValueAt_fileBytes hwfnew hrmem
        have hL : getOp
            { fm := { S.fm with
                dataFiles := S.fm.dataFiles.filter
                    (fun df => ¬ df.id < S.fm.activeDataFile) ++
                  (List.range acc.mw.files.length).map (fun i =>
                    (⟨S.fm.nextDataFileNumber + i, S.clock,
                      acc.mw.files.getD i []⟩ : DataFile))
                nextDataFileNumber := S.fm.nextDataFileNumber + acc.mw.files.length }
              keydir := applyLocs S.fm.nextDataFileNumber acc.locs S.keydir
              hints := acc.hints.map (fun p =>
                (S.fm.nextDataFileNumber + (p.1 - 1), p.2))
              clock := S.clock } k = .ok r.value := by
          unfold getOp getKeydirRecord fmReadValueAt
          dsimp only
          rw [hres]
          dsimp only
          rw [hff]
          dsimp only
          rw [hread]
          rfl
        rw [hL, hrget]
      · obtain ⟨-, hnP⟩ := hkdA k e hkd
        have hl : lookupLoc acc.locs k = none := hnP (by
          intro hc
          obtain ⟨df', hdf', hid'⟩ := List.mem_map.mp hc
          have h1 := List.of_mem_filter hdf'
          simp only [decide_eq_true_eq] at h1
          omega)
        have hres : applyLocs S.fm.nextDataFileNumber acc.locs S.keydir k =
            S.keydir k := applyLocs_not_mem _ _ _ _ hl
        have hdck : df_c ∈ S.fm.dataFiles.filter
            (fun df => ¬ df.id < S.fm.activeDataFile) := by
          refine List.mem_filter.mpr ⟨hdc, ?_⟩
          simp only [decide_eq_true_eq]
          omega
        have hff : findFile ((S.fm.dataFiles.filter
            (fun df => ¬ df.id < S.fm.activeDataFile)) ++
            (List.range acc.mw.files.length).map (fun i =>
              (⟨S.fm.nextDataFileNumber + i, S.clock,
                acc.mw.files.getD i []⟩ : DataFile))) e.fileId = some df_c := by
          rw [← hidc]
          exact findFile_of_mem hsort' (List.mem_append_left _ hdck)
        have hread := readValueAt_fileBytes
          (fun r' hr' => (hInv.recs_ok df_c hdc r' hr').1) hroffc
        have hL : getOp
            { fm := { S.fm with
                dataFiles := S.fm.dataFiles.filter
                    (fun df => ¬ df.id < S.fm.activeDataFile) ++
                  (List.range acc.mw.files.length).map (fun i =>
                    (⟨S.fm.nextDataFileNumber + i, S.clock,
                      acc.mw.files.getD i []⟩ : DataFile))
                nextDataFileNumber := S.fm.nextDataFileNumber + acc.mw.files.length }
              keydir := applyLocs S.fm.nextDataFileNumber acc.locs S.keydir
              hints := acc.hints.map (fun p =>
                (S.fm.nextDataFileNumber + (p.1 - 1), p.2))
              clock := S.clock } k = .ok r_c.value := by
          unfold getOp getKeydirRecord fmReadValueAt
          dsimp only
          rw [hres, hkd]
          dsimp only
          rw [hff]
          dsimp only
          rw [heposc, hread]
          rfl
        rw [hL, hgetc]

/-- Witness for C2 at a concrete store: two puts with a small rotation
threshold make the first file immutable; merge succeeds and both keys read
back unchanged. -/
theorem merge_preserves_gets_witness :
    ∃ S', mergeOp (runOps (createStore 10)
        [.put [1] [2], .put [3] [4]]) = .ok S' ∧
      (∀ df ∈ S'.fm.dataFiles, ¬ df.id <
        (runOps (createStore 10)
          [.put [1] [2], .put [3] [4]]).fm.activeDataFile) ∧
      ∀ k, getOp S' k =
        getOp (runOps (createStore 10) [.put [1] [2], .put [3] [4]]) k :=
  merge_preserves_gets ⟨10, [.put [1] [2], .put [3] [4]],
    (by
      intro op h
      rcases List.mem_cons.mp h with h | h
      · subst h
        exact ⟨by decide, by decide, by decide, by decide⟩
      · rw [List.mem_singleton] at h
        subst h
        exact ⟨by decide, by decide, by decide, by decide⟩),
    by norm_num, rfl⟩

/-- C8 amended: every hint record written during `Merge` carries in
`ValuePos` the FILE-ABSOLUTE offset of the copied record's header in the new
data file — the 19-byte file header included, not subtracted: the record sits
at relative offset `ValuePos - FileHeaderSize`, and `ValuePos ≥ 19`. -/
theorem merge_hint_valuepos_absolute {S : Store} (hS : Reachable S) {S' : Store}
    (hm : mergeOp S = .ok S') :
    ∀ p ∈ S'.hints, ∀ h ∈ p.2, FileHeaderSize ≤ h.valuePos ∧
      ∃ df ∈ S'.fm.dataFiles, df.id = p.1 ∧ ∃ r,
        (r, h.valuePos - FileHeaderSize) ∈ recOffsetsFrom 0 df.recs ∧
        r.key = h.key ∧ r.header.timestamp = h.timestamp ∧
        r.header.keySize = h.keySize ∧ r.header.valueSize = h.valueSize := by
  have hInv := reachable_inv hS
  obtain ⟨acc, hfin, hmeq⟩ := mergeOp_eq hInv
  rw [hmeq] at hm
  injection hm with hm
  subst hm
  obtain ⟨hwfA, -, -, hhintA, -, -⟩ := hfin
  intro p hp h hh
  have hp' : p ∈ acc.hints.map (fun q =>
      (S.fm.nextDataFileNumber + (q.1 - 1), q.2)) := hp
  obtain ⟨q, hq, hq1⟩ := List.mem_map.mp hp'
  obtain ⟨h1b, h2b, h3b⟩ := hhintA q hq
  have hh' : h ∈ q.2 := by
    have hp2 : p.2 = q.2 := by rw [← hq1]
    rw [hp2] at hh
    exact hh
  obtain ⟨hvp, r, hmemr, hkeyr, htsr, hksr, hvsr⟩ := h3b h hh'
  refine ⟨hvp, ⟨S.fm.nextDataFileNumber + (q.1 - 1), S.clock,
    acc.mw.files.getD (q.1 - 1) []⟩, ?_, ?_, r, hmemr, hkeyr, htsr, hksr, hvsr⟩
  · show _ ∈ S.fm.dataFiles.filter (fun df => ¬ df.id < S.fm.activeDataFile) ++
      (List.range acc.mw.files.length).map (fun i =>
        (⟨S.fm.nextDataFileNumber + i, S.clock,
          acc.mw.files.getD i []⟩ : DataFile))
    refine List.mem_append_right _ ?_
    exact List.mem_map_of_mem _ (List.mem_range.mpr (by omega))
  · show S.fm.nextDataFileNumber + (q.1 - 1) = p.1
    rw [← hq1]

/-- Witness for C8's amended theorem on a concrete two-put store whose merge
produces one hint file. -/
theorem merge_hint_valuepos_absolute_witness :
    ∃ S', mergeOp (runOps (createStore 10)
        [.put [1] [2], .put [3] [4]]) = .ok S' ∧
      ∀ p ∈ S'.hints, ∀ h ∈ p.2, FileHeaderSize ≤ h.valuePos ∧
        ∃ df ∈ S'.fm.dataFiles, df.id = p.1 ∧ ∃ r,
          (r, h.valuePos - FileHeaderSize) ∈ recOffsetsFrom 0 df.recs ∧
          r.key = h.key ∧ r.header.timestamp = h.timestamp ∧
          r.header.keySize = h.keySize ∧ r.header.valueSize = h.valueSize := by
  have hreach : Reachable (runOps (createStore 10)
      [.put [1] [2], .put [3] [4]]) :=
    ⟨10, [.put [1] [2], .put [3] [4]],
      (by
        intro op h
        rcases List.mem_cons.mp h with h | h
        · subst h
          exact ⟨by decide, by decide, by decide, by decide⟩
        · rw [List.mem_singleton] at h
          subst h
          exact ⟨by decide, by decide, by decide, by decide⟩),
      by norm_num, rfl⟩
  obtain ⟨acc, -, hmeq⟩ := mergeOp_eq (reachable_inv hreach)
  exact ⟨_, hmeq, merge_hint_valuepos_absolute hreach hmeq⟩

set_option maxRecDepth 4000 in
/-- C8 counterexample: on the concrete two-put store, merging the single
immutable file (the scan loop of `DataStore.Merge` on that file and the
store's keydir) writes one hint record with `ValuePos = 19`, although its
record is the FIRST record of the new merge data file, at offset 0 from the
start of the first record — `ValuePos` is the file-absolute offset, not the
header-relative offset the claim states. -/
theorem merge_hint_valuepos_counterexample :
    (mergeScanLoop (runOps (createStore 10)
          [.put [1] [2], .put [3] [4]]).keydir
        (fileBytes ((runOps (createStore 10)
          [.put [1] [2], .put [3] [4]]).fm.dataFiles.getD 0 ⟨0, 0, []⟩))
        ((runOps (createStore 10)
          [.put [1] [2], .put [3] [4]]).fm.dataFiles.getD 0 ⟨0, 0, []⟩).id 0
        ⟨⟨[], false, false, 10⟩, [], []⟩ 100).map
      (fun acc => (acc.hints.map (fun p => (p.1, p.2.map HintRecord.valuePos)),
        acc.mw.files.map (fun recs =>
          (recOffsetsFrom 0 recs).map (fun q => (q.1.key, q.2))))) =
      .ok ([(1, [19])], [[([1], 0)]]) ∧ (19 : Nat) ≠ 0 :=
  ⟨by decide, by decide⟩

end KVDB
